import Mathlib

/-!
# Bimap: the intrusive dual-tree engine

A shallow embedding of `intrusive_details.h` and `bimap.h`.

Memory model.  A `base_node` is a record of three raw pointers; a raw pointer
is `Option Nat` (`none` is `nullptr`, `some a` the address `a`).  The base nodes
tagged `Left_tag` live in one heap and those tagged `Right_tag` in another, a
heap being a total map from addresses to records.  A `node_t` allocated at
address `e` owns the `Left_tag` node at `e` of the left heap and the
`Right_tag` node at `e` of the right heap, so the `static_cast` chain
`node<Left> -> node_t -> node<Right>` is the identity on addresses.  The
sentinel `fake_` of the left tree sits at address `0` of the left heap, the
sentinel of the right tree at address `1` of the right heap, and `new node_t`
returns the next unused address (`brk`), starting from `2`.

Loops.  Every `while` loop is a recursive function on a fuel argument that
bounds the number of iterations; running out of fuel is `Err.timeout`.
Dereferencing `nullptr` is `Err.undefined`; the `std::out_of_range` thrown
by `at_left` / `at_right` is `Err.out_of_range`.

`size_t` is modelled by `Nat`: every live entry occupies an address of its own,
so the counter cannot wrap upwards, and a decrement at zero can only follow the
erase of something that is not an entry, which is undefined behaviour.
-/

/-- Abnormal outcomes of an operation. -/
inductive Err where
  | out_of_range
  | undefined
  | timeout
deriving DecidableEq

namespace intrusive_details

/-- The struct `base_node`: three raw pointers. -/
structure base_node where
  parent : Option Nat
  left : Option Nat
  right : Option Nat
deriving DecidableEq

/-- The state `base_node() = default` leaves a node in: all pointers null. -/
def base_node.null : base_node := ⟨none, none, none⟩

/-- The base nodes of one tag, by address. -/
abbrev Heap := Nat → base_node

/-- Overwrite the record stored at address `a`. -/
def Heap.set (h : Heap) (a : Nat) (v : base_node) : Heap :=
  fun b => if b = a then v else h b

/-- The assignment `a->parent = p`. -/
def Heap.set_parent (h : Heap) (a : Nat) (p : Option Nat) : Heap :=
  h.set a { h a with parent := p }

/-- The assignment `a->left = p`. -/
def Heap.set_left (h : Heap) (a : Nat) (p : Option Nat) : Heap :=
  h.set a { h a with left := p }

/-- The assignment `a->right = p`. -/
def Heap.set_right (h : Heap) (a : Nat) (p : Option Nat) : Heap :=
  h.set a { h a with right := p }

namespace intrusive_tree

variable {T : Type}

/-- The private `compare(first, second)`: the sentinel is above everything. -/
def compare (cmp : T → T → Bool) (fake : Nat) (value : Nat → T)
    (first second : Nat) : Bool :=
  if first = fake then false
  else if second = fake then true
  else cmp (value first) (value second)

/-- The loop `while (cur->left != nullptr) cur = cur->left; return cur;`
of `begin` and `next`. -/
def descend_left : Nat → Heap → Nat → Except Err Nat
  | 0, _, _ => .error .timeout
  | n + 1, h, cur =>
    match (h cur).left with
    | none => .ok cur
    | some l => descend_left n h l

/-- The loop `while (cur->right != nullptr) cur = cur->right; return cur;`
of `prev`. -/
def descend_right : Nat → Heap → Nat → Except Err Nat
  | 0, _, _ => .error .timeout
  | n + 1, h, cur =>
    match (h cur).right with
    | none => .ok cur
    | some r => descend_right n h r

/-- The function `begin()`. -/
def begin (n : Nat) (fake : Nat) (h : Heap) : Except Err Nat :=
  match (h fake).left with
  | none => .ok fake
  | some c => descend_left n h c

/-- The loop of `insert(x)`, entered with `cur` non-null. -/
def insert_loop (cmp : T → T → Bool) (fake : Nat) (value : Nat → T) (x : Nat) :
    Nat → Heap → Nat → Except Err Heap
  | 0, _, _ => .error .timeout
  | n + 1, h, cur =>
    if !compare cmp fake value x cur then
      match (h cur).right with
      | some r => insert_loop cmp fake value x n h r
      | none => .ok ((h.set_parent x (some cur)).set_right cur (some x))
    else
      match (h cur).left with
      | some l => insert_loop cmp fake value x n h l
      | none => .ok ((h.set_parent x (some cur)).set_left cur (some x))

/-- The function `insert(x)`: the descent starts at the sentinel. -/
def insert (n : Nat) (cmp : T → T → Bool) (fake : Nat) (value : Nat → T)
    (h : Heap) (x : Nat) : Except Err Heap :=
  insert_loop cmp fake value x n h fake

/-- The loop `while (pr != nullptr && x == pr->right) { x = pr; pr = pr->parent; }
return pr;` of `next`. -/
def climb_right : Nat → Heap → Nat → Option Nat → Except Err (Option Nat)
  | 0, _, _, _ => .error .timeout
  | n + 1, h, x, pr =>
    match pr with
    | none => .ok none
    | some p =>
      if (h p).right = some x then climb_right n h p (h p).parent
      else .ok (some p)

/-- The loop `while (pr != nullptr && x == pr->left) { x = pr; pr = pr->parent; }
return pr;` of `prev`. -/
def climb_left : Nat → Heap → Nat → Option Nat → Except Err (Option Nat)
  | 0, _, _, _ => .error .timeout
  | n + 1, h, x, pr =>
    match pr with
    | none => .ok none
    | some p =>
      if (h p).left = some x then climb_left n h p (h p).parent
      else .ok (some p)

/-- The static function `next(x)`. -/
def next (n : Nat) (h : Heap) (x : Option Nat) : Except Err (Option Nat) :=
  match x with
  | none => .ok none
  | some a =>
    match (h a).parent with
    | none => .ok (some a)
    | some pr =>
      match (h a).right with
      | some r =>
        match descend_left n h r with
        | .ok c => .ok (some c)
        | .error e => .error e
      | none => climb_right n h a (some pr)

/-- The static function `prev(x)`. -/
def prev (n : Nat) (h : Heap) (x : Option Nat) : Except Err (Option Nat) :=
  match x with
  | none => .ok none
  | some a =>
    match (h a).left with
    | some l =>
      match descend_right n h l with
      | .ok c => .ok (some c)
      | .error e => .error e
    | none => climb_left n h a (h a).parent

/-- The statement `if (p->left == x) p->left = t; else p->right = t;`, which
`erase` executes on the parent of the unlinked node. -/
def relink (h : Heap) (p x : Nat) (t : Option Nat) : Heap :=
  if (h p).left = some x then h.set_left p t else h.set_right p t

/-- The statement `if (q != nullptr) q->parent = p;`. -/
def adopt (h : Heap) (q : Option Nat) (p : Option Nat) : Heap :=
  match q with
  | some c => h.set_parent c p
  | none => h

/-- The two-children branch of `erase(x)`, after `tmp = next(x)` has been
dereferenced to `tmp` and `tmp->parent` to `tp`:
the successor is unlinked from its place and takes over the links of `x`. -/
def erase_splice (h : Heap) (x tmp tp : Nat) (pr : Option Nat) : Heap :=
  let h1 := relink h tp tmp (h tmp).right
  let h2 := adopt h1 (h1 tmp).right (h1 tmp).parent
  let h3 := h2.set_parent tmp pr
  let h4 := h3.set_left tmp (h3 x).left
  let h5 := h4.set_right tmp (h4 x).right
  let h6 := adopt h5 (h5 tmp).right (some tmp)
  adopt h6 (h6 tmp).left (some tmp)

/-- The function `erase(x)`. -/
def erase (n : Nat) (h : Heap) (x : Nat) : Except Err Heap :=
  let pr := (h x).parent
  let finish (h1 : Heap) (tmp : Option Nat) : Except Err Heap :=
    match pr with
    | none => .error .undefined
    | some p => .ok (relink h1 p x tmp)
  match (h x).left, (h x).right with
  | none, none => finish h none
  | some l, none => finish (h.set_parent l pr) (some l)
  | none, some r => finish (h.set_parent r pr) (some r)
  | some _, some _ =>
    match next n h (some x) with
    | .error e => .error e
    | .ok none => .error .undefined
    | .ok (some tmp) =>
      match (h tmp).parent with
      | none => .error .undefined
      | some tp => finish (erase_splice h x tmp tp pr) (some tmp)

/-- The loop of `lower_bound(x)`. -/
def lower_bound_loop (cmp : T → T → Bool) (value : Nat → T) (x : T) :
    Nat → Heap → Option Nat → Option Nat → Except Err (Option Nat)
  | 0, _, _, _ => .error .timeout
  | n + 1, h, cur, answer =>
    match cur with
    | none => .ok answer
    | some c =>
      if !cmp (value c) x then lower_bound_loop cmp value x n h (h c).left (some c)
      else lower_bound_loop cmp value x n h (h c).right answer

/-- The function `lower_bound(x)`. -/
def lower_bound (n : Nat) (cmp : T → T → Bool) (fake : Nat) (value : Nat → T)
    (h : Heap) (x : T) : Except Err Nat :=
  match lower_bound_loop cmp value x n h (h fake).left none with
  | .error e => .error e
  | .ok none => .ok fake
  | .ok (some a) => .ok a

/-- The function `find(x)`: a null result means absent. -/
def find (n : Nat) (cmp : T → T → Bool) (fake : Nat) (value : Nat → T)
    (h : Heap) (x : T) : Except Err (Option Nat) :=
  match lower_bound n cmp fake value h x with
  | .error e => .error e
  | .ok lb =>
    if lb ≠ fake ∧ (!cmp (value lb) x && !cmp x (value lb)) = true then .ok (some lb)
    else .ok none

/-- The function `upper_bound(x)`. -/
def upper_bound (n : Nat) (cmp : T → T → Bool) (fake : Nat) (value : Nat → T)
    (h : Heap) (x : T) : Except Err Nat :=
  match lower_bound n cmp fake value h x with
  | .error e => .error e
  | .ok lb =>
    if lb ≠ fake ∧ cmp x (value lb) = true then .ok lb
    else
      match next n h (some lb) with
      | .error e => .error e
      | .ok none => .ok fake
      | .ok (some a) => .ok a

end intrusive_tree

end intrusive_details

open intrusive_details

/-- The struct `bimap`: the two comparators (the `Compare` bases of the two
trees), the memory holding both sentinels and every `node_t`, the counter
`size_`, and the allocator's next unused address. -/
structure bimap (L R : Type) where
  cmp_left : L → L → Bool
  cmp_right : R → R → Bool
  lmem : Heap
  rmem : Heap
  lvalue : Nat → L
  rvalue : Nat → R
  size_ : Nat
  brk : Nat

namespace bimap

variable {L R : Type}

/-- Address of `left_tree.fake_`. -/
def left_fake : Nat := 0

/-- Address of `right_tree.fake_`. -/
def right_fake : Nat := 1

/-- The constructor `bimap(compare_left, compare_right)`: both sentinels are
null nodes whose `right` pointers are then crossed by `set_fake_right`.  The
last two arguments are the contents of the storage no `node_t` occupies yet. -/
def empty (compare_left : L → L → Bool) (compare_right : R → R → Bool)
    (lstorage : Nat → L) (rstorage : Nat → R) : bimap L R :=
  { cmp_left := compare_left
    cmp_right := compare_right
    lmem := Heap.set_right (fun _ => base_node.null) left_fake (some right_fake)
    rmem := Heap.set_right (fun _ => base_node.null) right_fake (some left_fake)
    lvalue := lstorage
    rvalue := rstorage
    size_ := 0
    brk := 2 }

/-- The function `end_left()`. -/
def end_left (_b : bimap L R) : Option Nat := some left_fake

/-- The function `end_right()`. -/
def end_right (_b : bimap L R) : Option Nat := some right_fake

/-- The function `begin_left()`. -/
def begin_left (n : Nat) (b : bimap L R) : Except Err (Option Nat) :=
  match intrusive_tree.begin n left_fake b.lmem with
  | .ok a => .ok (some a)
  | .error e => .error e

/-- The function `begin_right()`. -/
def begin_right (n : Nat) (b : bimap L R) : Except Err (Option Nat) :=
  match intrusive_tree.begin n right_fake b.rmem with
  | .ok a => .ok (some a)
  | .error e => .error e

/-- Dereferencing a left iterator, `operator*`. -/
def deref_left (b : bimap L R) (it : Option Nat) : Except Err L :=
  match it with
  | some a => .ok (b.lvalue a)
  | none => .error .undefined

/-- Dereferencing a right iterator, `operator*`. -/
def deref_right (b : bimap L R) (it : Option Nat) : Except Err R :=
  match it with
  | some a => .ok (b.rvalue a)
  | none => .error .undefined

/-- Incrementing a left iterator, `operator++`. -/
def incr_left (n : Nat) (b : bimap L R) (it : Option Nat) : Except Err (Option Nat) :=
  intrusive_tree.next n b.lmem it

/-- Incrementing a right iterator, `operator++`. -/
def incr_right (n : Nat) (b : bimap L R) (it : Option Nat) : Except Err (Option Nat) :=
  intrusive_tree.next n b.rmem it

/-- Decrementing a left iterator, `operator--`. -/
def decr_left (n : Nat) (b : bimap L R) (it : Option Nat) : Except Err (Option Nat) :=
  intrusive_tree.prev n b.lmem it

/-- Decrementing a right iterator, `operator--`. -/
def decr_right (n : Nat) (b : bimap L R) (it : Option Nat) : Except Err (Option Nat) :=
  intrusive_tree.prev n b.rmem it

/-- The function `flip()` of a left iterator; the result is a right iterator. -/
def flip_left (b : bimap L R) (it : Option Nat) : Except Err (Option Nat) :=
  match it with
  | none => .error .undefined
  | some a =>
    match (b.lmem a).parent with
    | none => .ok (b.lmem a).right
    | some _ => .ok (some a)

/-- The function `flip()` of a right iterator; the result is a left iterator. -/
def flip_right (b : bimap L R) (it : Option Nat) : Except Err (Option Nat) :=
  match it with
  | none => .error .undefined
  | some a =>
    match (b.rmem a).parent with
    | none => .ok (b.rmem a).right
    | some _ => .ok (some a)

/-- The function `find_left(left)`. -/
def find_left (n : Nat) (b : bimap L R) (left : L) : Except Err (Option Nat) :=
  match intrusive_tree.find n b.cmp_left left_fake b.lvalue b.lmem left with
  | .error e => .error e
  | .ok (some a) => .ok (some a)
  | .ok none => .ok b.end_left

/-- The function `find_right(right)`. -/
def find_right (n : Nat) (b : bimap L R) (right : R) : Except Err (Option Nat) :=
  match intrusive_tree.find n b.cmp_right right_fake b.rvalue b.rmem right with
  | .error e => .error e
  | .ok (some a) => .ok (some a)
  | .ok none => .ok b.end_right

/-- The expression `new node_t(left, right)`: a fresh address whose two base
nodes are null and whose two values are the arguments. -/
def new_node_t (b : bimap L R) (left : L) (right : R) : bimap L R × Nat :=
  ({ b with
      lmem := b.lmem.set b.brk base_node.null
      rmem := b.rmem.set b.brk base_node.null
      lvalue := fun a => if a = b.brk then left else b.lvalue a
      rvalue := fun a => if a = b.brk then right else b.rvalue a
      brk := b.brk + 1 }, b.brk)

/-- The function `insert_(left, right)`, which every `insert` overload calls. -/
def insert_ (n : Nat) (b : bimap L R) (left : L) (right : R) :
    Except Err (bimap L R × Option Nat) :=
  match find_left n b left with
  | .error e => .error e
  | .ok fl =>
    if fl ≠ b.end_left then .ok (b, b.end_left)
    else
      match find_right n b right with
      | .error e => .error e
      | .ok fr =>
        if fr ≠ b.end_right then .ok (b, b.end_left)
        else
          let (b1, new_node) := new_node_t b left right
          match intrusive_tree.insert n b1.cmp_left left_fake b1.lvalue b1.lmem new_node with
          | .error e => .error e
          | .ok lm =>
            match intrusive_tree.insert n b1.cmp_right right_fake b1.rvalue b1.rmem new_node with
            | .error e => .error e
            | .ok rm =>
              .ok ({ b1 with lmem := lm, rmem := rm, size_ := b1.size_ + 1 }, some new_node)

/-- The function `insert(left, right)`. -/
def insert (n : Nat) (b : bimap L R) (left : L) (right : R) :
    Except Err (bimap L R × Option Nat) :=
  insert_ n b left right

/-- The tail of `erase_(it)` shared by both instantiations: the entry is
unlinked from the left tree, then from the right tree, and `size_` drops. -/
def erase_node_t (n : Nat) (b : bimap L R) (tmp : Nat) : Except Err (bimap L R) :=
  match intrusive_tree.erase n b.lmem tmp with
  | .error e => .error e
  | .ok lm =>
    match intrusive_tree.erase n b.rmem tmp with
    | .error e => .error e
    | .ok rm => .ok { b with lmem := lm, rmem := rm, size_ := b.size_ - 1 }

/-- The function `erase_(it)` at `Iter = left_iterator`, i.e. `erase_left(it)`. -/
def erase_left_it (n : Nat) (b : bimap L R) (it : Option Nat) :
    Except Err (bimap L R × Option Nat) :=
  match it with
  | none => .ok (b, none)
  | some a =>
    match incr_left n b (some a) with
    | .error e => .error e
    | .ok res =>
      match erase_node_t n b a with
      | .error e => .error e
      | .ok b1 => .ok (b1, res)

/-- The function `erase_(it)` at `Iter = right_iterator`, i.e. `erase_right(it)`. -/
def erase_right_it (n : Nat) (b : bimap L R) (it : Option Nat) :
    Except Err (bimap L R × Option Nat) :=
  match it with
  | none => .ok (b, none)
  | some a =>
    match incr_right n b (some a) with
    | .error e => .error e
    | .ok res =>
      match erase_node_t n b a with
      | .error e => .error e
      | .ok b1 => .ok (b1, res)

/-- The function `erase_left(left)` by key. -/
def erase_left (n : Nat) (b : bimap L R) (left : L) : Except Err (bimap L R × Bool) :=
  match find_left n b left with
  | .error e => .error e
  | .ok tmp =>
    if tmp ≠ b.end_left then
      match erase_left_it n b tmp with
      | .error e => .error e
      | .ok (b1, _) => .ok (b1, true)
    else .ok (b, false)

/-- The function `erase_right(right)` by key. -/
def erase_right (n : Nat) (b : bimap L R) (right : R) : Except Err (bimap L R × Bool) :=
  match find_right n b right with
  | .error e => .error e
  | .ok tmp =>
    if tmp ≠ b.end_right then
      match erase_right_it n b tmp with
      | .error e => .error e
      | .ok (b1, _) => .ok (b1, true)
    else .ok (b, false)

/-- The function `erase_first_last(first, last)` at `T = left_iterator`, i.e.
`erase_left(first, last)`; the first argument bounds the loop. -/
def erase_left_range (n : Nat) : Nat → bimap L R → Option Nat → Option Nat →
    Except Err (bimap L R × Option Nat)
  | 0, _, _, _ => .error .timeout
  | k + 1, b, first, last =>
    if first ≠ last then
      match erase_left_it n b first with
      | .error e => .error e
      | .ok (b1, nx) => erase_left_range n k b1 nx last
    else .ok (b, last)

/-- The function `erase_first_last(first, last)` at `T = right_iterator`, i.e.
`erase_right(first, last)`. -/
def erase_right_range (n : Nat) : Nat → bimap L R → Option Nat → Option Nat →
    Except Err (bimap L R × Option Nat)
  | 0, _, _, _ => .error .timeout
  | k + 1, b, first, last =>
    if first ≠ last then
      match erase_right_it n b first with
      | .error e => .error e
      | .ok (b1, nx) => erase_right_range n k b1 nx last
    else .ok (b, last)

/-- The function `at_left(key)`. -/
def at_left (n : Nat) (b : bimap L R) (key : L) : Except Err R :=
  match find_left n b key with
  | .error e => .error e
  | .ok it =>
    if it = b.end_left then .error .out_of_range
    else
      match flip_left b it with
      | .error e => .error e
      | .ok f => deref_right b f

/-- The function `at_right(key)`. -/
def at_right (n : Nat) (b : bimap L R) (key : R) : Except Err L :=
  match find_right n b key with
  | .error e => .error e
  | .ok it =>
    if it = b.end_right then .error .out_of_range
    else
      match flip_right b it with
      | .error e => .error e
      | .ok f => deref_left b f

/-- The function `at_left_or_default(key)`; `dflt` is the value `right_t()`.
The result is the new state and the value the returned reference designates.
The `enable_if` guard of the template admits a key of type `right_t` only; the
key reaches `find_left` and the node converted to `left_t`, which is the
`key : L` taken here. -/
def at_left_or_default (n : Nat) (b : bimap L R) (dflt : R) (key : L) :
    Except Err (bimap L R × R) :=
  match find_left n b key with
  | .error e => .error e
  | .ok left_it =>
    if left_it ≠ b.end_left then
      match flip_left b left_it with
      | .error e => .error e
      | .ok f =>
        match deref_right b f with
        | .error e => .error e
        | .ok r => .ok (b, r)
    else
      match find_right n b dflt with
      | .error e => .error e
      | .ok right_it =>
        if right_it ≠ b.end_right then
          match right_it with
          | none => .error .undefined
          | some a =>
            match intrusive_tree.erase n b.lmem a with
            | .error e => .error e
            | .ok lm1 =>
              let b1 := { b with lmem := lm1 }
              match flip_right b1 right_it with
              | .error e => .error e
              | .ok none => .error .undefined
              | .ok (some left_node_) =>
                let b2 := { b1 with
                  lvalue := fun c => if c = left_node_ then key else b1.lvalue c }
                match intrusive_tree.insert n b2.cmp_left left_fake b2.lvalue b2.lmem a with
                | .error e => .error e
                | .ok lm2 =>
                  let b3 := { b2 with lmem := lm2 }
                  match deref_right b3 right_it with
                  | .error e => .error e
                  | .ok r => .ok (b3, r)
        else
          match insert n b key dflt with
          | .error e => .error e
          | .ok (b1, it) =>
            match flip_left b1 it with
            | .error e => .error e
            | .ok f =>
              match deref_right b1 f with
              | .error e => .error e
              | .ok r => .ok (b1, r)

/-- The function `at_right_or_default(key)`; `dflt` is the value `left_t()`.
The `enable_if` guard admits a key of type `left_t` only; it reaches
`find_right` and the node converted to `right_t`, the `key : R` taken here. -/
def at_right_or_default (n : Nat) (b : bimap L R) (dflt : L) (key : R) :
    Except Err (bimap L R × L) :=
  match find_right n b key with
  | .error e => .error e
  | .ok right_it =>
    if right_it ≠ b.end_right then
      match flip_right b right_it with
      | .error e => .error e
      | .ok f =>
        match deref_left b f with
        | .error e => .error e
        | .ok l => .ok (b, l)
    else
      match find_left n b dflt with
      | .error e => .error e
      | .ok left_it =>
        if left_it ≠ b.end_left then
          match left_it with
          | none => .error .undefined
          | some a =>
            match intrusive_tree.erase n b.rmem a with
            | .error e => .error e
            | .ok rm1 =>
              let b1 := { b with rmem := rm1 }
              match flip_left b1 left_it with
              | .error e => .error e
              | .ok none => .error .undefined
              | .ok (some right_node_) =>
                let b2 := { b1 with
                  rvalue := fun c => if c = right_node_ then key else b1.rvalue c }
                match intrusive_tree.insert n b2.cmp_right right_fake b2.rvalue b2.rmem a with
                | .error e => .error e
                | .ok rm2 =>
                  let b3 := { b2 with rmem := rm2 }
                  match deref_left b3 left_it with
                  | .error e => .error e
                  | .ok l => .ok (b3, l)
        else
          match insert n b dflt key with
          | .error e => .error e
          | .ok (b1, it) =>
            match deref_left b1 it with
            | .error e => .error e
            | .ok l => .ok (b1, l)

/-- The loop `for (it = first; it != end(); ++it)` over one tree, collecting
the positions it visits; `stop` is the address of the sentinel and the fourth
argument bounds the number of iterations. -/
def walk (n : Nat) (h : Heap) (stop : Nat) : Nat → Option Nat → Except Err (List Nat)
  | 0, _ => .error .timeout
  | k + 1, it =>
    if it = some stop then .ok []
    else
      match it with
      | none => .error .undefined
      | some a =>
        match intrusive_tree.next n h it with
        | .error e => .error e
        | .ok nx =>
          match walk n h stop k nx with
          | .error e => .error e
          | .ok rest => .ok (a :: rest)

/-- The positions met from `begin_left()` by `++` up to `end_left()`. -/
def positions_left (n : Nat) (b : bimap L R) : Except Err (List Nat) :=
  match begin_left n b with
  | .error e => .error e
  | .ok it => walk n b.lmem left_fake n it

/-- The positions met from `begin_right()` by `++` up to `end_right()`. -/
def positions_right (n : Nat) (b : bimap L R) : Except Err (List Nat) :=
  match begin_right n b with
  | .error e => .error e
  | .ok it => walk n b.rmem right_fake n it

/-- The pair `(*it, *it.flip())` read at a left position. -/
def pair_at_left (b : bimap L R) (a : Nat) : Except Err (L × R) :=
  match deref_left b (some a) with
  | .error e => .error e
  | .ok l =>
    match flip_left b (some a) with
    | .error e => .error e
    | .ok f =>
      match deref_right b f with
      | .error e => .error e
      | .ok r => .ok (l, r)

/-- The pair `(*it.flip(), *it)` read at a right position. -/
def pair_at_right (b : bimap L R) (a : Nat) : Except Err (L × R) :=
  match deref_right b (some a) with
  | .error e => .error e
  | .ok r =>
    match flip_right b (some a) with
    | .error e => .error e
    | .ok f =>
      match deref_left b f with
      | .error e => .error e
      | .ok l => .ok (l, r)

/-- Reading a pair at every position of a list, in order. -/
def read_all (rd : Nat → Except Err (L × R)) : List Nat → Except Err (List (L × R))
  | [] => .ok []
  | a :: rest =>
    match rd a with
    | .error e => .error e
    | .ok p =>
      match read_all rd rest with
      | .error e => .error e
      | .ok ps => .ok (p :: ps)

/-- The sequence of pairs in left order: `(*it, *it.flip())` for `it` from
`begin_left()` to `end_left()`. -/
def pairs_left (n : Nat) (b : bimap L R) : Except Err (List (L × R)) :=
  match positions_left n b with
  | .error e => .error e
  | .ok ps => read_all (pair_at_left b) ps

/-- The sequence of pairs in right order: `(*it.flip(), *it)` for `it` from
`begin_right()` to `end_right()`. -/
def pairs_right (n : Nat) (b : bimap L R) : Except Err (List (L × R)) :=
  match positions_right n b with
  | .error e => .error e
  | .ok ps => read_all (pair_at_right b) ps

end bimap

/-! ## The abstract view used by the proofs -/

/-- A binary tree of node addresses: the shape a heap lays out below a link. -/
inductive NodeTree where
  | nil : NodeTree
  | node (l : NodeTree) (a : Nat) (r : NodeTree) : NodeTree

namespace NodeTree

/-- In-order sequence of the addresses. -/
def toList : NodeTree → List Nat
  | nil => []
  | node l a r => l.toList ++ a :: r.toList

/-- The pointer that designates the tree: null when it is empty. -/
def root : NodeTree → Option Nat
  | nil => none
  | node _ a _ => some a

/-- The leftmost address below `a`, or `a` itself. -/
def first : NodeTree → Nat → Nat
  | nil, d => d
  | node l a _, _ => first l a

/-- The tree without its leftmost node. -/
def removeMin : NodeTree → NodeTree
  | nil => nil
  | node nil _ r => r
  | node (node ll b lr) a r => node (removeMin (node ll b lr)) a r

/-- Number of links followed from the last node up to the root along the
right spine. -/
def rspine : NodeTree → Nat
  | nil => 0
  | node _ _ nil => 0
  | node _ _ (node rl b rr) => rspine (node rl b rr) + 1

/-- Attaching `x` as a leaf, descending to the right exactly where `goRight`
says so. -/
def ins (goRight : Nat → Bool) (x : Nat) : NodeTree → NodeTree
  | nil => node nil x nil
  | node l a r => if goRight a then node l a (ins goRight x r) else node (ins goRight x l) a r

/-- The answer of the lower-bound descent: the last node at which the descent
turned left, or the initial answer. -/
def lowerBound (notLess : Nat → Bool) : NodeTree → Option Nat → Option Nat
  | nil, ans => ans
  | node l a r, ans => if notLess a then lowerBound notLess l (some a) else lowerBound notLess r ans

/-- Unlinking the node `x`: a leaf disappears, a node with one child is
replaced by that child, a node with two children by its in-order successor. -/
def remove (x : Nat) : NodeTree → NodeTree
  | nil => nil
  | node l a r =>
    if a = x then
      match l, r with
      | nil, nil => nil
      | node ll b lr, nil => node ll b lr
      | nil, node rl c rr => node rl c rr
      | node ll b lr, node rl c rr =>
        node (node ll b lr) (first rl c) (removeMin (node rl c rr))
    else if x ∈ l.toList then node (remove x l) a r
    else node l a (remove x r)

end NodeTree

/-- The heap lays out the tree `t` below a node `p`: every node of `t` has the
parent and children the tree says. -/
def Shape (h : Heap) : NodeTree → Nat → Prop
  | .nil, _ => True
  | .node l a r, p =>
    (h a).parent = some p ∧ (h a).left = l.root ∧ (h a).right = r.root ∧
      Shape h l a ∧ Shape h r a

/-- The element following `a` in a list, if any. -/
def nextIn : List Nat → Nat → Option Nat
  | [], _ => none
  | [_], _ => none
  | x :: y :: rest, a => if a = x then some y else nextIn (y :: rest) a

/-- The precondition on a comparator: a strict weak order. -/
structure StrictWeakOrder {T : Type} (lt : T → T → Bool) : Prop where
  irrefl : ∀ a, lt a a = false
  trans : ∀ a b c, lt a b = true → lt b c = true → lt a c = true
  incomp : ∀ a b c, lt a b = false → lt b c = false → lt a c = false

/-- Equivalence under a comparator: neither value is less than the other. -/
def equivalent {T : Type} (lt : T → T → Bool) (a b : T) : Prop :=
  lt a b = false ∧ lt b a = false

/-- A well-formed tree: the sentinel at `f` anchors the layout of `t`, no
address occurs twice, and the in-order sequence is strictly increasing. -/
structure TreeInv {T : Type} (lt : T → T → Bool) (value : Nat → T) (h : Heap) (f : Nat)
    (t : NodeTree) : Prop where
  fake_parent : (h f).parent = none
  fake_left : (h f).left = t.root
  shape : Shape h t f
  nodup : (f :: t.toList).Nodup
  sorted : t.toList.Pairwise (fun a b => lt (value a) (value b) = true)

namespace bimap

variable {L R : Type}

/-- The representation invariant of a bimap: both trees are well formed over
the same entries, which are allocated addresses, the count is right and the
sentinels point at each other. -/
structure Inv (b : bimap L R) (tl tr : NodeTree) : Prop where
  left : TreeInv b.cmp_left b.lvalue b.lmem left_fake tl
  right : TreeInv b.cmp_right b.rvalue b.rmem right_fake tr
  perm : tl.toList.Perm tr.toList
  size : b.size_ = tl.toList.length
  alloc : ∀ a ∈ tl.toList, 2 ≤ a ∧ a < b.brk
  cross_left : (b.lmem left_fake).right = some right_fake
  cross_right : (b.rmem right_fake).right = some left_fake
  brk_pos : 2 ≤ b.brk

end bimap

/-- The record of `p` in `h'` is that in `h` except that the child link which
held `old` now holds `new`: the left link if it held `old`, else the right one. -/
def Relinked (h h' : Heap) (p : Nat) (old new : Option Nat) : Prop :=
  (h' p).parent = (h p).parent ∧
    if (h p).left = old then (h' p).left = new ∧ (h' p).right = (h p).right
    else (h' p).left = (h p).left ∧ (h' p).right = new

/-- The first two steps of `erase_splice`: the successor `tmp` is cut out of
its place below `tp`. -/
def unlink (h : Heap) (tmp tp : Nat) : Heap :=
  let h1 := intrusive_tree.relink h tp tmp (h tmp).right
  intrusive_tree.adopt h1 (h1 tmp).right (h1 tmp).parent

namespace bimap

variable {L R : Type}

/-- A well-formed bimap: built from an empty one, whose comparators are strict
weak orders, by inserts and by erases of keys, of live positions and of ranges
of live positions.  Each operation is run with fuel above the current size,
which lets every loop of it finish. -/
inductive WellFormed : bimap L R → Prop
  | empty (cl : L → L → Bool) (cr : R → R → Bool) (lv : Nat → L) (rv : Nat → R)
      (hl : StrictWeakOrder cl) (hr : StrictWeakOrder cr) :
      WellFormed (bimap.empty cl cr lv rv)
  | insert {b b' : bimap L R} {n : Nat} {l : L} {r : R} {it : Option Nat} :
      WellFormed b → b.size_ < n → insert n b l r = .ok (b', it) → WellFormed b'
  | erase_left {b b' : bimap L R} {n : Nat} {k : L} {found : Bool} :
      WellFormed b → b.size_ < n → erase_left n b k = .ok (b', found) → WellFormed b'
  | erase_right {b b' : bimap L R} {n : Nat} {k : R} {found : Bool} :
      WellFormed b → b.size_ < n → erase_right n b k = .ok (b', found) → WellFormed b'
  | erase_left_it {b b' : bimap L R} {n a : Nat} {ps : List Nat} {it : Option Nat} :
      WellFormed b → b.size_ < n → positions_left n b = .ok ps → a ∈ ps →
      erase_left_it n b (some a) = .ok (b', it) → WellFormed b'
  | erase_right_it {b b' : bimap L R} {n a : Nat} {ps : List Nat} {it : Option Nat} :
      WellFormed b → b.size_ < n → positions_right n b = .ok ps → a ∈ ps →
      erase_right_it n b (some a) = .ok (b', it) → WellFormed b'
  | erase_left_range {b b' : bimap L R} {n k i j : Nat} {ps : List Nat}
      {first last it : Option Nat} :
      WellFormed b → b.size_ < n → b.size_ < k → positions_left n b = .ok ps →
      (ps.map some ++ [b.end_left])[i]? = some first →
      (ps.map some ++ [b.end_left])[j]? = some last → i ≤ j →
      erase_left_range n k b first last = .ok (b', it) → WellFormed b'
  | erase_right_range {b b' : bimap L R} {n k i j : Nat} {ps : List Nat}
      {first last it : Option Nat} :
      WellFormed b → b.size_ < n → b.size_ < k → positions_right n b = .ok ps →
      (ps.map some ++ [b.end_right])[i]? = some first →
      (ps.map some ++ [b.end_right])[j]? = some last → i ≤ j →
      erase_right_range n k b first last = .ok (b', it) → WellFormed b'

end bimap

/-! ## Concrete bimaps used by the examples -/

/-- The comparator `std::less` on naturals. -/
def lt_nat (a b : Nat) : Bool := decide (a < b)

/-- An empty `bimap<nat, nat>`. -/
def sample_empty : bimap Nat Nat := bimap.empty lt_nat lt_nat (fun _ => 0) (fun _ => 0)

/-- The state an operation leaves behind (the empty bimap if it failed). -/
def state_of {α : Type} (r : Except Err (bimap Nat Nat × α)) : bimap Nat Nat :=
  match r with
  | .ok (b, _) => b
  | .error _ => sample_empty

/-- After `insert(2, 0)`. -/
def sample_one : bimap Nat Nat := state_of (bimap.insert 5 sample_empty 2 0)

/-- After `insert(2, 0)` and `insert(1, 5)`: in the left tree the node of
`(2, 0)` is the root and the node of `(1, 5)` its left child. -/
def sample_two : bimap Nat Nat := state_of (bimap.insert 5 sample_one 1 5)

/-- After `insert(2, 0)`, `insert(1, 5)` and `at_left_or_default(3)`, the
default right value being `0`. -/
def sample_stale : bimap Nat Nat := state_of (bimap.at_left_or_default 5 sample_two 0 3)

/-- After `insert(1, 5)` and `insert(2, 0)`: in the left tree the node of
`(2, 0)` is a leaf. -/
def sample_leaf : bimap Nat Nat :=
  state_of (bimap.insert 5 (state_of (bimap.insert 5 sample_empty 1 5)) 2 0)

/-- After `insert(1, 5)`, `insert(2, 0)` and `at_left_or_default(3)`, the
default right value being `0`. -/
def sample_repurposed : bimap Nat Nat := state_of (bimap.at_left_or_default 5 sample_leaf 0 3)

namespace bimap

variable {L R : Type}

/-- The function `lower_bound_left(left)`. -/
def lower_bound_left (n : Nat) (b : bimap L R) (left : L) : Except Err (Option Nat) :=
  match intrusive_tree.lower_bound n b.cmp_left left_fake b.lvalue b.lmem left with
  | .error e => .error e
  | .ok a => .ok (some a)

/-- The function `upper_bound_left(left)`. -/
def upper_bound_left (n : Nat) (b : bimap L R) (left : L) : Except Err (Option Nat) :=
  match intrusive_tree.upper_bound n b.cmp_left left_fake b.lvalue b.lmem left with
  | .error e => .error e
  | .ok a => .ok (some a)

/-- The function `lower_bound_right(right)`. -/
def lower_bound_right (n : Nat) (b : bimap L R) (right : R) : Except Err (Option Nat) :=
  match intrusive_tree.lower_bound n b.cmp_right right_fake b.rvalue b.rmem right with
  | .error e => .error e
  | .ok a => .ok (some a)

/-- The function `upper_bound_right(right)`. -/
def upper_bound_right (n : Nat) (b : bimap L R) (right : R) : Except Err (Option Nat) :=
  match intrusive_tree.upper_bound n b.cmp_right right_fake b.rvalue b.rmem right with
  | .error e => .error e
  | .ok a => .ok (some a)

end bimap

namespace bimap

variable {L R : Type}

/-- The loop of `operator==(a, b)`: as long as `it_a` is not `a.end_left()` the
four comparisons, all made with the comparators of `a`, are evaluated from left
to right (the two `flip()` calls only if neither left comparison holds), and
both iterators are incremented. -/
def eq_loop (n : Nat) (a b : bimap L R) : Nat → Option Nat → Option Nat → Except Err Bool
  | 0, _, _ => .error .timeout
  | k + 1, it_a, it_b =>
    if it_a ≠ a.end_left then
      match deref_left a it_a with
      | .error e => .error e
      | .ok la =>
        match deref_left b it_b with
        | .error e => .error e
        | .ok lb =>
          if a.cmp_left la lb || a.cmp_left lb la then .ok false
          else
            match flip_left a it_a with
            | .error e => .error e
            | .ok fa =>
              match deref_right a fa with
              | .error e => .error e
              | .ok ra =>
                match flip_left b it_b with
                | .error e => .error e
                | .ok fb =>
                  match deref_right b fb with
                  | .error e => .error e
                  | .ok rb =>
                    if a.cmp_right ra rb || a.cmp_right rb ra then .ok false
                    else
                      match incr_left n a it_a with
                      | .error e => .error e
                      | .ok na =>
                        match incr_left n b it_b with
                        | .error e => .error e
                        | .ok nb => eq_loop n a b k na nb
    else .ok true

/-- The friend function `operator==(a, b)`. -/
def eq (n : Nat) (a b : bimap L R) : Except Err Bool :=
  if a.size_ ≠ b.size_ then .ok false
  else
    match begin_left n a with
    | .error e => .error e
    | .ok it_a =>
      match begin_left n b with
      | .error e => .error e
      | .ok it_b => eq_loop n a b n it_a it_b

/-- The friend function `operator!=(a, b)`. -/
def ne (n : Nat) (a b : bimap L R) : Except Err Bool :=
  match eq n a b with
  | .error e => .error e
  | .ok r => .ok (!r)

end bimap

namespace bimap

variable {L R : Type}

/-- The members of a `bimap` as their default initialisers leave them, which is
the state in which the body of `bimap(bimap const&)` starts: `size_{0}` and two
default-constructed trees, whose comparators are the default-constructed
`CompareLeft()` and `CompareRight()` (the arguments `compare_left` and
`compare_right`) and whose sentinels have all three pointers null.  The last two
arguments are the contents of the storage no `node_t` occupies yet. -/
def default_members (compare_left : L → L → Bool) (compare_right : R → R → Bool)
    (lstorage : Nat → L) (rstorage : Nat → R) : bimap L R :=
  { cmp_left := compare_left
    cmp_right := compare_right
    lmem := fun _ => base_node.null
    rmem := fun _ => base_node.null
    lvalue := lstorage
    rvalue := rstorage
    size_ := 0
    brk := 2 }

/-- The function `insert_(left, right)` at `L = left_t const&`, `R = right_t
const&`, where `new node_t(left, right)` copies both values and the copy of a
value `v` throws when `throws_left v` (`throws_right v`) holds.  The result
`.ok none` stands for the exception leaving `insert_`, which happens after the
two searches and before anything is linked or counted. -/
def insert_copying (n : Nat) (throws_left : L → Bool) (throws_right : R → Bool)
    (b : bimap L R) (left : L) (right : R) :
    Except Err (Option (bimap L R × Option Nat)) :=
  match find_left n b left with
  | .error e => .error e
  | .ok fl =>
    if fl ≠ b.end_left then .ok (some (b, b.end_left))
    else
      match find_right n b right with
      | .error e => .error e
      | .ok fr =>
        if fr ≠ b.end_right then .ok (some (b, b.end_left))
        else if throws_left left || throws_right right then .ok none
        else
          let (b1, new_node) := new_node_t b left right
          match intrusive_tree.insert n b1.cmp_left left_fake b1.lvalue b1.lmem new_node with
          | .error e => .error e
          | .ok lm =>
            match intrusive_tree.insert n b1.cmp_right right_fake b1.rvalue b1.rmem new_node with
            | .error e => .error e
            | .ok rm =>
              .ok (some ({ b1 with lmem := lm, rmem := rm, size_ := b1.size_ + 1 },
                some new_node))

/-- The `for` loop in the body of `bimap(bimap const& other)`:
`for (it = other.begin_left(); it != other.end_left(); ++it) insert(*it, *it.flip());`
run on the object under construction `b`.  The Boolean of the result tells
whether an exception left the loop. -/
def copy_loop (n : Nat) (throws_left : L → Bool) (throws_right : R → Bool)
    (other : bimap L R) : Nat → bimap L R → Option Nat → Except Err (bimap L R × Bool)
  | 0, _, _ => .error .timeout
  | k + 1, b, it =>
    if it ≠ other.end_left then
      match deref_left other it with
      | .error e => .error e
      | .ok l =>
        match flip_left other it with
        | .error e => .error e
        | .ok f =>
          match deref_right other f with
          | .error e => .error e
          | .ok r =>
            match insert_copying n throws_left throws_right b l r with
            | .error e => .error e
            | .ok none => .ok (b, true)
            | .ok (some (b1, _)) =>
              match incr_left n other it with
              | .error e => .error e
              | .ok nx => copy_loop n throws_left throws_right other k b1 nx
    else .ok (b, false)

/-- The copy constructor `bimap(bimap const& other)`.  The result is the object
under construction when the constructor is left, and whether it is left by the
`throw;` of the handler (`true`) or normally (`false`). -/
def copy_construct (n k : Nat) (compare_left : L → L → Bool) (compare_right : R → R → Bool)
    (throws_left : L → Bool) (throws_right : R → Bool)
    (lstorage : Nat → L) (rstorage : Nat → R) (other : bimap L R) :
    Except Err (bimap L R × Bool) :=
  match begin_left n other with
  | .error e => .error e
  | .ok it =>
    match copy_loop n throws_left throws_right other n
        (default_members compare_left compare_right lstorage rstorage) it with
    | .error e => .error e
    | .ok (b, false) => .ok ({ b with size_ := other.size_ }, false)
    | .ok (b, true) =>
      match begin_left n b with
      | .error e => .error e
      | .ok first =>
        match erase_left_range n k b first b.end_left with
        | .error e => .error e
        | .ok (b1, _) => .ok (b1, true)

/-- The move constructor `bimap(bimap&& other)`: `size_` is copied and each tree
is built by `intrusive_tree(intrusive_tree&&)`, whose body and initialiser list
are empty, so that the comparator and the sentinel of the new tree are default
constructed and `other` is not touched.  The result is the new object and
`other` afterwards. -/
def move_construct (compare_left : L → L → Bool) (compare_right : R → R → Bool)
    (lstorage : Nat → L) (rstorage : Nat → R) (other : bimap L R) :
    bimap L R × bimap L R :=
  ({ default_members compare_left compare_right lstorage rstorage with size_ := other.size_ },
    other)

/-- The part of the representation invariant that holds whether or not
`set_fake_right` has run: both trees are well formed over the same entries,
`size_` counts them, they lie in the allocated range, and the `right` pointer of
a sentinel is null or one of the two sentinels. -/
structure TreesInv (b : bimap L R) (tl tr : NodeTree) : Prop where
  left : TreeInv b.cmp_left b.lvalue b.lmem left_fake tl
  right : TreeInv b.cmp_right b.rvalue b.rmem right_fake tr
  perm : tl.toList.Perm tr.toList
  size : b.size_ = tl.toList.length
  alloc : ∀ a ∈ tl.toList, 2 ≤ a ∧ a < b.brk
  out_left : ∀ x, (b.lmem left_fake).right = some x → x < 2
  out_right : ∀ x, (b.rmem right_fake).right = some x → x < 2
  brk_pos : 2 ≤ b.brk

end bimap

/-- A comparator object with state: `std::less` when the flag is `false`, which
is the state of a default-constructed object, and `std::greater` otherwise. -/
def flag_compare (reversed : Bool) (a b : Nat) : Bool :=
  if reversed then decide (b < a) else decide (a < b)

/-- A `bimap<nat, nat, flag_compare, flag_compare>` built by the constructor
call `bimap(flag_compare(true), flag_compare(false))` followed by
`insert(1, 1)` and `insert(2, 2)`. -/
def sample_flagged : bimap Nat Nat :=
  state_of (bimap.insert 5
    (state_of (bimap.insert 5
      (bimap.empty (flag_compare true) (flag_compare false) (fun _ => 0) (fun _ => 0)) 1 1))
    2 2)

namespace intrusive_details

/-- The function `base_node::swap(other)`, on the nodes at addresses `x` (this)
and `y` (other): the three pointers of the two nodes are exchanged. -/
def base_node.swap (h : Heap) (x y : Nat) : Heap :=
  (h.set x (h y)).set y (h x)

namespace intrusive_tree

/-- The function `swap(other)`, where `fake` is the address of `this->fake_` and
`other_fake` that of `other.fake_`.  The `Compare` bases of the two trees are not
touched. -/
def swap (h : Heap) (fake other_fake : Nat) : Heap :=
  let h1 := adopt h (h other_fake).left (some fake)
  let h2 := adopt h1 (h1 fake).left (some other_fake)
  base_node.swap h2 fake other_fake

end intrusive_tree

end intrusive_details

/-- Two `bimap` objects `a` and `b` in one address space.  The record `a` holds
the object `a`, whose sentinels are at the addresses `0` and `1`, together with
the memory both objects share; of `b` there are the addresses of its two
sentinels, its two comparators and its `size_`. -/
structure two_bimaps (L R : Type) where
  a : bimap L R
  left_fake_b : Nat
  right_fake_b : Nat
  cmp_left_b : L → L → Bool
  cmp_right_b : R → R → Bool
  size_b : Nat

namespace two_bimaps

variable {L R : Type}

/-- The constructor call `bimap b(compare_left, compare_right)` made while `a`
exists: the two sentinels of `b` take the next two unused addresses, and
`set_fake_right` crosses their `right` pointers. -/
def construct_b (a : bimap L R) (compare_left : L → L → Bool)
    (compare_right : R → R → Bool) : two_bimaps L R :=
  { a := { a with
      lmem := (a.lmem.set a.brk base_node.null).set_right a.brk (some (a.brk + 1))
      rmem := (a.rmem.set (a.brk + 1) base_node.null).set_right (a.brk + 1) (some a.brk)
      brk := a.brk + 2 }
    left_fake_b := a.brk
    right_fake_b := a.brk + 1
    cmp_left_b := compare_left
    cmp_right_b := compare_right
    size_b := 0 }

/-- The function `a.swap(b)` of `bimap`: the two left trees are swapped, then the
two right trees, then the two `size_` members. -/
def swap (w : two_bimaps L R) : two_bimaps L R :=
  { w with
    a := { w.a with
      lmem := intrusive_tree.swap w.a.lmem bimap.left_fake w.left_fake_b
      rmem := intrusive_tree.swap w.a.rmem bimap.right_fake w.right_fake_b
      size_ := w.size_b }
    size_b := w.a.size_ }

/-- The renaming of addresses that exchanges the sentinels of `a` with those of
`b` and fixes every other address. -/
def exchange_addr (w : two_bimaps L R) (x : Nat) : Nat :=
  if x = bimap.left_fake then w.left_fake_b
  else if x = w.left_fake_b then bimap.left_fake
  else if x = bimap.right_fake then w.right_fake_b
  else if x = w.right_fake_b then bimap.right_fake
  else x

/-- A heap seen through `exchange_addr`: addresses and pointers are renamed. -/
def exchange_heap (w : two_bimaps L R) (h : Heap) : Heap :=
  fun x =>
    { parent := (h (w.exchange_addr x)).parent.map w.exchange_addr
      left := (h (w.exchange_addr x)).left.map w.exchange_addr
      right := (h (w.exchange_addr x)).right.map w.exchange_addr }

/-- The object `a`. -/
def object_a (w : two_bimaps L R) : bimap L R := w.a

/-- The object `b`, seen through `exchange_addr` so that its sentinels are at the
addresses `0` and `1` where the functions of `bimap` expect them. -/
def object_b (w : two_bimaps L R) : bimap L R :=
  { cmp_left := w.cmp_left_b
    cmp_right := w.cmp_right_b
    lmem := w.exchange_heap w.a.lmem
    rmem := w.exchange_heap w.a.rmem
    lvalue := fun x => w.a.lvalue (w.exchange_addr x)
    rvalue := fun x => w.a.rvalue (w.exchange_addr x)
    size_ := w.size_b
    brk := w.a.brk }

end two_bimaps

/-- The bimap `sample_flagged` as `a`, and next to it
`bimap b(flag_compare(false), flag_compare(false))`. -/
def sample_world : two_bimaps Nat Nat :=
  two_bimaps.construct_b sample_flagged (flag_compare false) (flag_compare false)

namespace intrusive_details

/-- A node with its two child pointers exchanged. -/
def base_node.mirror (v : base_node) : base_node :=
  { parent := v.parent, left := v.right, right := v.left }

/-- The heap in which every node is mirrored: `prev` runs on a heap as `next`
runs on its mirror image. -/
def Heap.mirror (h : Heap) : Heap := fun a => (h a).mirror

end intrusive_details

/-- The mirror image of a tree. -/
def NodeTree.mirror : NodeTree → NodeTree
  | .nil => .nil
  | .node l a r => .node r.mirror a l.mirror

/-! ## Memory lemmas -/

namespace intrusive_details

theorem Heap.set_same (h : Heap) (a : Nat) (v : base_node) : (h.set a v) a = v := by
  simp [Heap.set]

theorem Heap.set_other (h : Heap) {a b : Nat} (v : base_node) (hne : b ≠ a) :
    (h.set a v) b = h b := by
  simp [Heap.set, hne]

theorem Heap.set_parent_same (h : Heap) (a : Nat) (p : Option Nat) :
    (h.set_parent a p) a = { h a with parent := p } := by
  simp [Heap.set_parent, Heap.set]

theorem Heap.set_parent_other (h : Heap) {a b : Nat} (p : Option Nat) (hne : b ≠ a) :
    (h.set_parent a p) b = h b := by
  simp [Heap.set_parent, Heap.set, hne]

theorem Heap.set_left_same (h : Heap) (a : Nat) (p : Option Nat) :
    (h.set_left a p) a = { h a with left := p } := by
  simp [Heap.set_left, Heap.set]

theorem Heap.set_left_other (h : Heap) {a b : Nat} (p : Option Nat) (hne : b ≠ a) :
    (h.set_left a p) b = h b := by
  simp [Heap.set_left, Heap.set, hne]

theorem Heap.set_right_same (h : Heap) (a : Nat) (p : Option Nat) :
    (h.set_right a p) a = { h a with right := p } := by
  simp [Heap.set_right, Heap.set]

theorem Heap.set_right_other (h : Heap) {a b : Nat} (p : Option Nat) (hne : b ≠ a) :
    (h.set_right a p) b = h b := by
  simp [Heap.set_right, Heap.set, hne]

end intrusive_details

/-! ## Trees of addresses -/

namespace NodeTree

theorem toList_node (l r : NodeTree) (a : Nat) :
    (node l a r).toList = l.toList ++ a :: r.toList := rfl

theorem root_eq_none {t : NodeTree} (h : t.root = none) : t = nil := by
  cases t with
  | nil => rfl
  | node l a r => simp [root] at h

theorem root_eq_some {t : NodeTree} {a : Nat} (h : t.root = some a) :
    ∃ l r, t = node l a r := by
  cases t with
  | nil => simp [root] at h
  | node l b r =>
    simp only [root, Option.some.injEq] at h
    exact ⟨l, r, by rw [h]⟩

theorem root_mem {t : NodeTree} {a : Nat} (h : t.root = some a) : a ∈ t.toList := by
  obtain ⟨l, r, rfl⟩ := root_eq_some h
  simp [toList]

theorem first_mem (l : NodeTree) (a : Nat) : l.first a = a ∨ l.first a ∈ l.toList := by
  induction l generalizing a with
  | nil => left; rfl
  | node ll b lr ih _ =>
    right
    rcases ih b with h | h
    · simp [first, toList, h]
    · simp [first, toList, h]

theorem toList_first (l r : NodeTree) (a : Nat) :
    (node l a r).toList = l.first a :: (removeMin (node l a r)).toList := by
  induction l generalizing a r with
  | nil => simp [toList, first, removeMin]
  | node ll b lr ih _ =>
    have := ih lr b
    simp only [toList, first, removeMin] at this ⊢
    rw [this]
    simp

end NodeTree

/-! ## Layout lemmas -/

theorem Shape.frame {h h' : Heap} {t : NodeTree} {p : Nat} (hs : Shape h t p)
    (heq : ∀ a ∈ t.toList, h' a = h a) : Shape h' t p := by
  induction t generalizing p with
  | nil => trivial
  | node l a r ihl ihr =>
    obtain ⟨h1, h2, h3, h4, h5⟩ := hs
    have ha : h' a = h a := heq a (by simp [NodeTree.toList])
    refine ⟨by rw [ha]; exact h1, by rw [ha]; exact h2, by rw [ha]; exact h3, ?_, ?_⟩
    · exact ihl h4 (fun b hb => heq b (by simp [NodeTree.toList, hb]))
    · exact ihr h5 (fun b hb => heq b (by simp [NodeTree.toList, hb]))

theorem Shape.parent_ne_none {h : Heap} {t : NodeTree} {p : Nat} (hs : Shape h t p)
    {a : Nat} (ha : a ∈ t.toList) : ∃ q, (h a).parent = some q := by
  induction t generalizing p with
  | nil => simp [NodeTree.toList] at ha
  | node l b r ihl ihr =>
    obtain ⟨h1, _, _, h4, h5⟩ := hs
    simp only [NodeTree.toList, List.mem_append, List.mem_cons] at ha
    rcases ha with ha | rfl | ha
    · exact ihl h4 ha
    · exact ⟨p, h1⟩
    · exact ihr h5 ha

namespace intrusive_details.intrusive_tree

theorem descend_left_spec {h : Heap} {l r : NodeTree} {a p n : Nat}
    (hs : Shape h (.node l a r) p) (hn : (NodeTree.node l a r).toList.length ≤ n) :
    descend_left n h a = .ok (l.first a) := by
  induction l generalizing a r p n with
  | nil =>
    obtain ⟨_, h2, _⟩ := hs
    cases n with
    | zero => simp [NodeTree.toList] at hn
    | succ n => simp [descend_left, h2, NodeTree.root, NodeTree.first]
  | node ll b lr ih _ =>
    obtain ⟨_, h2, _, h4, _⟩ := hs
    cases n with
    | zero => simp [NodeTree.toList] at hn
    | succ n =>
      simp only [descend_left, h2, NodeTree.root, NodeTree.first]
      apply ih h4
      simp only [NodeTree.toList, List.length_append, List.length_cons] at hn ⊢
      omega

theorem lower_bound_loop_spec {T : Type} (cmp : T → T → Bool) (value : Nat → T) (x : T)
    {h : Heap} {t : NodeTree} {p n : Nat} (ans : Option Nat)
    (hs : Shape h t p) (hn : t.toList.length < n) :
    lower_bound_loop cmp value x n h t.root ans
      = .ok (t.lowerBound (fun c => !cmp (value c) x) ans) := by
  induction t generalizing p n ans with
  | nil =>
    cases n with
    | zero => omega
    | succ n => simp [lower_bound_loop, NodeTree.root, NodeTree.lowerBound]
  | node l a r ihl ihr =>
    obtain ⟨_, h2, h3, h4, h5⟩ := hs
    simp only [NodeTree.toList, List.length_append, List.length_cons] at hn
    cases n with
    | zero => omega
    | succ n =>
      simp only [lower_bound_loop, NodeTree.root, NodeTree.lowerBound]
      by_cases hc : cmp (value a) x = true
      · simp only [hc, Bool.not_true, Bool.false_eq_true, if_false, h3]
        exact ihr ans h5 (by omega)
      · simp only [hc, Bool.not_eq_true] at hc ⊢
        simp only [hc, Bool.not_false, if_true, h2]
        exact ihl (some a) h4 (by omega)

end intrusive_details.intrusive_tree

theorem NodeTree.lowerBound_eq_find (nl : Nat → Bool) (t : NodeTree) (ans : Option Nat)
    (hmono : t.toList.Pairwise (fun a b => nl a = true → nl b = true)) :
    t.lowerBound nl ans = ((t.toList.find? nl).or ans) := by
  induction t generalizing ans with
  | nil => simp [NodeTree.lowerBound, NodeTree.toList]
  | node l a r ihl ihr =>
    simp only [NodeTree.toList, List.pairwise_append, List.pairwise_cons, List.mem_cons] at hmono
    obtain ⟨hl, ⟨har, hr⟩, hlr⟩ := hmono
    simp only [NodeTree.lowerBound, NodeTree.toList, List.find?_append]
    by_cases ha : nl a = true
    · simp only [ha, if_true, ihl (some a) hl, List.find?_cons_of_pos]
      cases l.toList.find? nl <;> simp
    · have hnone : l.toList.find? nl = none := by
        rw [List.find?_eq_none]
        intro b hb hnb
        exact ha (hlr b hb a (Or.inl rfl) hnb)
      simp only [ha, if_false, ihr ans hr, hnone, Option.none_or, Bool.false_eq_true]
      rw [List.find?_cons_of_neg _ ha]

/-! ## Searching -/

theorem find_sorted_aux {T : Type} {lt : T → T → Bool} (hlt : StrictWeakOrder lt)
    (value : Nat → T) (x : T) (xs : List Nat)
    (hsorted : xs.Pairwise (fun a b => lt (value a) (value b) = true)) :
    (match xs.find? (fun c => !lt (value c) x) with
      | some b => if (!lt (value b) x && !lt x (value b)) = true then some b else none
      | none => none)
      = xs.find? (fun c => !lt (value c) x && !lt x (value c)) := by
  induction xs with
  | nil => simp
  | cons c xs ih =>
    rw [List.pairwise_cons] at hsorted
    obtain ⟨hc, hrest⟩ := hsorted
    by_cases h1 : lt (value c) x = true
    · simp only [List.find?_cons, h1, Bool.not_true, Bool.false_and]
      exact ih hrest
    · simp only [Bool.not_eq_true] at h1
      by_cases h2 : lt x (value c) = true
      · simp only [List.find?_cons, h1, h2, Bool.not_false, Bool.not_true, Bool.and_false,
          Bool.false_eq_true, if_false]
        symm
        rw [List.find?_eq_none]
        intro d hd
        have := hlt.trans _ _ _ h2 (hc d hd)
        simp [this]
      · simp only [Bool.not_eq_true] at h2
        simp [List.find?_cons, h1, h2]

namespace intrusive_details.intrusive_tree

theorem lower_bound_spec {T : Type} {lt : T → T → Bool} (hlt : StrictWeakOrder lt)
    {value : Nat → T} {h : Heap} {f : Nat} {t : NodeTree} (hinv : TreeInv lt value h f t)
    (x : T) {n : Nat} (hn : t.toList.length < n) :
    lower_bound n lt f value h x
      = .ok ((t.toList.find? (fun c => !lt (value c) x)).getD f) := by
  have hloop := lower_bound_loop_spec lt value x none hinv.shape hn
  have hmono : t.toList.Pairwise
      (fun a b => (fun c => !lt (value c) x) a = true → (fun c => !lt (value c) x) b = true) := by
    refine hinv.sorted.imp ?_
    intro a b hab ha
    simp only [Bool.not_eq_true'] at ha ⊢
    cases hb : lt (value b) x with
    | false => rfl
    | true => rw [hlt.trans _ _ _ hab hb] at ha; exact absurd ha (by simp)
  rw [NodeTree.lowerBound_eq_find _ _ _ hmono] at hloop
  simp only [lower_bound, hinv.fake_left, hloop, Option.or_none]
  cases t.toList.find? (fun c => !lt (value c) x) <;> rfl

theorem find_spec {T : Type} {lt : T → T → Bool} (hlt : StrictWeakOrder lt)
    {value : Nat → T} {h : Heap} {f : Nat} {t : NodeTree} (hinv : TreeInv lt value h f t)
    (x : T) {n : Nat} (hn : t.toList.length < n) :
    find n lt f value h x
      = .ok (t.toList.find? (fun c => !lt (value c) x && !lt x (value c))) := by
  rw [← find_sorted_aux hlt value x _ hinv.sorted]
  simp only [find, lower_bound_spec hlt hinv x hn]
  cases hfind : t.toList.find? (fun c => !lt (value c) x) with
  | none => simp
  | some b =>
    have hb : b ∈ t.toList := List.mem_of_find?_eq_some hfind
    have hbf : b ≠ f := by
      rintro rfl
      exact (List.nodup_cons.mp hinv.nodup).1 hb
    simp only [ne_eq, hbf, not_false_eq_true, true_and, Option.getD_some]
    split <;> rfl

/-! ## Insertion -/

theorem insert_loop_spec {T : Type} (cmp : T → T → Bool) (fake : Nat) (value : Nat → T)
    {h : Heap} {x : Nat} {t : NodeTree} {p n a : Nat}
    (hs : Shape h t p) (hroot : t.root = some a)
    (hx : x ∉ t.toList) (hf : fake ∉ t.toList) (hxf : x ≠ fake)
    (hxl : (h x).left = none) (hxr : (h x).right = none)
    (hnd : t.toList.Nodup) (hn : t.toList.length ≤ n) :
    ∃ h', insert_loop cmp fake value x n h a = .ok h' ∧
      Shape h' (t.ins (fun c => !cmp (value x) (value c)) x) p ∧
      (∀ b, b ∉ t.toList → b ≠ x → h' b = h b) := by
  induction t generalizing p n a with
  | nil => simp [NodeTree.root] at hroot
  | node l c r ihl ihr =>
    simp only [NodeTree.root, Option.some.injEq] at hroot
    subst hroot
    obtain ⟨h1, h2, h3, h4, h5⟩ := hs
    simp only [NodeTree.toList, List.mem_append, List.mem_cons, not_or] at hx hf
    obtain ⟨hxl', hxc, hxr'⟩ := hx
    obtain ⟨hfl, hfc, hfr⟩ := hf
    simp only [NodeTree.toList] at hnd
    have hnd' := List.nodup_append.mp hnd
    obtain ⟨hndl, hndcr, hdisj⟩ := hnd'
    rw [List.nodup_cons] at hndcr
    obtain ⟨hcr, hndr⟩ := hndcr
    have hcl : c ∉ l.toList := fun hc => hdisj hc (List.mem_cons_self _ _)
    simp only [NodeTree.toList, List.length_append, List.length_cons] at hn
    cases n with
    | zero => omega
    | succ n =>
      have hcmp : compare cmp fake value x c = cmp (value x) (value c) := by
        simp [compare, hxf, Ne.symm hfc]
      simp only [insert_loop, hcmp, NodeTree.ins]
      by_cases hgo : cmp (value x) (value c) = true
      · -- descend to the left
        simp only [hgo, Bool.not_true, Bool.false_eq_true, if_false]
        cases hl : l with
        | nil =>
          subst hl
          simp only [NodeTree.root] at h2
          simp only [h2, NodeTree.ins]
          refine ⟨_, rfl, ?_, ?_⟩
          · refine ⟨?_, ?_, ?_, ?_, ?_⟩
            · rw [Heap.set_left_same]
              simp only
              rw [Heap.set_parent_other _ _ (Ne.symm hxc)]
              exact h1
            · rw [Heap.set_left_same]; rfl
            · rw [Heap.set_left_same]
              simp only
              rw [Heap.set_parent_other _ _ (Ne.symm hxc)]
              exact h3
            · refine ⟨?_, ?_, ?_, trivial, trivial⟩
              · rw [Heap.set_left_other _ _ hxc, Heap.set_parent_same]
              · rw [Heap.set_left_other _ _ hxc, Heap.set_parent_same]; exact hxl
              · rw [Heap.set_left_other _ _ hxc, Heap.set_parent_same]; exact hxr
            · refine h5.frame ?_
              intro b hb
              have hbc : b ≠ c := fun hbc => hcr (hbc ▸ hb)
              have hbx : b ≠ x := fun hbx => hxr' (hbx ▸ hb)
              rw [Heap.set_left_other _ _ hbc, Heap.set_parent_other _ _ hbx]
          · intro b hb hbx
            simp only [NodeTree.toList, List.nil_append, List.mem_cons, not_or] at hb
            rw [Heap.set_left_other _ _ hb.1, Heap.set_parent_other _ _ hbx]
        | node ll d lr =>
          subst hl
          simp only [NodeTree.root] at h2
          simp only [h2]
          have hlen : (NodeTree.node ll d lr).toList.length ≤ n := by omega
          obtain ⟨h', e1, e2, e3⟩ := ihl h4 rfl hxl' hfl hndl hlen
          refine ⟨h', e1, ?_, ?_⟩
          · have hc' : h' c = h c := e3 c hcl (Ne.symm hxc)
            refine ⟨by rw [hc']; exact h1, ?_, by rw [hc']; exact h3, e2, ?_⟩
            · rw [hc', h2]
              simp only [NodeTree.ins]
              split <;> rfl
            · refine h5.frame ?_
              intro b hb
              exact e3 b (fun hbl => hdisj hbl (List.mem_cons_of_mem _ hb))
                (fun hbx => hxr' (hbx ▸ hb))
          · intro b hb hbx
            rw [NodeTree.toList_node] at hb
            simp only [List.mem_append, List.mem_cons, not_or] at hb
            exact e3 b hb.1 hbx
      · -- descend to the right
        simp only [hgo, Bool.not_false, if_true]
        cases hr : r with
        | nil =>
          subst hr
          simp only [NodeTree.root] at h3
          simp only [h3, NodeTree.ins]
          refine ⟨_, rfl, ?_, ?_⟩
          · refine ⟨?_, ?_, ?_, ?_, ?_⟩
            · rw [Heap.set_right_same]
              simp only
              rw [Heap.set_parent_other _ _ (Ne.symm hxc)]
              exact h1
            · rw [Heap.set_right_same]
              simp only
              rw [Heap.set_parent_other _ _ (Ne.symm hxc)]
              exact h2
            · rw [Heap.set_right_same]; rfl
            · refine h4.frame ?_
              intro b hb
              have hbc : b ≠ c := fun hbc => hcl (hbc ▸ hb)
              have hbx : b ≠ x := fun hbx => hxl' (hbx ▸ hb)
              rw [Heap.set_right_other _ _ hbc, Heap.set_parent_other _ _ hbx]
            · refine ⟨?_, ?_, ?_, trivial, trivial⟩
              · rw [Heap.set_right_other _ _ hxc, Heap.set_parent_same]
              · rw [Heap.set_right_other _ _ hxc, Heap.set_parent_same]; exact hxl
              · rw [Heap.set_right_other _ _ hxc, Heap.set_parent_same]; exact hxr
          · intro b hb hbx
            simp only [NodeTree.toList, List.mem_append, List.mem_cons, not_or] at hb
            rw [Heap.set_right_other _ _ hb.2.1, Heap.set_parent_other _ _ hbx]
        | node rl d rr =>
          subst hr
          simp only [NodeTree.root] at h3
          simp only [h3]
          have hlen : (NodeTree.node rl d rr).toList.length ≤ n := by omega
          obtain ⟨h', e1, e2, e3⟩ := ihr h5 rfl hxr' hfr hndr hlen
          refine ⟨h', e1, ?_, ?_⟩
          · have hc' : h' c = h c := e3 c hcr (Ne.symm hxc)
            refine ⟨by rw [hc']; exact h1, by rw [hc']; exact h2, ?_, ?_, e2⟩
            · rw [hc', h3]
              simp only [NodeTree.ins]
              split <;> rfl
            · refine h4.frame ?_
              intro b hb
              exact e3 b (fun hbr => hdisj hb (List.mem_cons_of_mem _ hbr))
                (fun hbx => hxl' (hbx ▸ hb))
          · intro b hb hbx
            rw [NodeTree.toList_node] at hb
            simp only [List.mem_append, List.mem_cons, not_or] at hb
            exact e3 b hb.2.2 hbx

end intrusive_details.intrusive_tree

theorem TreeInv.transport {T : Type} {lt : T → T → Bool} {value value' : Nat → T} {h h' : Heap}
    {f : Nat} {t : NodeTree} (hinv : TreeInv lt value h f t)
    (hf : h' f = h f) (hh : ∀ a ∈ t.toList, h' a = h a)
    (hv : ∀ a ∈ t.toList, value' a = value a) : TreeInv lt value' h' f t := by
  refine ⟨by rw [hf]; exact hinv.fake_parent, by rw [hf]; exact hinv.fake_left,
    hinv.shape.frame hh, hinv.nodup, ?_⟩
  refine hinv.sorted.imp_of_mem ?_
  intro a b ha hb hab
  rw [hv a ha, hv b hb]
  exact hab

theorem TreeInv.not_fake {T : Type} {lt : T → T → Bool} {value : Nat → T} {h : Heap}
    {f : Nat} {t : NodeTree} (hinv : TreeInv lt value h f t) {a : Nat}
    (ha : a ∈ t.toList) : a ≠ f := by
  rintro rfl
  exact (List.nodup_cons.mp hinv.nodup).1 ha

theorem NodeTree.ins_perm (gr : Nat → Bool) (x : Nat) (t : NodeTree) :
    (t.ins gr x).toList.Perm (x :: t.toList) := by
  induction t with
  | nil => simp [NodeTree.ins, NodeTree.toList]
  | node l a r ihl ihr =>
    simp only [NodeTree.ins]
    split
    · simp only [NodeTree.toList]
      exact ((List.Perm.append_left _ (List.Perm.cons _ ihr)).trans
        (List.Perm.append_left _ (List.Perm.swap _ _ _))).trans List.perm_middle
    · simp only [NodeTree.toList]
      exact List.Perm.append_right _ ihl

theorem NodeTree.mem_ins {gr : Nat → Bool} {x : Nat} {t : NodeTree} {b : Nat} :
    b ∈ (t.ins gr x).toList ↔ b = x ∨ b ∈ t.toList := by
  rw [(NodeTree.ins_perm gr x t).mem_iff, List.mem_cons]

theorem NodeTree.ins_root (gr : Nat → Bool) (x : Nat) {t : NodeTree} {a : Nat}
    (h : t.root = some a) : (t.ins gr x).root = some a := by
  obtain ⟨l, r, rfl⟩ := NodeTree.root_eq_some h
  simp only [NodeTree.ins]
  split <;> rfl

theorem NodeTree.ins_sorted {T : Type} {lt : T → T → Bool} (hlt : StrictWeakOrder lt)
    (value : Nat → T) (x : Nat) (t : NodeTree)
    (hsorted : t.toList.Pairwise (fun a b => lt (value a) (value b) = true))
    (hcmp : ∀ b ∈ t.toList, lt (value x) (value b) = true ∨ lt (value b) (value x) = true) :
    (t.ins (fun c => !lt (value x) (value c)) x).toList.Pairwise
      (fun a b => lt (value a) (value b) = true) := by
  induction t with
  | nil => simp [NodeTree.ins, NodeTree.toList]
  | node l a r ihl ihr =>
    simp only [NodeTree.toList, List.pairwise_append, List.pairwise_cons, List.mem_cons] at hsorted
    obtain ⟨hl, ⟨har, hr⟩, hlr⟩ := hsorted
    have hcl : ∀ b ∈ l.toList, lt (value x) (value b) = true ∨ lt (value b) (value x) = true :=
      fun b hb => hcmp b (by simp [NodeTree.toList, hb])
    have hcr : ∀ b ∈ r.toList, lt (value x) (value b) = true ∨ lt (value b) (value x) = true :=
      fun b hb => hcmp b (by simp [NodeTree.toList, hb])
    have hca := hcmp a (by simp [NodeTree.toList])
    simp only [NodeTree.ins]
    by_cases hgo : lt (value x) (value a) = true
    · simp only [hgo, Bool.not_true, Bool.false_eq_true, if_false, NodeTree.toList,
        List.pairwise_append, List.pairwise_cons, List.mem_cons]
      refine ⟨ihl hl hcl, ⟨har, hr⟩, ?_⟩
      intro b hb c hc
      rcases NodeTree.mem_ins.mp hb with rfl | hb
      · rcases hc with rfl | hc
        · exact hgo
        · exact hlt.trans _ _ _ hgo (har c hc)
      · exact hlr b hb c hc
    · have hax : lt (value a) (value x) = true := by
        rcases hca with h | h
        · exact absurd h hgo
        · exact h
      simp only [Bool.not_eq_true] at hgo
      simp only [hgo, Bool.not_false, if_true, NodeTree.toList,
        List.pairwise_append, List.pairwise_cons, List.mem_cons]
      refine ⟨hl, ⟨?_, ihr hr hcr⟩, ?_⟩
      · intro b hb
        rcases NodeTree.mem_ins.mp hb with rfl | hb
        · exact hax
        · exact har b hb
      · intro b hb c hc
        rcases hc with rfl | hc
        · exact hlr b hb c (Or.inl rfl)
        · rcases NodeTree.mem_ins.mp hc with rfl | hc
          · exact hlt.trans _ _ _ (hlr b hb a (Or.inl rfl)) hax
          · exact hlr b hb c (Or.inr hc)

namespace intrusive_details.intrusive_tree

theorem insert_spec {T : Type} {lt : T → T → Bool} (hlt : StrictWeakOrder lt)
    {value : Nat → T} {h : Heap} {f : Nat} {t : NodeTree} (hinv : TreeInv lt value h f t)
    {x : Nat} (hx : x ∉ t.toList) (hxf : x ≠ f)
    (hxl : (h x).left = none) (hxr : (h x).right = none)
    (hcmp : ∀ b ∈ t.toList, lt (value x) (value b) = true ∨ lt (value b) (value x) = true)
    {n : Nat} (hn : t.toList.length < n) :
    ∃ h', insert n lt f value h x = .ok h' ∧
      TreeInv lt value h' f (t.ins (fun c => !lt (value x) (value c)) x) ∧
      (∀ b, b ∉ t.toList → b ≠ x → b ≠ f → h' b = h b) ∧
      (h' f).right = (h f).right ∧
      (∃ q, (h' x).parent = some q) := by
  have hft : f ∉ t.toList := (List.nodup_cons.mp hinv.nodup).1
  have hndt : t.toList.Nodup := (List.nodup_cons.mp hinv.nodup).2
  have hnd' : (f :: (t.ins (fun c => !lt (value x) (value c)) x).toList).Nodup := by
    have hp : (f :: (t.ins (fun c => !lt (value x) (value c)) x).toList).Perm
        (x :: f :: t.toList) :=
      ((NodeTree.ins_perm _ x t).cons f).trans (List.Perm.swap _ _ _)
    rw [hp.nodup_iff, List.nodup_cons]
    refine ⟨?_, hinv.nodup⟩
    simp only [List.mem_cons, not_or]
    exact ⟨hxf, hx⟩
  cases n with
  | zero => omega
  | succ n =>
    have hcf : compare lt f value x f = true := by simp [compare, hxf]
    simp only [insert, insert_loop, hcf, Bool.not_true, Bool.false_eq_true, if_false]
    cases ht : t with
    | nil =>
      subst ht
      have hfl := hinv.fake_left
      simp only [NodeTree.root] at hfl
      simp only [hfl, NodeTree.ins]
      refine ⟨_, rfl, ⟨?_, ?_, ?_, hnd', ?_⟩, ?_, ?_, ?_⟩
      · rw [Heap.set_left_same]
        simp only
        rw [Heap.set_parent_other _ _ (Ne.symm hxf)]
        exact hinv.fake_parent
      · rw [Heap.set_left_same]; rfl
      · refine ⟨?_, ?_, ?_, trivial, trivial⟩
        · rw [Heap.set_left_other _ _ hxf, Heap.set_parent_same]
        · rw [Heap.set_left_other _ _ hxf, Heap.set_parent_same]; exact hxl
        · rw [Heap.set_left_other _ _ hxf, Heap.set_parent_same]; exact hxr
      · simp [NodeTree.toList]
      · intro b _ hbx hbf
        rw [Heap.set_left_other _ _ hbf, Heap.set_parent_other _ _ hbx]
      · rw [Heap.set_left_same]
        simp only
        rw [Heap.set_parent_other _ _ (Ne.symm hxf)]
      · exact ⟨f, by rw [Heap.set_left_other _ _ hxf, Heap.set_parent_same]⟩
    | node l a r =>
      subst ht
      have hfl := hinv.fake_left
      simp only [NodeTree.root] at hfl
      simp only [hfl]
      have hlen : (NodeTree.node l a r).toList.length ≤ n := by omega
      obtain ⟨h', e1, e2, e3⟩ :=
        insert_loop_spec lt f value hinv.shape rfl hx hft hxf hxl hxr hndt hlen
      have hf' : h' f = h f := e3 f hft (Ne.symm hxf)
      refine ⟨h', e1, ⟨?_, ?_, e2, hnd', ?_⟩, ?_, ?_, ?_⟩
      · rw [hf']; exact hinv.fake_parent
      · rw [hf', hfl]
        exact (NodeTree.ins_root _ x (show (NodeTree.node l a r).root = some a from rfl)).symm
      · exact NodeTree.ins_sorted hlt value x _ hinv.sorted hcmp
      · intro b hb hbx _
        exact e3 b hb hbx
      · rw [hf']
      · exact e2.parent_ne_none (NodeTree.mem_ins.mpr (Or.inl rfl))

end intrusive_details.intrusive_tree

/-! ## Successor -/

theorem nextIn_append_of_mem {xs : List Nat} (ys : List Nat) {a : Nat} (ha : a ∈ xs) :
    nextIn (xs ++ ys) a = (nextIn xs a).or ys.head? := by
  induction xs with
  | nil => simp at ha
  | cons x xs ih =>
    cases xs with
    | nil =>
      simp only [List.mem_singleton] at ha
      subst ha
      cases ys with
      | nil => simp [nextIn]
      | cons y ys => simp [nextIn]
    | cons x' rest =>
      simp only [List.cons_append, nextIn]
      by_cases hax : a = x
      · simp [hax]
      · simp only [hax, if_false]
        have ha' : a ∈ x' :: rest := by
          rcases List.mem_cons.mp ha with h | h
          · exact absurd h hax
          · exact h
        exact ih ha'

theorem nextIn_append_of_not_mem {xs : List Nat} (ys : List Nat) {a : Nat} (ha : a ∉ xs) :
    nextIn (xs ++ ys) a = nextIn ys a := by
  induction xs with
  | nil => rfl
  | cons x xs ih =>
    simp only [List.mem_cons, not_or] at ha
    have ih' := ih ha.2
    cases hxy : xs ++ ys with
    | nil =>
      rw [hxy] at ih'
      simp only [List.cons_append, hxy, nextIn]
      rw [← ih']
      rfl
    | cons y rest =>
      rw [hxy] at ih'
      simp only [List.cons_append, hxy, nextIn, ha.1, if_false]
      exact ih'

theorem nextIn_head (a : Nat) (ys : List Nat) : nextIn (a :: ys) a = ys.head? := by
  cases ys <;> simp [nextIn]

theorem nextIn_cons_ne {a x : Nat} (ys : List Nat) (h : a ≠ x) :
    nextIn (x :: ys) a = nextIn ys a := by
  have hx : a ∉ [x] := by simpa using h
  have := nextIn_append_of_not_mem ys hx
  simpa using this

theorem nextIn_mem {xs : List Nat} {a b : Nat} (h : nextIn xs a = some b) : b ∈ xs := by
  induction xs with
  | nil => simp [nextIn] at h
  | cons x xs ih =>
    cases xs with
    | nil => simp [nextIn] at h
    | cons y rest =>
      simp only [nextIn] at h
      by_cases hax : a = x
      · simp only [hax, if_true, Option.some.injEq] at h
        simp [← h]
      · simp only [hax, if_false] at h
        exact List.mem_cons_of_mem _ (ih h)

theorem NodeTree.rspine_lt (l r : NodeTree) (a : Nat) :
    (NodeTree.node l a r).rspine < (NodeTree.node l a r).toList.length := by
  induction r generalizing l a with
  | nil => simp [NodeTree.rspine, NodeTree.toList]
  | node rl b rr _ ihr =>
    have := ihr rl b
    simp only [NodeTree.rspine, NodeTree.toList, List.length_append, List.length_cons] at this ⊢
    omega

theorem NodeTree.head_toList (l r : NodeTree) (a : Nat) :
    (NodeTree.node l a r).toList.head? = some (l.first a) := by
  rw [NodeTree.toList_first]; rfl

namespace intrusive_details.intrusive_tree

theorem next_in_subtree {h : Heap} {t : NodeTree} {p : Nat} (hs : Shape h t p)
    (hnd : t.toList.Nodup) {a : Nat} (ha : a ∈ t.toList) :
    (∀ b n, nextIn t.toList a = some b → t.toList.length ≤ n →
        next n h (some a) = .ok (some b)) ∧
    (nextIn t.toList a = none →
      (h a).right = none ∧
      ∀ m r0, t.root = some r0 →
        climb_right (m + t.rspine) h a (h a).parent = climb_right m h r0 (some p)) := by
  induction t generalizing p a with
  | nil => simp [NodeTree.toList] at ha
  | node l v r ihl ihr =>
    obtain ⟨h1, h2, h3, h4, h5⟩ := hs
    simp only [NodeTree.toList] at hnd
    obtain ⟨hndl, hndvr, hdisj⟩ := List.nodup_append.mp hnd
    rw [List.nodup_cons] at hndvr
    obtain ⟨hvr, hndr⟩ := hndvr
    have hvl : v ∉ l.toList := fun hc => hdisj hc (List.mem_cons_self _ _)
    rw [NodeTree.toList_node] at ha ⊢
    simp only [List.mem_append, List.mem_cons] at ha
    rcases ha with hal | rfl | har
    · -- `a` lies in the left subtree
      obtain ⟨ih1, ih2⟩ := ihl h4 hndl hal
      rw [nextIn_append_of_mem _ hal]
      constructor
      · intro b n hb hn
        simp only [List.length_append, List.length_cons] at hn
        cases hnl : nextIn l.toList a with
        | some c =>
          rw [hnl] at hb
          simp only [Option.or_some, Option.some.injEq] at hb
          subst hb
          exact ih1 c n hnl (by omega)
        | none =>
          rw [hnl] at hb
          simp only [Option.none_or, List.head?_cons, Option.some.injEq] at hb
          subst hb
          obtain ⟨hr0, hclimb⟩ := ih2 hnl
          obtain ⟨q, hq⟩ := h4.parent_ne_none hal
          cases hl : l with
          | nil => subst hl; simp [NodeTree.toList] at hal
          | node ll c lr =>
            subst hl
            have hsp := NodeTree.rspine_lt ll lr c
            obtain ⟨m, hm⟩ : ∃ m, n = (m + 1) + (NodeTree.node ll c lr).rspine :=
              ⟨n - (NodeTree.node ll c lr).rspine - 1, by omega⟩
            have hc := hclimb (m + 1) c rfl
            simp only [next, hq, hr0]
            rw [← hq, hm, hc]
            simp only [climb_right, h3]
            have hne : r.root ≠ some c := by
              intro hrc
              exact hdisj (by simp [NodeTree.toList]) (List.mem_cons_of_mem _ (NodeTree.root_mem hrc))
            simp [hne]
      · intro hnone
        cases hnl : nextIn l.toList a with
        | some c => rw [hnl] at hnone; simp at hnone
        | none => rw [hnl] at hnone; simp at hnone
    · -- `a` is the root
      rw [nextIn_append_of_not_mem _ hvl, nextIn_head]
      constructor
      · intro b n hb hn
        simp only [List.length_append, List.length_cons] at hn
        cases hr : r with
        | nil => subst hr; simp [NodeTree.toList] at hb
        | node rl c rr =>
          subst hr
          rw [NodeTree.head_toList] at hb
          simp only [Option.some.injEq] at hb
          subst hb
          simp only [NodeTree.root] at h3
          simp only [next, h1, h3]
          rw [descend_left_spec h5 (by omega)]
      · intro hnone
        cases hr : r with
        | node rl c rr => subst hr; rw [NodeTree.head_toList] at hnone; simp at hnone
        | nil =>
          subst hr
          simp only [NodeTree.root] at h3
          refine ⟨h3, ?_⟩
          intro m r0 hr0
          simp only [NodeTree.root, Option.some.injEq] at hr0
          subst hr0
          simp only [NodeTree.rspine, Nat.add_zero, h1]
    · -- `a` lies in the right subtree
      have hal : a ∉ l.toList := fun hc => hdisj hc (List.mem_cons_of_mem _ har)
      have hav : a ≠ v := fun hc => hvr (hc ▸ har)
      obtain ⟨ih1, ih2⟩ := ihr h5 hndr har
      rw [nextIn_append_of_not_mem _ hal, nextIn_cons_ne _ hav]
      constructor
      · intro b n hb hn
        simp only [List.length_append, List.length_cons] at hn
        exact ih1 b n hb (by omega)
      · intro hnone
        obtain ⟨hr0, hclimb⟩ := ih2 hnone
        refine ⟨hr0, ?_⟩
        intro m r0 hroot
        simp only [NodeTree.root, Option.some.injEq] at hroot
        subst hroot
        cases hr : r with
        | nil => subst hr; simp [NodeTree.toList] at har
        | node rl c rr =>
          subst hr
          simp only [NodeTree.root] at h3
          have hc := hclimb (m + 1) c rfl
          have hfuel : m + (NodeTree.node l v (NodeTree.node rl c rr)).rspine
              = (m + 1) + (NodeTree.node rl c rr).rspine := by
            simp only [NodeTree.rspine]; omega
          rw [hfuel, hc]
          simp only [climb_right, h3, if_true, h1]

theorem next_spec {T : Type} {lt : T → T → Bool} {value : Nat → T} {h : Heap} {f : Nat}
    {t : NodeTree} (hinv : TreeInv lt value h f t)
    (hfr : ∀ a ∈ t.toList, (h f).right ≠ some a)
    {a : Nat} (ha : a ∈ t.toList) {n : Nat} (hn : t.toList.length < n) :
    next n h (some a) = .ok (some ((nextIn t.toList a).getD f)) := by
  have hndt : t.toList.Nodup := (List.nodup_cons.mp hinv.nodup).2
  obtain ⟨h1, h2⟩ := next_in_subtree hinv.shape hndt ha
  cases hnx : nextIn t.toList a with
  | some b => exact h1 b n hnx (by omega)
  | none =>
    obtain ⟨hr0, hclimb⟩ := h2 hnx
    obtain ⟨q, hq⟩ := hinv.shape.parent_ne_none ha
    cases ht : t with
    | nil => subst ht; simp [NodeTree.toList] at ha
    | node l c r =>
      subst ht
      have hsp := NodeTree.rspine_lt l r c
      obtain ⟨m, hm⟩ : ∃ m, n = (m + 1) + (NodeTree.node l c r).rspine :=
        ⟨n - (NodeTree.node l c r).rspine - 1, by omega⟩
      have hc := hclimb (m + 1) c rfl
      simp only [next, hq, hr0]
      rw [← hq, hm, hc]
      have hne := hfr c (by simp [NodeTree.toList])
      simp [climb_right, hne]

theorem next_fake {T : Type} {lt : T → T → Bool} {value : Nat → T} {h : Heap} {f : Nat}
    {t : NodeTree} (hinv : TreeInv lt value h f t) (n : Nat) :
    next n h (some f) = .ok (some f) := by
  simp [next, hinv.fake_parent]

theorem begin_spec {T : Type} {lt : T → T → Bool} {value : Nat → T} {h : Heap} {f : Nat}
    {t : NodeTree} (hinv : TreeInv lt value h f t) {n : Nat} (hn : t.toList.length ≤ n) :
    begin n f h = .ok (t.toList.head?.getD f) := by
  cases ht : t with
  | nil =>
    subst ht
    have := hinv.fake_left
    simp only [NodeTree.root] at this
    simp [begin, this, NodeTree.toList]
  | node l c r =>
    subst ht
    have := hinv.fake_left
    simp only [NodeTree.root] at this
    simp only [begin, this, NodeTree.head_toList, Option.getD_some]
    exact descend_left_spec hinv.shape hn

end intrusive_details.intrusive_tree

/-! ## Unlinking -/

theorem Shape.reparent {h h' : Heap} {t : NodeTree} {p p' : Nat} (hs : Shape h t p)
    (hnd : t.toList.Nodup)
    (hroot : ∀ a, t.root = some a →
      (h' a).parent = some p' ∧ (h' a).left = (h a).left ∧ (h' a).right = (h a).right)
    (hrest : ∀ a ∈ t.toList, t.root ≠ some a → h' a = h a) : Shape h' t p' := by
  cases t with
  | nil => trivial
  | node l a r =>
    obtain ⟨h1, h2, h3, h4, h5⟩ := hs
    obtain ⟨e1, e2, e3⟩ := hroot a rfl
    simp only [NodeTree.toList] at hnd
    obtain ⟨hndl, hndar, hdisj⟩ := List.nodup_append.mp hnd
    rw [List.nodup_cons] at hndar
    refine ⟨e1, by rw [e2]; exact h2, by rw [e3]; exact h3, ?_, ?_⟩
    · refine h4.frame ?_
      intro b hb
      refine hrest b (by simp [NodeTree.toList, hb]) ?_
      simp only [NodeTree.root, ne_eq, Option.some.injEq]
      rintro rfl
      exact hdisj hb (List.mem_cons_self _ _)
    · refine h5.frame ?_
      intro b hb
      refine hrest b (by simp [NodeTree.toList, hb]) ?_
      simp only [NodeTree.root, ne_eq, Option.some.injEq]
      rintro rfl
      exact hndar.1 hb

theorem unlink_min_spec {h : Heap} {rl rr : NodeTree} {c q tp : Nat}
    (hs : Shape h (.node rl c rr) q)
    (hnd : (q :: (NodeTree.node rl c rr).toList).Nodup)
    (hlink : (h q).left = some c ∨ (h q).right = some c)
    (htp : (h (rl.first c)).parent = some tp) :
    Shape (unlink h (rl.first c) tp) (NodeTree.removeMin (.node rl c rr)) q ∧
    (∀ b, b ∉ (NodeTree.node rl c rr).toList → b ≠ q → unlink h (rl.first c) tp b = h b) ∧
    unlink h (rl.first c) tp (rl.first c) = h (rl.first c) ∧
    Relinked h (unlink h (rl.first c) tp) q (some c)
      (NodeTree.removeMin (.node rl c rr)).root := by
  induction rl generalizing c rr q tp with
  | nil =>
    obtain ⟨h1, h2, h3, h4, h5⟩ := hs
    simp only [NodeTree.first] at htp ⊢
    rw [h1] at htp
    simp only [Option.some.injEq] at htp
    subst htp
    simp only [NodeTree.toList, List.nil_append, List.nodup_cons, List.mem_cons, not_or] at hnd
    obtain ⟨⟨hqc, hqr⟩, hcr, hndr⟩ := hnd
    simp only [NodeTree.removeMin]
    have hcq : c ≠ q := Ne.symm hqc
    -- the record of `c` is untouched by the first step
    have e1 : ∀ (t : Option Nat) (b : Nat), b ≠ q → (intrusive_tree.relink h q c t) b = h b := by
      intro t b hb
      unfold intrusive_tree.relink
      split
      · exact Heap.set_left_other _ _ hb
      · exact Heap.set_right_other _ _ hb
    have hun : unlink h c q
        = intrusive_tree.adopt (intrusive_tree.relink h q c (h c).right) rr.root (some q) := by
      simp only [unlink, e1 _ c hcq, h3, h1]
    rw [hun]
    cases hrr : rr with
    | nil =>
      subst hrr
      simp only [NodeTree.root, intrusive_tree.adopt]
      refine ⟨trivial, fun b _ hb => e1 _ b hb, e1 _ c hcq, ?_⟩
      unfold Relinked intrusive_tree.relink
      simp only [NodeTree.root] at h3
      by_cases hl : (h q).left = some c
      · simp [hl, Heap.set_left_same, h3]
      · simp [hl, Heap.set_right_same, h3]
    | node rrl d rrr =>
      subst hrr
      simp only [NodeTree.root, intrusive_tree.adopt]
      have hdc : d ≠ c := by
        rintro rfl
        exact hcr (by simp [NodeTree.toList])
      have hdq : d ≠ q := by
        rintro rfl
        exact hqr (by simp [NodeTree.toList])
      refine ⟨?_, ?_, ?_, ?_⟩
      · refine h5.reparent hndr ?_ ?_
        · intro a ha
          simp only [NodeTree.root, Option.some.injEq] at ha
          subst ha
          rw [Heap.set_parent_same]
          simp only [e1 _ _ hdq, and_self]
        · intro a ha hne
          simp only [NodeTree.root, ne_eq, Option.some.injEq] at hne
          have haq : a ≠ q := by
            rintro rfl
            exact hqr ha
          rw [Heap.set_parent_other _ _ (Ne.symm hne), e1 _ a haq]
      · intro b hb hbq
        have hbd : b ≠ d := by
          rintro rfl
          exact hb (by simp [NodeTree.toList])
        rw [Heap.set_parent_other _ _ hbd, e1 _ b hbq]
      · rw [Heap.set_parent_other _ _ (Ne.symm hdc), e1 _ c hcq]
      · unfold Relinked
        rw [Heap.set_parent_other _ _ (Ne.symm hdq)]
        unfold intrusive_tree.relink
        simp only [NodeTree.root] at h3
        by_cases hl : (h q).left = some c
        · simp [hl, Heap.set_left_same, NodeTree.root, h3]
        · simp [hl, Heap.set_right_same, NodeTree.root, h3]
  | node rll d rlr ih _ =>
    obtain ⟨h1, h2, h3, h4, h5⟩ := hs
    simp only [NodeTree.first] at htp ⊢
    rw [NodeTree.toList_node] at hnd ⊢
    have hnd0 := hnd
    rw [List.nodup_cons] at hnd
    obtain ⟨hq, hnd⟩ := hnd
    simp only [List.mem_append, List.mem_cons, not_or] at hq
    obtain ⟨hndl, hndcr, hdisj⟩ := List.nodup_append.mp hnd
    rw [List.nodup_cons] at hndcr
    have hcl : c ∉ (NodeTree.node rll d rlr).toList := fun hc => hdisj hc (List.mem_cons_self _ _)
    have hndl' : (c :: (NodeTree.node rll d rlr).toList).Nodup := List.nodup_cons.mpr ⟨hcl, hndl⟩
    obtain ⟨i1, i2, i3, i4⟩ := ih h4 hndl' (Or.inl h2) htp
    have hc' : ∀ b, b ∉ (NodeTree.node rll d rlr).toList → b ≠ c →
        unlink h (rll.first d) tp b = h b := i2
    simp only [NodeTree.removeMin]
    refine ⟨⟨?_, ?_, ?_, i1, ?_⟩, ?_, i3, ?_⟩
    · rw [i4.1]; exact h1
    · have := i4.2
      simp only [h2, NodeTree.root, if_true] at this
      exact this.1
    · have := i4.2
      simp only [h2, NodeTree.root, if_true] at this
      rw [this.2]; exact h3
    · refine h5.frame ?_
      intro b hb
      exact i2 b (fun hbl => hdisj hbl (List.mem_cons_of_mem _ hb))
        (fun hbc => hndcr.1 (hbc ▸ hb))
    · intro b hb hbq
      simp only [List.mem_append, List.mem_cons, not_or] at hb
      exact i2 b hb.1 hb.2.1
    · have hqe : unlink h (rll.first d) tp q = h q := i2 q hq.1 hq.2.1
      unfold Relinked
      rw [hqe]
      simp only [NodeTree.root, true_and]
      rcases hlink with hl | hr
      · simp [hl]
      · by_cases hl : (h q).left = some c
        · simp [hl]
        · simp [hl, hr]

namespace intrusive_details.intrusive_tree

theorem adopt_other (h : Heap) {q : Option Nat} (v : Option Nat) {a : Nat} (hne : q ≠ some a) :
    adopt h q v a = h a := by
  cases q with
  | none => rfl
  | some c =>
    simp only [ne_eq, Option.some.injEq] at hne
    simp only [adopt]
    exact Heap.set_parent_other _ _ (Ne.symm hne)

theorem adopt_same (h : Heap) (v : Option Nat) (a : Nat) :
    adopt h (some a) v a = { h a with parent := v } := by
  simp only [adopt]
  exact Heap.set_parent_same _ _ _

theorem relink_other (h : Heap) (p x : Nat) (t : Option Nat) {b : Nat} (hb : b ≠ p) :
    relink h p x t b = h b := by
  unfold relink
  split
  · exact Heap.set_left_other _ _ hb
  · exact Heap.set_right_other _ _ hb

theorem relink_relinked {h h1 : Heap} {p : Nat} (x : Nat) (t : Option Nat) (hp : h1 p = h p) :
    Relinked h (relink h1 p x t) p (some x) t := by
  unfold Relinked relink
  rw [hp]
  by_cases hl : (h p).left = some x
  · simp [hl, Heap.set_left_same, hp]
  · simp [hl, Heap.set_right_same, hp]

theorem erase_root_spec {h : Heap} {l r : NodeTree} {x p n : Nat}
    (hs : Shape h (.node l x r) p)
    (hnd : (p :: (NodeTree.node l x r).toList).Nodup)
    (hn : (NodeTree.node l x r).toList.length ≤ n) :
    ∃ h', erase n h x = .ok h' ∧
      Shape h' ((NodeTree.node l x r).remove x) p ∧
      (∀ b, b ∉ (NodeTree.node l x r).toList → b ≠ p → h' b = h b) ∧
      Relinked h h' p (some x) ((NodeTree.node l x r).remove x).root := by
  obtain ⟨h1, h2, h3, h4, h5⟩ := hs
  rw [NodeTree.toList_node] at hnd hn ⊢
  rw [List.nodup_cons] at hnd
  obtain ⟨hp, hnd⟩ := hnd
  simp only [List.mem_append, List.mem_cons, not_or] at hp
  obtain ⟨hpl, hpx, hpr⟩ := hp
  obtain ⟨hndl, hndxr, hdisj⟩ := List.nodup_append.mp hnd
  rw [List.nodup_cons] at hndxr
  obtain ⟨hxr, hndr⟩ := hndxr
  have hxl : x ∉ l.toList := fun hc => hdisj hc (List.mem_cons_self _ _)
  have hlr : ∀ a, a ∈ l.toList → a ∈ r.toList → False :=
    fun a ha hb => hdisj ha (List.mem_cons_of_mem _ hb)
  cases hl : l with
  | nil =>
    subst hl
    cases hr : r with
    | nil =>
      subst hr
      simp only [NodeTree.root] at h2 h3
      simp only [erase, h1, h2, h3, NodeTree.remove, if_true]
      exact ⟨_, rfl, trivial, fun b _ hb => relink_other _ _ _ _ hb, relink_relinked x none rfl⟩
    | node rl c rr =>
      subst hr
      simp only [NodeTree.root] at h2 h3
      simp only [erase, h1, h2, h3, NodeTree.remove, if_true]
      have hcp : c ≠ p := by
        rintro rfl
        exact hpr (by simp [NodeTree.toList])
      refine ⟨_, rfl, ?_, ?_, ?_⟩
      · refine h5.reparent hndr ?_ ?_
        · intro a ha
          simp only [NodeTree.root, Option.some.injEq] at ha
          subst ha
          rw [relink_other _ _ _ _ hcp, Heap.set_parent_same]
          exact ⟨rfl, rfl, rfl⟩
        · intro a ha hne
          simp only [NodeTree.root, ne_eq, Option.some.injEq] at hne
          have hap : a ≠ p := fun hc => hpr (hc ▸ ha)
          rw [relink_other _ _ _ _ hap, Heap.set_parent_other _ _ (Ne.symm hne)]
      · intro b hb hbp
        simp only [List.nil_append, NodeTree.toList, List.mem_cons, not_or] at hb
        have hbc : b ≠ c := by
          rintro rfl
          exact hb.2 (by simp [NodeTree.toList])
        rw [relink_other _ _ _ _ hbp, Heap.set_parent_other _ _ hbc]
      · exact relink_relinked x _ (Heap.set_parent_other _ _ (Ne.symm hcp))
  | node ll b lr =>
    subst hl
    have hbl : b ∈ (NodeTree.node ll b lr).toList := by simp [NodeTree.toList]
    have hbp : b ≠ p := fun hc => hpl (hc ▸ hbl)
    have hbx : b ≠ x := fun hc => hxl (hc ▸ hbl)
    cases hr : r with
    | nil =>
      subst hr
      simp only [NodeTree.root] at h2 h3
      simp only [erase, h1, h2, h3, NodeTree.remove, if_true]
      refine ⟨_, rfl, ?_, ?_, ?_⟩
      · refine h4.reparent hndl ?_ ?_
        · intro a ha
          simp only [NodeTree.root, Option.some.injEq] at ha
          subst ha
          rw [relink_other _ _ _ _ hbp, Heap.set_parent_same]
          exact ⟨rfl, rfl, rfl⟩
        · intro a ha hne
          simp only [NodeTree.root, ne_eq, Option.some.injEq] at hne
          have hap : a ≠ p := fun hc => hpl (hc ▸ ha)
          rw [relink_other _ _ _ _ hap, Heap.set_parent_other _ _ (Ne.symm hne)]
      · intro a ha hap
        simp only [List.mem_append, List.mem_cons, not_or] at ha
        have hab : a ≠ b := fun hc => ha.1 (hc ▸ hbl)
        rw [relink_other _ _ _ _ hap, Heap.set_parent_other _ _ hab]
      · exact relink_relinked x _ (Heap.set_parent_other _ _ (Ne.symm hbp))
    | node rl c rr =>
      subst hr
      simp only [NodeTree.root] at h2 h3
      have hnext : next n h (some x) = .ok (some (rl.first c)) := by
        simp only [next, h1, h3]
        rw [descend_left_spec h5 (by simp only [List.length_append, List.length_cons] at hn; omega)]
      have hrl := NodeTree.toList_first rl rr c
      have hm : rl.first c ∈ (NodeTree.node rl c rr).toList := by rw [hrl]; simp
      obtain ⟨tp, htp⟩ := h5.parent_ne_none hm
      have hndr' := hndr
      rw [hrl, List.nodup_cons] at hndr'
      obtain ⟨hmr', hndr'⟩ := hndr'
      have hsub : ∀ a, a ∈ (NodeTree.removeMin (.node rl c rr)).toList →
          a ∈ (NodeTree.node rl c rr).toList := by
        intro a ha; rw [hrl]; exact List.mem_cons_of_mem _ ha
      have hmx : rl.first c ≠ x := fun hc => hxr (hc ▸ hm)
      have hmp : rl.first c ≠ p := fun hc => hpr (hc ▸ hm)
      have hmb : rl.first c ≠ b := fun hc => hlr _ hbl (hc ▸ hm)
      have hxnd : (x :: (NodeTree.node rl c rr).toList).Nodup := List.nodup_cons.mpr ⟨hxr, hndr⟩
      obtain ⟨u1, u2, u3, u4⟩ := unlink_min_spec h5 hxnd (Or.inr h3) htp
      obtain ⟨u4p, u4c⟩ := u4
      have hbc : (h x).left ≠ some c := by
        rw [h2]
        simp only [ne_eq, Option.some.injEq]
        rintro rfl
        exact hlr b hbl (by simp [NodeTree.toList])
      simp only [hbc, if_false] at u4c
      obtain ⟨u4l, u4r⟩ := u4c
      simp only [erase, h1, h2, h3, hnext, htp, NodeTree.remove, if_true]
      refine ⟨_, rfl, ?_⟩
      -- the heap after the successor has taken over the links of `x`
      have hsplice : ∀ a, erase_splice h x (rl.first c) tp (some p) a
          = if a = rl.first c then
              ⟨some p, some b, (NodeTree.removeMin (.node rl c rr)).root⟩
            else if a = b ∨ (NodeTree.removeMin (.node rl c rr)).root = some a then
              { unlink h (rl.first c) tp a with parent := some (rl.first c) }
            else unlink h (rl.first c) tp a := by
        intro a
        have hu : erase_splice h x (rl.first c) tp (some p)
            = (let h2 := unlink h (rl.first c) tp
               let h3 := h2.set_parent (rl.first c) (some p)
               let h4 := h3.set_left (rl.first c) (h3 x).left
               let h5 := h4.set_right (rl.first c) (h4 x).right
               let h6 := adopt h5 (h5 (rl.first c)).right (some (rl.first c))
               adopt h6 (h6 (rl.first c)).left (some (rl.first c))) := rfl
        rw [hu]
        simp only
        have k3 : ((unlink h (rl.first c) tp).set_parent (rl.first c) (some p) x).left = some b := by
          rw [Heap.set_parent_other _ _ (Ne.symm hmx), u4l, h2]
        rw [k3]
        have k4 : ((((unlink h (rl.first c) tp).set_parent (rl.first c) (some p)).set_left
            (rl.first c) (some b)) x).right = (NodeTree.removeMin (.node rl c rr)).root := by
          rw [Heap.set_left_other _ _ (Ne.symm hmx), Heap.set_parent_other _ _ (Ne.symm hmx), u4r]
        rw [k4]
        have k5 : ((((unlink h (rl.first c) tp).set_parent (rl.first c) (some p)).set_left
            (rl.first c) (some b)).set_right (rl.first c)
              (NodeTree.removeMin (.node rl c rr)).root) (rl.first c)
            = ⟨some p, some b, (NodeTree.removeMin (.node rl c rr)).root⟩ := by
          rw [Heap.set_right_same, Heap.set_left_same, Heap.set_parent_same]
        have hroot_ne : (NodeTree.removeMin (.node rl c rr)).root ≠ some (rl.first c) :=
          fun hc => hmr' (NodeTree.root_mem hc)
        have k6 : (adopt ((((unlink h (rl.first c) tp).set_parent (rl.first c) (some p)).set_left
            (rl.first c) (some b)).set_right (rl.first c)
              (NodeTree.removeMin (.node rl c rr)).root)
              (NodeTree.removeMin (.node rl c rr)).root (some (rl.first c))) (rl.first c)
            = ⟨some p, some b, (NodeTree.removeMin (.node rl c rr)).root⟩ := by
          rw [adopt_other _ _ hroot_ne, k5]
        rw [k5, k6]
        simp only
        by_cases ham : a = rl.first c
        · subst ham
          rw [adopt_other _ _ (by simpa using (Ne.symm hmb)), k6]
          simp
        · simp only [ham, if_false]
          by_cases hab : a = b
          · subst hab
            simp only [true_or, if_true]
            rw [adopt_same]
            have hra : (NodeTree.removeMin (.node rl c rr)).root ≠ some a :=
              fun hc => hlr a hbl (hsub a (NodeTree.root_mem hc))
            rw [adopt_other _ _ hra, Heap.set_right_other _ _ ham, Heap.set_left_other _ _ ham,
              Heap.set_parent_other _ _ ham]
          · rw [adopt_other _ _ (by simpa using (Ne.symm hab))]
            simp only [hab, false_or]
            by_cases hra : (NodeTree.removeMin (.node rl c rr)).root = some a
            · simp only [hra, if_true]
              rw [adopt_same, Heap.set_right_other _ _ ham, Heap.set_left_other _ _ ham,
                Heap.set_parent_other _ _ ham]
            · simp only [hra, if_false]
              rw [adopt_other _ _ hra, Heap.set_right_other _ _ ham, Heap.set_left_other _ _ ham,
                Heap.set_parent_other _ _ ham]
      have hfin : ∀ a, a ≠ p →
          relink (erase_splice h x (rl.first c) tp (some p)) p x (some (rl.first c)) a
            = erase_splice h x (rl.first c) tp (some p) a :=
        fun a ha => relink_other _ _ _ _ ha
      have hroot_ne : (NodeTree.removeMin (.node rl c rr)).root ≠ some (rl.first c) :=
        fun hc => hmr' (NodeTree.root_mem hc)
      refine ⟨⟨?_, ?_, ?_, ?_, ?_⟩, ?_, ?_⟩
      · rw [hfin _ hmp, hsplice]; simp
      · rw [hfin _ hmp, hsplice]; simp [NodeTree.root]
      · rw [hfin _ hmp, hsplice]; simp
      · refine h4.reparent hndl ?_ ?_
        · intro a ha
          simp only [NodeTree.root, Option.some.injEq] at ha
          subst ha
          rw [hfin _ hbp, hsplice]
          simp only [Ne.symm hmb, if_false, true_or, if_true]
          rw [u2 _ (fun hc => hlr _ hbl hc) hbx]
          simp
        · intro a ha hne
          simp only [NodeTree.root, ne_eq, Option.some.injEq] at hne
          have hap : a ≠ p := fun hc => hpl (hc ▸ ha)
          have ham : a ≠ rl.first c := fun hc => hlr _ ha (hc ▸ hm)
          have hra : (NodeTree.removeMin (.node rl c rr)).root ≠ some a :=
            fun hc => hlr a ha (hsub a (NodeTree.root_mem hc))
          rw [hfin _ hap, hsplice]
          simp only [ham, if_false, Ne.symm hne, hra, or_self]
          exact u2 _ (fun hc => hlr _ ha hc) (fun hc => hxl (hc ▸ ha))
      · refine u1.reparent hndr' ?_ ?_
        · intro a ha
          have har' := NodeTree.root_mem ha
          have har := hsub a har'
          have hap : a ≠ p := fun hc => hpr (hc ▸ har)
          have ham : a ≠ rl.first c := fun hc => hmr' (hc ▸ har')
          rw [hfin _ hap, hsplice]
          simp only [ham, if_false, ha, or_true, if_true]
          simp
        · intro a ha hne
          have har := hsub a ha
          have hap : a ≠ p := fun hc => hpr (hc ▸ har)
          have ham : a ≠ rl.first c := fun hc => hmr' (hc ▸ ha)
          have hab : a ≠ b := fun hc => hlr _ hbl (hc ▸ har)
          rw [hfin _ hap, hsplice]
          simp only [ham, if_false, hab, hne, or_self]
      · intro a ha hap
        simp only [List.mem_append, List.mem_cons, not_or] at ha
        obtain ⟨hal, hax, har⟩ := ha
        have ham : a ≠ rl.first c := fun hc => har (hc ▸ hm)
        have hab : a ≠ b := fun hc => hal (hc ▸ hbl)
        have hra : (NodeTree.removeMin (.node rl c rr)).root ≠ some a :=
          fun hc => har (hsub a (NodeTree.root_mem hc))
        rw [hfin _ hap, hsplice]
        simp only [ham, if_false, hab, hra, or_self]
        exact u2 _ har hax
      · refine relink_relinked x _ ?_
        have hpb : p ≠ b := Ne.symm hbp
        have hra : (NodeTree.removeMin (.node rl c rr)).root ≠ some p :=
          fun hc => hpr (hsub p (NodeTree.root_mem hc))
        rw [hsplice]
        simp only [Ne.symm hmp, if_false, hpb, hra, or_self]
        exact u2 _ hpr hpx

end intrusive_details.intrusive_tree

theorem NodeTree.remove_toList {t : NodeTree} {x : Nat} (hx : x ∈ t.toList) :
    ∃ pre post, t.toList = pre ++ x :: post ∧ (t.remove x).toList = pre ++ post := by
  induction t with
  | nil => simp [NodeTree.toList] at hx
  | node l a r ihl ihr =>
    by_cases hax : a = x
    · subst hax
      refine ⟨l.toList, r.toList, rfl, ?_⟩
      simp only [NodeTree.remove, if_true]
      cases l with
      | nil =>
        cases r with
        | nil => simp [NodeTree.toList]
        | node rl c rr => simp [NodeTree.toList]
      | node ll b lr =>
        cases r with
        | nil => simp [NodeTree.toList]
        | node rl c rr =>
          simp only
          rw [NodeTree.toList_node, ← NodeTree.toList_first]
    · simp only [NodeTree.remove, hax, if_false]
      by_cases hxl : x ∈ l.toList
      · obtain ⟨pre, post, e1, e2⟩ := ihl hxl
        refine ⟨pre, post ++ a :: r.toList, ?_, ?_⟩
        · rw [NodeTree.toList_node, e1]; simp
        · simp only [hxl, if_true]
          rw [NodeTree.toList_node, e2]; simp
      · have hxr : x ∈ r.toList := by
          rw [NodeTree.toList_node] at hx
          simp only [List.mem_append, List.mem_cons] at hx
          rcases hx with h | h | h
          · exact absurd h hxl
          · exact absurd h.symm hax
          · exact h
        obtain ⟨pre, post, e1, e2⟩ := ihr hxr
        refine ⟨l.toList ++ a :: pre, post, ?_, ?_⟩
        · rw [NodeTree.toList_node, e1]; simp
        · simp only [hxl, if_false]
          rw [NodeTree.toList_node, e2]; simp

theorem NodeTree.remove_root {l r : NodeTree} {a x : Nat} (hax : a ≠ x) :
    ((NodeTree.node l a r).remove x).root = some a := by
  simp only [NodeTree.remove, hax, if_false]
  split <;> rfl

namespace intrusive_details.intrusive_tree

theorem erase_subtree_spec {h : Heap} {t : NodeTree} {x p n : Nat}
    (hs : Shape h t p) (hnd : (p :: t.toList).Nodup) (hx : x ∈ t.toList)
    (hlink : (h p).left = t.root ∨ (h p).right = t.root)
    (hn : t.toList.length ≤ n) :
    ∃ h', erase n h x = .ok h' ∧
      Shape h' (t.remove x) p ∧
      (∀ b, b ∉ t.toList → b ≠ p → h' b = h b) ∧
      Relinked h h' p t.root (t.remove x).root := by
  induction t generalizing p with
  | nil => simp [NodeTree.toList] at hx
  | node l a r ihl ihr =>
    by_cases hax : a = x
    · subst hax
      exact erase_root_spec hs hnd hn
    · obtain ⟨h1, h2, h3, h4, h5⟩ := hs
      rw [NodeTree.toList_node] at hnd hn hx ⊢
      have hnd0 := hnd
      rw [List.nodup_cons] at hnd
      obtain ⟨hp, hnd⟩ := hnd
      simp only [List.mem_append, List.mem_cons, not_or] at hp
      obtain ⟨hpl, hpa, hpr⟩ := hp
      obtain ⟨hndl, hndar, hdisj⟩ := List.nodup_append.mp hnd
      rw [List.nodup_cons] at hndar
      obtain ⟨har, hndr⟩ := hndar
      have hal : a ∉ l.toList := fun hc => hdisj hc (List.mem_cons_self _ _)
      have hlr : ∀ c, c ∈ l.toList → c ∈ r.toList → False :=
        fun c ha hb => hdisj ha (List.mem_cons_of_mem _ hb)
      simp only [List.length_append, List.length_cons] at hn
      have hroot : ((NodeTree.node l a r).remove x).root = some a := NodeTree.remove_root hax
      have hrel : ∀ h' : Heap, h' p = h p →
          Relinked h h' p (NodeTree.node l a r).root ((NodeTree.node l a r).remove x).root := by
        intro h' hp'
        unfold Relinked
        rw [hp', hroot]
        simp only [NodeTree.root, true_and] at hlink ⊢
        by_cases hl : (h p).left = some a
        · simp [hl]
        · rcases hlink with h | h
          · exact absurd h hl
          · simp [hl, h]
      by_cases hxl : x ∈ l.toList
      · obtain ⟨h', e1, e2, e3, e4p, e4c⟩ :=
          ihl h4 (List.nodup_cons.mpr ⟨hal, hndl⟩) hxl (Or.inl h2) (by omega)
        simp only [h2, if_true] at e4c
        have hp' : h' p = h p := e3 p hpl hpa
        refine ⟨h', e1, ?_, ?_, hrel h' hp'⟩
        · simp only [NodeTree.remove, hax, if_false, hxl, if_true]
          refine ⟨by rw [e4p]; exact h1, e4c.1, by rw [e4c.2]; exact h3, e2, ?_⟩
          refine h5.frame ?_
          intro b hb
          exact e3 b (fun hc => hlr b hc hb) (fun hc => har (hc ▸ hb))
        · intro b hb hbp
          simp only [List.mem_append, List.mem_cons, not_or] at hb
          exact e3 b hb.1 hb.2.1
      · have hxr : x ∈ r.toList := by
          simp only [List.mem_append, List.mem_cons] at hx
          rcases hx with h | h | h
          · exact absurd h hxl
          · exact absurd h.symm hax
          · exact h
        obtain ⟨h', e1, e2, e3, e4p, e4c⟩ :=
          ihr h5 (List.nodup_cons.mpr ⟨har, hndr⟩) hxr (Or.inr h3) (by omega)
        have hne : (h a).left ≠ r.root := by
          rw [h2]
          intro hc
          cases hr : r with
          | nil => subst hr; simp [NodeTree.toList] at hxr
          | node rl c rr =>
            subst hr
            exact hlr c (NodeTree.root_mem hc) (by simp [NodeTree.toList])
        simp only [hne, if_false] at e4c
        have hp' : h' p = h p := e3 p hpr hpa
        refine ⟨h', e1, ?_, ?_, hrel h' hp'⟩
        · simp only [NodeTree.remove, hax, if_false, hxl]
          refine ⟨by rw [e4p]; exact h1, by rw [e4c.1]; exact h2, e4c.2, ?_, e2⟩
          refine h4.frame ?_
          intro b hb
          exact e3 b (fun hc => hlr b hb hc) (fun hc => hal (hc ▸ hb))
        · intro b hb hbp
          simp only [List.mem_append, List.mem_cons, not_or] at hb
          exact e3 b hb.2.2 hb.2.1

theorem erase_spec {T : Type} {lt : T → T → Bool} {value : Nat → T} {h : Heap} {f : Nat}
    {t : NodeTree} (hinv : TreeInv lt value h f t) {x : Nat} (hx : x ∈ t.toList)
    {n : Nat} (hn : t.toList.length ≤ n) :
    ∃ h', erase n h x = .ok h' ∧
      TreeInv lt value h' f (t.remove x) ∧
      (∀ b, b ∉ t.toList → b ≠ f → h' b = h b) ∧
      (h' f).right = (h f).right ∧
      ∃ pre post, t.toList = pre ++ x :: post ∧ (t.remove x).toList = pre ++ post := by
  obtain ⟨h', e1, e2, e3, e4p, e4c⟩ :=
    erase_subtree_spec hinv.shape hinv.nodup hx (Or.inl hinv.fake_left) hn
  simp only [hinv.fake_left, if_true] at e4c
  obtain ⟨pre, post, d1, d2⟩ := NodeTree.remove_toList hx
  have hsub : (pre ++ post).Sublist (pre ++ x :: post) :=
    List.Sublist.append_left (List.sublist_cons_self x post) pre
  refine ⟨h', e1, ⟨by rw [e4p]; exact hinv.fake_parent, e4c.1, e2, ?_, ?_⟩, e3, e4c.2,
    pre, post, d1, d2⟩
  · have := hinv.nodup
    rw [d1] at this
    rw [d2]
    exact this.sublist (hsub.cons₂ f)
  · have := hinv.sorted
    rw [d1] at this
    rw [d2]
    exact this.sublist hsub

end intrusive_details.intrusive_tree

/-! ## Traversal and lookup on a well-formed bimap -/

namespace bimap

variable {L R : Type}

theorem walk_spec {T : Type} {lt : T → T → Bool} {value : Nat → T} {h : Heap} {f : Nat}
    {t : NodeTree} (hinv : TreeInv lt value h f t)
    (hfr : ∀ a ∈ t.toList, (h f).right ≠ some a) {n : Nat} (hn : t.toList.length < n)
    (suf : List Nat) :
    ∀ (pre : List Nat) (k : Nat), t.toList = pre ++ suf → suf.length < k →
      walk n h f k (some (suf.head?.getD f)) = .ok suf := by
  induction suf with
  | nil =>
    intro pre k _ hk
    cases k with
    | zero => simp at hk
    | succ k => simp [walk]
  | cons a rest ih =>
    intro pre k hsplit hk
    cases k with
    | zero => simp at hk
    | succ k =>
      have ha : a ∈ t.toList := by rw [hsplit]; simp
      have haf : a ≠ f := hinv.not_fake ha
      have hnd : t.toList.Nodup := (List.nodup_cons.mp hinv.nodup).2
      have hapre : a ∉ pre := by
        rw [hsplit] at hnd
        intro hc
        exact (List.nodup_append.mp hnd).2.2 hc (List.mem_cons_self _ _)
      have hnext : nextIn t.toList a = rest.head? := by
        rw [hsplit, nextIn_append_of_not_mem _ hapre, nextIn_head]
      have hstep := intrusive_tree.next_spec hinv hfr ha hn
      rw [hnext] at hstep
      have hrec := ih (pre ++ [a]) k (by rw [hsplit]; simp) (by simpa using hk)
      simp only [walk, List.head?_cons, Option.getD_some, Option.some.injEq, haf, if_false,
        hstep, hrec]

theorem Inv.right_nodes {b : bimap L R} {tl tr : NodeTree} (hinv : Inv b tl tr) {a : Nat}
    (ha : a ∈ tr.toList) : 2 ≤ a ∧ a < b.brk :=
  hinv.alloc a (hinv.perm.mem_iff.mpr ha)

theorem Inv.size_right {b : bimap L R} {tl tr : NodeTree} (hinv : Inv b tl tr) :
    b.size_ = tr.toList.length := by
  rw [hinv.size, hinv.perm.length_eq]

theorem Inv.left_cross {b : bimap L R} {tl tr : NodeTree} (hinv : Inv b tl tr) :
    ∀ a ∈ tl.toList, (b.lmem left_fake).right ≠ some a := by
  intro a ha hc
  rw [hinv.cross_left] at hc
  have := (hinv.alloc a ha).1
  simp only [right_fake, Option.some.injEq] at hc
  omega

theorem Inv.right_cross {b : bimap L R} {tl tr : NodeTree} (hinv : Inv b tl tr) :
    ∀ a ∈ tr.toList, (b.rmem right_fake).right ≠ some a := by
  intro a ha hc
  rw [hinv.cross_right] at hc
  have := (hinv.right_nodes ha).1
  simp only [left_fake, Option.some.injEq] at hc
  omega

theorem Inv.positions_left {b : bimap L R} {tl tr : NodeTree} (hinv : Inv b tl tr)
    {n : Nat} (hn : b.size_ < n) : positions_left n b = .ok tl.toList := by
  have hlen : tl.toList.length < n := by rw [← hinv.size]; exact hn
  simp only [bimap.positions_left, begin_left,
    intrusive_tree.begin_spec hinv.left (Nat.le_of_lt hlen)]
  exact walk_spec hinv.left hinv.left_cross hlen tl.toList [] n rfl hlen

theorem Inv.positions_right {b : bimap L R} {tl tr : NodeTree} (hinv : Inv b tl tr)
    {n : Nat} (hn : b.size_ < n) : positions_right n b = .ok tr.toList := by
  have hlen : tr.toList.length < n := by rw [← hinv.size_right]; exact hn
  simp only [bimap.positions_right, begin_right,
    intrusive_tree.begin_spec hinv.right (Nat.le_of_lt hlen)]
  exact walk_spec hinv.right hinv.right_cross hlen tr.toList [] n rfl hlen

theorem Inv.flip_left {b : bimap L R} {tl tr : NodeTree} (hinv : Inv b tl tr) {a : Nat}
    (ha : a ∈ tl.toList) : flip_left b (some a) = .ok (some a) := by
  obtain ⟨q, hq⟩ := hinv.left.shape.parent_ne_none ha
  simp [bimap.flip_left, hq]

theorem Inv.flip_right {b : bimap L R} {tl tr : NodeTree} (hinv : Inv b tl tr) {a : Nat}
    (ha : a ∈ tr.toList) : flip_right b (some a) = .ok (some a) := by
  obtain ⟨q, hq⟩ := hinv.right.shape.parent_ne_none ha
  simp [bimap.flip_right, hq]

theorem Inv.pair_at_left {b : bimap L R} {tl tr : NodeTree} (hinv : Inv b tl tr) {a : Nat}
    (ha : a ∈ tl.toList) : pair_at_left b a = .ok (b.lvalue a, b.rvalue a) := by
  simp [bimap.pair_at_left, deref_left, deref_right, hinv.flip_left ha]

theorem Inv.pair_at_right {b : bimap L R} {tl tr : NodeTree} (hinv : Inv b tl tr) {a : Nat}
    (ha : a ∈ tr.toList) : pair_at_right b a = .ok (b.lvalue a, b.rvalue a) := by
  simp [bimap.pair_at_right, deref_left, deref_right, hinv.flip_right ha]

theorem read_all_spec (rd : Nat → Except Err (L × R)) (g : Nat → L × R) (ps : List Nat)
    (h : ∀ a ∈ ps, rd a = .ok (g a)) : read_all rd ps = .ok (ps.map g) := by
  induction ps with
  | nil => rfl
  | cons a rest ih =>
    have h1 := h a (List.mem_cons_self _ _)
    have h2 := ih (fun c hc => h c (List.mem_cons_of_mem _ hc))
    simp [read_all, h1, h2]

theorem Inv.pairs_left {b : bimap L R} {tl tr : NodeTree} (hinv : Inv b tl tr)
    {n : Nat} (hn : b.size_ < n) :
    pairs_left n b = .ok (tl.toList.map (fun a => (b.lvalue a, b.rvalue a))) := by
  simp only [bimap.pairs_left, hinv.positions_left hn]
  exact read_all_spec _ _ _ (fun a ha => hinv.pair_at_left ha)

theorem Inv.pairs_right {b : bimap L R} {tl tr : NodeTree} (hinv : Inv b tl tr)
    {n : Nat} (hn : b.size_ < n) :
    pairs_right n b = .ok (tr.toList.map (fun a => (b.lvalue a, b.rvalue a))) := by
  simp only [bimap.pairs_right, hinv.positions_right hn]
  exact read_all_spec _ _ _ (fun a ha => hinv.pair_at_right ha)

theorem Inv.find_left {b : bimap L R} {tl tr : NodeTree} (hinv : Inv b tl tr)
    (hlt : StrictWeakOrder b.cmp_left) {n : Nat} (hn : b.size_ < n) (x : L) :
    find_left n b x = .ok (some ((tl.toList.find?
      (fun c => !b.cmp_left (b.lvalue c) x && !b.cmp_left x (b.lvalue c))).getD left_fake)) := by
  have hlen : tl.toList.length < n := by rw [← hinv.size]; exact hn
  simp only [bimap.find_left, intrusive_tree.find_spec hlt hinv.left x hlen]
  cases tl.toList.find? (fun c => !b.cmp_left (b.lvalue c) x && !b.cmp_left x (b.lvalue c)) <;>
    simp [end_left]

theorem Inv.find_right {b : bimap L R} {tl tr : NodeTree} (hinv : Inv b tl tr)
    (hlt : StrictWeakOrder b.cmp_right) {n : Nat} (hn : b.size_ < n) (x : R) :
    find_right n b x = .ok (some ((tr.toList.find?
      (fun c => !b.cmp_right (b.rvalue c) x && !b.cmp_right x (b.rvalue c))).getD right_fake)) := by
  have hlen : tr.toList.length < n := by rw [← hinv.size_right]; exact hn
  simp only [bimap.find_right, intrusive_tree.find_spec hlt hinv.right x hlen]
  cases tr.toList.find? (fun c => !b.cmp_right (b.rvalue c) x && !b.cmp_right x (b.rvalue c)) <;>
    simp [end_right]

end bimap

/-- In a strictly increasing list the search for a value equivalent to `x`
returns the one element equivalent to it. -/
theorem find_equivalent_of_mem {T : Type} {lt : T → T → Bool} (hlt : StrictWeakOrder lt)
    (value : Nat → T) (x : T) {xs : List Nat}
    (hsorted : xs.Pairwise (fun a b => lt (value a) (value b) = true))
    {a : Nat} (ha : a ∈ xs) (heq : equivalent lt (value a) x) :
    xs.find? (fun c => !lt (value c) x && !lt x (value c)) = some a := by
  induction xs with
  | nil => simp at ha
  | cons c xs ih =>
    rw [List.pairwise_cons] at hsorted
    by_cases hac : a = c
    · subst hac
      simp [List.find?_cons, heq.1, heq.2]
    · have ha' : a ∈ xs := by
        rcases List.mem_cons.mp ha with h | h
        · exact absurd h hac
        · exact h
      have hca := hsorted.1 a ha'
      have htest : (!lt (value c) x && !lt x (value c)) = false := by
        cases h1 : lt (value c) x with
        | true => simp
        | false =>
          cases h2 : lt x (value c) with
          | true => simp
          | false =>
            have := hlt.incomp _ _ _ h1 heq.2
            rw [hca] at this
            exact absurd this (by simp)
      rw [List.find?_cons, htest]
      exact ih hsorted.2 ha'

theorem find_equivalent_none {T : Type} {lt : T → T → Bool}
    (value : Nat → T) (x : T) {xs : List Nat}
    (h : ∀ a ∈ xs, ¬ equivalent lt (value a) x) :
    xs.find? (fun c => !lt (value c) x && !lt x (value c)) = none := by
  rw [List.find?_eq_none]
  intro a ha hc
  apply h a ha
  simp only [Bool.and_eq_true, Bool.not_eq_true'] at hc
  exact hc

/-! ## Insertion into a well-formed bimap -/

namespace bimap

variable {L R : Type}

theorem comparable_of_not_equivalent {T : Type} {lt : T → T → Bool} {u v : T}
    (h : ¬ equivalent lt u v) : lt v u = true ∨ lt u v = true := by
  unfold equivalent at h
  cases h1 : lt u v with
  | true => right; rfl
  | false =>
    cases h2 : lt v u with
    | true => left; rfl
    | false => exact absurd ⟨h1, h2⟩ h

theorem Inv.insert_fresh {b : bimap L R} {tl tr : NodeTree} (hinv : Inv b tl tr)
    (hl : StrictWeakOrder b.cmp_left) (hr : StrictWeakOrder b.cmp_right)
    {n : Nat} (hn : b.size_ < n) (l : L) (r : R)
    (habs_l : ∀ a ∈ tl.toList, ¬ equivalent b.cmp_left (b.lvalue a) l)
    (habs_r : ∀ a ∈ tr.toList, ¬ equivalent b.cmp_right (b.rvalue a) r) :
    ∃ b' tl' tr', insert n b l r = .ok (b', some b.brk) ∧ Inv b' tl' tr' ∧
      tl'.toList.Perm (b.brk :: tl.toList) ∧ tr'.toList.Perm (b.brk :: tr.toList) ∧
      b'.size_ = b.size_ + 1 ∧ b'.brk = b.brk + 1 ∧
      b'.cmp_left = b.cmp_left ∧ b'.cmp_right = b.cmp_right ∧
      b'.lvalue b.brk = l ∧ b'.rvalue b.brk = r ∧
      (∀ a, a ≠ b.brk → b'.lvalue a = b.lvalue a ∧ b'.rvalue a = b.rvalue a) ∧
      (∀ a, a ∉ tl.toList → a ≠ b.brk → a ≠ left_fake → b'.lmem a = b.lmem a) ∧
      (∀ a, a ∉ tr.toList → a ≠ b.brk → a ≠ right_fake → b'.rmem a = b.rmem a) := by
  have hlenl : tl.toList.length < n := by rw [← hinv.size]; exact hn
  have hlenr : tr.toList.length < n := by rw [← hinv.size_right]; exact hn
  have hbrk := hinv.brk_pos
  have hxl : b.brk ∉ tl.toList := fun hc => Nat.lt_irrefl _ (hinv.alloc _ hc).2
  have hxr : b.brk ∉ tr.toList := fun hc => Nat.lt_irrefl _ (hinv.right_nodes hc).2
  have hxfl : b.brk ≠ left_fake := by simp only [left_fake]; omega
  have hxfr : b.brk ≠ right_fake := by simp only [right_fake]; omega
  -- the state after `new node_t(left, right)`
  have hinvl : TreeInv b.cmp_left (fun a => if a = b.brk then l else b.lvalue a)
      (b.lmem.set b.brk base_node.null) left_fake tl := by
    refine hinv.left.transport (Heap.set_other _ _ (Ne.symm hxfl)) ?_ ?_
    · intro a ha
      exact Heap.set_other _ _ (fun hc => hxl (hc ▸ ha))
    · intro a ha
      have : a ≠ b.brk := fun hc => hxl (hc ▸ ha)
      simp [this]
  have hinvr : TreeInv b.cmp_right (fun a => if a = b.brk then r else b.rvalue a)
      (b.rmem.set b.brk base_node.null) right_fake tr := by
    refine hinv.right.transport (Heap.set_other _ _ (Ne.symm hxfr)) ?_ ?_
    · intro a ha
      exact Heap.set_other _ _ (fun hc => hxr (hc ▸ ha))
    · intro a ha
      have : a ≠ b.brk := fun hc => hxr (hc ▸ ha)
      simp [this]
  have hcmpl : ∀ c ∈ tl.toList,
      b.cmp_left ((fun a => if a = b.brk then l else b.lvalue a) b.brk)
          ((fun a => if a = b.brk then l else b.lvalue a) c) = true ∨
        b.cmp_left ((fun a => if a = b.brk then l else b.lvalue a) c)
          ((fun a => if a = b.brk then l else b.lvalue a) b.brk) = true := by
    intro c hc
    have hcx : c ≠ b.brk := fun h => hxl (h ▸ hc)
    simp only [if_true, hcx, if_false]
    exact comparable_of_not_equivalent (habs_l c hc)
  have hcmpr : ∀ c ∈ tr.toList,
      b.cmp_right ((fun a => if a = b.brk then r else b.rvalue a) b.brk)
          ((fun a => if a = b.brk then r else b.rvalue a) c) = true ∨
        b.cmp_right ((fun a => if a = b.brk then r else b.rvalue a) c)
          ((fun a => if a = b.brk then r else b.rvalue a) b.brk) = true := by
    intro c hc
    have hcx : c ≠ b.brk := fun h => hxr (h ▸ hc)
    simp only [if_true, hcx, if_false]
    exact comparable_of_not_equivalent (habs_r c hc)
  have hnull : ∀ h : Heap, ((h.set b.brk base_node.null) b.brk).left = none ∧
      ((h.set b.brk base_node.null) b.brk).right = none := by
    intro h
    rw [Heap.set_same]
    exact ⟨rfl, rfl⟩
  obtain ⟨lm, hlm, hlinv, hlframe, hlfr, _⟩ :=
    intrusive_tree.insert_spec hl hinvl hxl hxfl (hnull _).1 (hnull _).2 hcmpl hlenl
  obtain ⟨rm, hrm, hrinv, hrframe, hrfr, _⟩ :=
    intrusive_tree.insert_spec hr hinvr hxr hxfr (hnull _).1 (hnull _).2 hcmpr hlenr
  have hfl : bimap.find_left n b l = .ok b.end_left := by
    rw [hinv.find_left hl hn, find_equivalent_none _ _ habs_l]
    rfl
  have hfr : bimap.find_right n b r = .ok b.end_right := by
    rw [hinv.find_right hr hn, find_equivalent_none _ _ habs_r]
    rfl
  refine ⟨{ cmp_left := b.cmp_left
            cmp_right := b.cmp_right
            lmem := lm
            rmem := rm
            lvalue := fun a => if a = b.brk then l else b.lvalue a
            rvalue := fun a => if a = b.brk then r else b.rvalue a
            size_ := b.size_ + 1
            brk := b.brk + 1 }, _, _, ?_,
    ⟨hlinv, hrinv, ?_, ?_, ?_, ?_, ?_, ?_⟩, NodeTree.ins_perm _ _ _,
    NodeTree.ins_perm _ _ _, ?_⟩
  · simp only [insert, insert_, hfl, hfr, ne_eq, not_true_eq_false, if_false, new_node_t,
      hlm, hrm]
  · exact (NodeTree.ins_perm _ _ _).trans
      ((hinv.perm.cons _).trans (NodeTree.ins_perm _ _ _).symm)
  · simp only [(NodeTree.ins_perm _ _ _).length_eq, List.length_cons, hinv.size]
  · intro a ha
    rcases NodeTree.mem_ins.mp ha with rfl | ha
    · exact ⟨hbrk, Nat.lt_succ_self _⟩
    · exact ⟨(hinv.alloc a ha).1, Nat.lt_succ_of_lt (hinv.alloc a ha).2⟩
  · simp only
    rw [hlfr, Heap.set_other _ _ (Ne.symm hxfl)]
    exact hinv.cross_left
  · simp only
    rw [hrfr, Heap.set_other _ _ (Ne.symm hxfr)]
    exact hinv.cross_right
  · exact Nat.le_succ_of_le hbrk
  · refine ⟨rfl, rfl, rfl, rfl, by simp, by simp, ?_, ?_, ?_⟩
    · intro a ha
      simp [ha]
    · intro a ha hax haf
      simp only
      rw [hlframe a ha hax haf, Heap.set_other _ _ hax]
    · intro a ha hax haf
      simp only
      rw [hrframe a ha hax haf, Heap.set_other _ _ hax]

end bimap

/-! ## Erasure from a well-formed bimap -/

theorem erase_middle {xs : List Nat} {pre post : List Nat} {x : Nat} (hnd : xs.Nodup)
    (h : xs = pre ++ x :: post) : xs.erase x = pre ++ post := by
  subst h
  have hx : x ∉ pre := by
    intro hc
    exact (List.nodup_append.mp hnd).2.2 hc (List.mem_cons_self _ _)
  rw [List.erase_append_right _ hx, List.erase_cons_head]

theorem NodeTree.remove_toList_erase {t : NodeTree} {x : Nat} (hnd : t.toList.Nodup)
    (hx : x ∈ t.toList) : (t.remove x).toList = t.toList.erase x := by
  obtain ⟨pre, post, e1, e2⟩ := NodeTree.remove_toList hx
  rw [e2, erase_middle hnd e1]

namespace bimap

variable {L R : Type}

theorem Inv.nodup_left {b : bimap L R} {tl tr : NodeTree} (hinv : Inv b tl tr) :
    tl.toList.Nodup := (List.nodup_cons.mp hinv.left.nodup).2

theorem Inv.nodup_right {b : bimap L R} {tl tr : NodeTree} (hinv : Inv b tl tr) :
    tr.toList.Nodup := (List.nodup_cons.mp hinv.right.nodup).2

theorem Inv.erase_node_t {b : bimap L R} {tl tr : NodeTree} (hinv : Inv b tl tr)
    {n : Nat} (hn : b.size_ < n) {a : Nat} (ha : a ∈ tl.toList) :
    ∃ b', bimap.erase_node_t n b a = .ok b' ∧ Inv b' (tl.remove a) (tr.remove a) ∧
      (tl.remove a).toList = tl.toList.erase a ∧
      (tr.remove a).toList = tr.toList.erase a ∧
      b'.size_ + 1 = b.size_ ∧ b'.brk = b.brk ∧
      b'.cmp_left = b.cmp_left ∧ b'.cmp_right = b.cmp_right ∧
      b'.lvalue = b.lvalue ∧ b'.rvalue = b.rvalue ∧
      (∀ c, c ∉ tl.toList → c ≠ left_fake → b'.lmem c = b.lmem c) ∧
      (∀ c, c ∉ tr.toList → c ≠ right_fake → b'.rmem c = b.rmem c) := by
  have hlenl : tl.toList.length ≤ n := by rw [← hinv.size]; exact Nat.le_of_lt hn
  have hlenr : tr.toList.length ≤ n := by rw [← hinv.size_right]; exact Nat.le_of_lt hn
  have har : a ∈ tr.toList := hinv.perm.mem_iff.mp ha
  obtain ⟨lm, hlm, hlinv, hlframe, hlfr, _⟩ := intrusive_tree.erase_spec hinv.left ha hlenl
  obtain ⟨rm, hrm, hrinv, hrframe, hrfr, _⟩ := intrusive_tree.erase_spec hinv.right har hlenr
  have el := NodeTree.remove_toList_erase hinv.nodup_left ha
  have er := NodeTree.remove_toList_erase hinv.nodup_right har
  refine ⟨{ cmp_left := b.cmp_left
            cmp_right := b.cmp_right
            lmem := lm
            rmem := rm
            lvalue := b.lvalue
            rvalue := b.rvalue
            size_ := b.size_ - 1
            brk := b.brk }, ?_, ⟨hlinv, hrinv, ?_, ?_, ?_, ?_, ?_, hinv.brk_pos⟩, el, er, ?_,
          rfl, rfl, rfl, rfl, rfl, hlframe, hrframe⟩
  · simp only [bimap.erase_node_t, hlm, hrm]
  · rw [el, er]
    exact hinv.perm.erase a
  · simp only [el, List.length_erase_of_mem ha, hinv.size]
  · intro c hc
    rw [el] at hc
    exact hinv.alloc c (List.mem_of_mem_erase hc)
  · simp only
    rw [hlfr]
    exact hinv.cross_left
  · simp only
    rw [hrfr]
    exact hinv.cross_right
  · have : 0 < tl.toList.length := List.length_pos_of_mem ha
    simp only [hinv.size]
    omega

theorem Inv.incr_left {b : bimap L R} {tl tr : NodeTree} (hinv : Inv b tl tr)
    {n : Nat} (hn : b.size_ < n) {a : Nat} (ha : a ∈ tl.toList) :
    bimap.incr_left n b (some a) = .ok (some ((nextIn tl.toList a).getD left_fake)) := by
  have hlen : tl.toList.length < n := by rw [← hinv.size]; exact hn
  exact intrusive_tree.next_spec hinv.left hinv.left_cross ha hlen

theorem Inv.incr_right {b : bimap L R} {tl tr : NodeTree} (hinv : Inv b tl tr)
    {n : Nat} (hn : b.size_ < n) {a : Nat} (ha : a ∈ tr.toList) :
    bimap.incr_right n b (some a) = .ok (some ((nextIn tr.toList a).getD right_fake)) := by
  have hlen : tr.toList.length < n := by rw [← hinv.size_right]; exact hn
  exact intrusive_tree.next_spec hinv.right hinv.right_cross ha hlen

theorem Inv.erase_left_it {b : bimap L R} {tl tr : NodeTree} (hinv : Inv b tl tr)
    {n : Nat} (hn : b.size_ < n) {a : Nat} (ha : a ∈ tl.toList) :
    ∃ b', bimap.erase_left_it n b (some a)
        = .ok (b', some ((nextIn tl.toList a).getD left_fake)) ∧
      bimap.erase_node_t n b a = .ok b' := by
  obtain ⟨b', hb', _⟩ := hinv.erase_node_t hn ha
  exact ⟨b', by simp only [bimap.erase_left_it, hinv.incr_left hn ha, hb'], hb'⟩

theorem Inv.erase_right_it {b : bimap L R} {tl tr : NodeTree} (hinv : Inv b tl tr)
    {n : Nat} (hn : b.size_ < n) {a : Nat} (ha : a ∈ tr.toList) :
    ∃ b', bimap.erase_right_it n b (some a)
        = .ok (b', some ((nextIn tr.toList a).getD right_fake)) ∧
      bimap.erase_node_t n b a = .ok b' := by
  obtain ⟨b', hb', _⟩ := hinv.erase_node_t hn (hinv.perm.mem_iff.mpr ha)
  exact ⟨b', by simp only [bimap.erase_right_it, hinv.incr_right hn ha, hb'], hb'⟩

end bimap

/-! ## Every well-formed bimap satisfies the representation invariant -/

namespace bimap

variable {L R : Type}

theorem Inv.find_left_of_mem {b : bimap L R} {tl tr : NodeTree} (hinv : Inv b tl tr)
    (hlt : StrictWeakOrder b.cmp_left) {n : Nat} (hn : b.size_ < n) {x : L} {a : Nat}
    (ha : a ∈ tl.toList) (heq : equivalent b.cmp_left (b.lvalue a) x) :
    bimap.find_left n b x = .ok (some a) := by
  rw [hinv.find_left hlt hn, find_equivalent_of_mem hlt _ _ hinv.left.sorted ha heq]
  rfl

theorem Inv.find_right_of_mem {b : bimap L R} {tl tr : NodeTree} (hinv : Inv b tl tr)
    (hlt : StrictWeakOrder b.cmp_right) {n : Nat} (hn : b.size_ < n) {x : R} {a : Nat}
    (ha : a ∈ tr.toList) (heq : equivalent b.cmp_right (b.rvalue a) x) :
    bimap.find_right n b x = .ok (some a) := by
  rw [hinv.find_right hlt hn, find_equivalent_of_mem hlt _ _ hinv.right.sorted ha heq]
  rfl

theorem Inv.find_left_absent {b : bimap L R} {tl tr : NodeTree} (hinv : Inv b tl tr)
    (hlt : StrictWeakOrder b.cmp_left) {n : Nat} (hn : b.size_ < n) {x : L}
    (habs : ∀ a ∈ tl.toList, ¬ equivalent b.cmp_left (b.lvalue a) x) :
    bimap.find_left n b x = .ok b.end_left := by
  rw [hinv.find_left hlt hn, find_equivalent_none _ _ habs]
  rfl

theorem Inv.find_right_absent {b : bimap L R} {tl tr : NodeTree} (hinv : Inv b tl tr)
    (hlt : StrictWeakOrder b.cmp_right) {n : Nat} (hn : b.size_ < n) {x : R}
    (habs : ∀ a ∈ tr.toList, ¬ equivalent b.cmp_right (b.rvalue a) x) :
    bimap.find_right n b x = .ok b.end_right := by
  rw [hinv.find_right hlt hn, find_equivalent_none _ _ habs]
  rfl

theorem Inv.ne_end_left {b : bimap L R} {tl tr : NodeTree} (hinv : Inv b tl tr) {a : Nat}
    (ha : a ∈ tl.toList) : some a ≠ b.end_left := by
  simp only [end_left, ne_eq, Option.some.injEq]
  exact hinv.left.not_fake ha

theorem Inv.ne_end_right {b : bimap L R} {tl tr : NodeTree} (hinv : Inv b tl tr) {a : Nat}
    (ha : a ∈ tr.toList) : some a ≠ b.end_right := by
  simp only [end_right, ne_eq, Option.some.injEq]
  exact hinv.right.not_fake ha

theorem Inv.insert_dup {b : bimap L R} {tl tr : NodeTree} (hinv : Inv b tl tr)
    (hl : StrictWeakOrder b.cmp_left) (hr : StrictWeakOrder b.cmp_right)
    {n : Nat} (hn : b.size_ < n) (l : L) (r : R)
    (hdup : (∃ a ∈ tl.toList, equivalent b.cmp_left (b.lvalue a) l) ∨
      (∃ a ∈ tr.toList, equivalent b.cmp_right (b.rvalue a) r)) :
    bimap.insert n b l r = .ok (b, b.end_left) := by
  by_cases hleft : ∃ a ∈ tl.toList, equivalent b.cmp_left (b.lvalue a) l
  · obtain ⟨a, ha, heq⟩ := hleft
    simp only [bimap.insert, insert_, hinv.find_left_of_mem hl hn ha heq, ne_eq,
      hinv.ne_end_left ha, not_false_eq_true, if_true]
  · have habs : ∀ a ∈ tl.toList, ¬ equivalent b.cmp_left (b.lvalue a) l :=
      fun a ha hc => hleft ⟨a, ha, hc⟩
    rcases hdup with h | ⟨a, ha, heq⟩
    · exact absurd h hleft
    · simp only [bimap.insert, insert_, hinv.find_left_absent hl hn habs, ne_eq,
        not_true_eq_false, if_false, hinv.find_right_of_mem hr hn ha heq,
        hinv.ne_end_right ha, not_false_eq_true, if_true]

theorem Inv.erase_left_present {b : bimap L R} {tl tr : NodeTree} (hinv : Inv b tl tr)
    (hl : StrictWeakOrder b.cmp_left) {n : Nat} (hn : b.size_ < n) {k : L} {a : Nat}
    (ha : a ∈ tl.toList) (heq : equivalent b.cmp_left (b.lvalue a) k) :
    ∃ b', bimap.erase_left n b k = .ok (b', true) ∧ bimap.erase_node_t n b a = .ok b' := by
  obtain ⟨b', h1, h2⟩ := hinv.erase_left_it hn ha
  refine ⟨b', ?_, h2⟩
  simp only [bimap.erase_left, hinv.find_left_of_mem hl hn ha heq, ne_eq,
    hinv.ne_end_left ha, not_false_eq_true, if_true, h1]

theorem Inv.erase_right_present {b : bimap L R} {tl tr : NodeTree} (hinv : Inv b tl tr)
    (hr : StrictWeakOrder b.cmp_right) {n : Nat} (hn : b.size_ < n) {k : R} {a : Nat}
    (ha : a ∈ tr.toList) (heq : equivalent b.cmp_right (b.rvalue a) k) :
    ∃ b', bimap.erase_right n b k = .ok (b', true) ∧ bimap.erase_node_t n b a = .ok b' := by
  obtain ⟨b', h1, h2⟩ := hinv.erase_right_it hn ha
  refine ⟨b', ?_, h2⟩
  simp only [bimap.erase_right, hinv.find_right_of_mem hr hn ha heq, ne_eq,
    hinv.ne_end_right ha, not_false_eq_true, if_true, h1]

theorem Inv.erase_left_absent {b : bimap L R} {tl tr : NodeTree} (hinv : Inv b tl tr)
    (hl : StrictWeakOrder b.cmp_left) {n : Nat} (hn : b.size_ < n) {k : L}
    (habs : ∀ a ∈ tl.toList, ¬ equivalent b.cmp_left (b.lvalue a) k) :
    bimap.erase_left n b k = .ok (b, false) := by
  simp only [bimap.erase_left, hinv.find_left_absent hl hn habs, ne_eq, not_true_eq_false,
    if_false]

theorem Inv.erase_right_absent {b : bimap L R} {tl tr : NodeTree} (hinv : Inv b tl tr)
    (hr : StrictWeakOrder b.cmp_right) {n : Nat} (hn : b.size_ < n) {k : R}
    (habs : ∀ a ∈ tr.toList, ¬ equivalent b.cmp_right (b.rvalue a) k) :
    bimap.erase_right n b k = .ok (b, false) := by
  simp only [bimap.erase_right, hinv.find_right_absent hr hn habs, ne_eq, not_true_eq_false,
    if_false]

theorem filter_erase_cons {xs : List Nat} (hnd : xs.Nodup) (a : Nat) (rest : List Nat) :
    (xs.erase a).filter (fun c => decide (c ∉ rest))
      = xs.filter (fun c => decide (c ∉ a :: rest)) := by
  rw [hnd.erase_eq_filter, List.filter_filter]
  apply List.filter_congr
  intro c _
  by_cases h1 : c = a <;> by_cases h2 : c ∈ rest <;> simp [h1, h2]

theorem Inv.erase_left_range {n : Nat} (mid : List Nat) :
    ∀ (k : Nat) (b : bimap L R) (tl tr : NodeTree) (pre post : List Nat),
      Inv b tl tr → b.size_ < n → tl.toList = pre ++ (mid ++ post) → mid.length < k →
      ∃ b' tl' tr',
        bimap.erase_left_range n k b (some ((mid ++ post).head?.getD left_fake))
            (some (post.head?.getD left_fake))
          = .ok (b', some (post.head?.getD left_fake)) ∧
        Inv b' tl' tr' ∧ tl'.toList = pre ++ post ∧
        tr'.toList = tr.toList.filter (fun c => decide (c ∉ mid)) ∧
        b'.size_ + mid.length = b.size_ ∧ b'.brk = b.brk ∧
        b'.cmp_left = b.cmp_left ∧ b'.cmp_right = b.cmp_right ∧
        b'.lvalue = b.lvalue ∧ b'.rvalue = b.rvalue := by
  induction mid with
  | nil =>
    intro k b tl tr pre post hinv _ hsplit hk
    cases k with
    | zero => simp at hk
    | succ k =>
      refine ⟨b, tl, tr, ?_, hinv, by simpa using hsplit, by simp, by simp, rfl, rfl, rfl,
        rfl, rfl⟩
      simp [bimap.erase_left_range]
  | cons a rest ih =>
    intro k b tl tr pre post hinv hn hsplit hk
    cases k with
    | zero => simp at hk
    | succ k =>
      have ha : a ∈ tl.toList := by rw [hsplit]; simp
      have hnd := hinv.nodup_left
      have hapre : a ∉ pre := by
        rw [hsplit] at hnd
        intro hc
        exact (List.nodup_append.mp hnd).2.2 hc (by simp)
      have hnext : nextIn tl.toList a = (rest ++ post).head? := by
        rw [hsplit, List.cons_append, nextIn_append_of_not_mem _ hapre, nextIn_head]
      obtain ⟨b1, h1, h2⟩ := hinv.erase_left_it hn ha
      obtain ⟨b1', h2', hinv1, el, er, hsz, hbrk, hcl, hcr, hlv, hrv, _⟩ :=
        hinv.erase_node_t hn ha
      have hb1 : b1' = b1 := by
        rw [h2] at h2'
        exact (Except.ok.inj h2').symm
      subst hb1
      have hsplit1 : (tl.remove a).toList = pre ++ (rest ++ post) := by
        rw [el]
        exact erase_middle hnd (by rw [hsplit]; simp)
      have hn1 : b1'.size_ < n := by omega
      obtain ⟨b', tl', tr', e1, e2, e3, e4, e5, e6, e7, e8, e9, e10⟩ :=
        ih k b1' (tl.remove a) (tr.remove a) pre post hinv1 hn1 hsplit1 (by simpa using hk)
      have hne : some a ≠ some (post.head?.getD left_fake) := by
        simp only [ne_eq, Option.some.injEq]
        have hnd' : ((pre ++ a :: rest) ++ post).Nodup := by
          rw [hsplit] at hnd
          simpa using hnd
        cases post with
        | nil => simpa using hinv.left.not_fake ha
        | cons c post' =>
          simp only [List.head?_cons, Option.getD_some]
          rintro rfl
          exact (List.nodup_append.mp hnd').2.2 (by simp) (List.mem_cons_self _ _)
      refine ⟨b', tl', tr', ?_, e2, e3, ?_, ?_, by rw [e6, hbrk], by rw [e7, hcl],
        by rw [e8, hcr], by rw [e9, hlv], by rw [e10, hrv]⟩
      · simp only [List.cons_append, List.head?_cons, Option.getD_some, bimap.erase_left_range,
          ne_eq, hne, not_false_eq_true, if_true, h1, hnext]
        exact e1
      · rw [e4, er, filter_erase_cons hinv.nodup_right]
      · simp only [List.length_cons]
        omega

theorem Inv.erase_right_range {n : Nat} (mid : List Nat) :
    ∀ (k : Nat) (b : bimap L R) (tl tr : NodeTree) (pre post : List Nat),
      Inv b tl tr → b.size_ < n → tr.toList = pre ++ (mid ++ post) → mid.length < k →
      ∃ b' tl' tr',
        bimap.erase_right_range n k b (some ((mid ++ post).head?.getD right_fake))
            (some (post.head?.getD right_fake))
          = .ok (b', some (post.head?.getD right_fake)) ∧
        Inv b' tl' tr' ∧ tr'.toList = pre ++ post ∧
        tl'.toList = tl.toList.filter (fun c => decide (c ∉ mid)) ∧
        b'.size_ + mid.length = b.size_ ∧ b'.brk = b.brk ∧
        b'.cmp_left = b.cmp_left ∧ b'.cmp_right = b.cmp_right ∧
        b'.lvalue = b.lvalue ∧ b'.rvalue = b.rvalue := by
  induction mid with
  | nil =>
    intro k b tl tr pre post hinv _ hsplit hk
    cases k with
    | zero => simp at hk
    | succ k =>
      refine ⟨b, tl, tr, ?_, hinv, by simpa using hsplit, by simp, by simp, rfl, rfl, rfl,
        rfl, rfl⟩
      simp [bimap.erase_right_range]
  | cons a rest ih =>
    intro k b tl tr pre post hinv hn hsplit hk
    cases k with
    | zero => simp at hk
    | succ k =>
      have ha : a ∈ tr.toList := by rw [hsplit]; simp
      have hal : a ∈ tl.toList := hinv.perm.mem_iff.mpr ha
      have hnd := hinv.nodup_right
      have hapre : a ∉ pre := by
        rw [hsplit] at hnd
        intro hc
        exact (List.nodup_append.mp hnd).2.2 hc (by simp)
      have hnext : nextIn tr.toList a = (rest ++ post).head? := by
        rw [hsplit, List.cons_append, nextIn_append_of_not_mem _ hapre, nextIn_head]
      obtain ⟨b1, h1, h2⟩ := hinv.erase_right_it hn ha
      obtain ⟨b1', h2', hinv1, el, er, hsz, hbrk, hcl, hcr, hlv, hrv, _⟩ :=
        hinv.erase_node_t hn hal
      have hb1 : b1' = b1 := by
        rw [h2] at h2'
        exact (Except.ok.inj h2').symm
      subst hb1
      have hsplit1 : (tr.remove a).toList = pre ++ (rest ++ post) := by
        rw [er]
        exact erase_middle hnd (by rw [hsplit]; simp)
      have hn1 : b1'.size_ < n := by omega
      obtain ⟨b', tl', tr', e1, e2, e3, e4, e5, e6, e7, e8, e9, e10⟩ :=
        ih k b1' (tl.remove a) (tr.remove a) pre post hinv1 hn1 hsplit1 (by simpa using hk)
      have hne : some a ≠ some (post.head?.getD right_fake) := by
        simp only [ne_eq, Option.some.injEq]
        have hnd' : ((pre ++ a :: rest) ++ post).Nodup := by
          rw [hsplit] at hnd
          simpa using hnd
        cases post with
        | nil => simpa using hinv.right.not_fake ha
        | cons c post' =>
          simp only [List.head?_cons, Option.getD_some]
          rintro rfl
          exact (List.nodup_append.mp hnd').2.2 (by simp) (List.mem_cons_self _ _)
      refine ⟨b', tl', tr', ?_, e2, e3, ?_, ?_, by rw [e6, hbrk], by rw [e7, hcl],
        by rw [e8, hcr], by rw [e9, hlv], by rw [e10, hrv]⟩
      · simp only [List.cons_append, List.head?_cons, Option.getD_some, bimap.erase_right_range,
          ne_eq, hne, not_false_eq_true, if_true, h1, hnext]
        exact e1
      · rw [e4, el, filter_erase_cons hinv.nodup_left]
      · simp only [List.length_cons]
        omega

end bimap

theorem getElem?_positions (f : Nat) (ps : List Nat) :
    ∀ (i : Nat) (x : Option Nat), (ps.map some ++ [some f])[i]? = some x →
      i ≤ ps.length ∧ x = some ((ps.drop i).head?.getD f) := by
  induction ps with
  | nil =>
    intro i x h
    cases i with
    | zero => simp at h; simp [h]
    | succ i => simp at h
  | cons a ps ih =>
    intro i x h
    cases i with
    | zero => simp at h; simp [← h]
    | succ i =>
      simp only [List.map_cons, List.cons_append, List.getElem?_cons_succ] at h
      obtain ⟨h1, h2⟩ := ih i x h
      exact ⟨by simp only [List.length_cons]; omega, by simpa using h2⟩

theorem range_split (ps : List Nat) {i j : Nat} (hij : i ≤ j) :
    ps = ps.take i ++ ((ps.drop i).take (j - i) ++ ps.drop j) ∧
      (ps.drop i).take (j - i) ++ ps.drop j = ps.drop i := by
  have h2 : (ps.drop i).take (j - i) ++ ps.drop j = ps.drop i := by
    have : ps.drop j = (ps.drop i).drop (j - i) := by
      rw [List.drop_drop]
      congr 1
      omega
    rw [this, List.take_append_drop]
  exact ⟨by rw [h2, List.take_append_drop], h2⟩

namespace bimap

variable {L R : Type}

theorem Inv.empty (cl : L → L → Bool) (cr : R → R → Bool) (lv : Nat → L) (rv : Nat → R) :
    Inv (bimap.empty cl cr lv rv) .nil .nil := by
  refine ⟨⟨?_, ?_, trivial, by simp [NodeTree.toList], by simp [NodeTree.toList]⟩,
    ⟨?_, ?_, trivial, by simp [NodeTree.toList], by simp [NodeTree.toList]⟩,
    List.Perm.refl _, rfl, by simp [NodeTree.toList], ?_, ?_, Nat.le_refl _⟩
  all_goals simp [bimap.empty, Heap.set_right, Heap.set, base_node.null, NodeTree.root]

theorem WellFormed.inv {b : bimap L R} (hb : WellFormed b) :
    StrictWeakOrder b.cmp_left ∧ StrictWeakOrder b.cmp_right ∧ ∃ tl tr, Inv b tl tr := by
  induction hb with
  | empty cl cr lv rv hl hr => exact ⟨hl, hr, _, _, Inv.empty cl cr lv rv⟩
  | @insert b b' n l r it _ hn hop ih =>
    obtain ⟨hl, hr, tl, tr, hinv⟩ := ih
    by_cases hdup : (∃ a ∈ tl.toList, equivalent b.cmp_left (b.lvalue a) l) ∨
        (∃ a ∈ tr.toList, equivalent b.cmp_right (b.rvalue a) r)
    · rw [hinv.insert_dup hl hr hn l r hdup] at hop
      have := (Prod.mk.inj (Except.ok.inj hop)).1
      subst this
      exact ⟨hl, hr, tl, tr, hinv⟩
    · simp only [not_or, not_exists, not_and] at hdup
      obtain ⟨b'', tl', tr', e1, e2, _, _, _, _, e3, e4, _⟩ :=
        hinv.insert_fresh hl hr hn l r hdup.1 hdup.2
      rw [e1] at hop
      have := (Prod.mk.inj (Except.ok.inj hop)).1
      subst this
      exact ⟨e3 ▸ hl, e4 ▸ hr, tl', tr', e2⟩
  | @erase_left b b' n k found _ hn hop ih =>
    obtain ⟨hl, hr, tl, tr, hinv⟩ := ih
    by_cases hpres : ∃ a ∈ tl.toList, equivalent b.cmp_left (b.lvalue a) k
    · obtain ⟨a, ha, heq⟩ := hpres
      obtain ⟨b1, e1, e2⟩ := hinv.erase_left_present hl hn ha heq
      obtain ⟨b2, e3, hinv', _, _, _, _, e4, e5, _⟩ := hinv.erase_node_t hn ha
      rw [e1] at hop
      have := (Prod.mk.inj (Except.ok.inj hop)).1
      subst this
      rw [e2] at e3
      have := Except.ok.inj e3
      subst this
      exact ⟨e4 ▸ hl, e5 ▸ hr, _, _, hinv'⟩
    · simp only [not_exists, not_and] at hpres
      rw [hinv.erase_left_absent hl hn hpres] at hop
      have := (Prod.mk.inj (Except.ok.inj hop)).1
      subst this
      exact ⟨hl, hr, tl, tr, hinv⟩
  | @erase_right b b' n k found _ hn hop ih =>
    obtain ⟨hl, hr, tl, tr, hinv⟩ := ih
    by_cases hpres : ∃ a ∈ tr.toList, equivalent b.cmp_right (b.rvalue a) k
    · obtain ⟨a, ha, heq⟩ := hpres
      obtain ⟨b1, e1, e2⟩ := hinv.erase_right_present hr hn ha heq
      obtain ⟨b2, e3, hinv', _, _, _, _, e4, e5, _⟩ :=
        hinv.erase_node_t hn (hinv.perm.mem_iff.mpr ha)
      rw [e1] at hop
      have := (Prod.mk.inj (Except.ok.inj hop)).1
      subst this
      rw [e2] at e3
      have := Except.ok.inj e3
      subst this
      exact ⟨e4 ▸ hl, e5 ▸ hr, _, _, hinv'⟩
    · simp only [not_exists, not_and] at hpres
      rw [hinv.erase_right_absent hr hn hpres] at hop
      have := (Prod.mk.inj (Except.ok.inj hop)).1
      subst this
      exact ⟨hl, hr, tl, tr, hinv⟩
  | @erase_left_it b b' n a ps it _ hn hps ha hop ih =>
    obtain ⟨hl, hr, tl, tr, hinv⟩ := ih
    rw [hinv.positions_left hn] at hps
    have hps' := Except.ok.inj hps
    subst hps'
    obtain ⟨b1, e1, e2⟩ := hinv.erase_left_it hn ha
    obtain ⟨b2, e3, hinv', _, _, _, _, e4, e5, _⟩ := hinv.erase_node_t hn ha
    rw [e1] at hop
    have := (Prod.mk.inj (Except.ok.inj hop)).1
    subst this
    rw [e2] at e3
    have := Except.ok.inj e3
    subst this
    exact ⟨e4 ▸ hl, e5 ▸ hr, _, _, hinv'⟩
  | @erase_right_it b b' n a ps it _ hn hps ha hop ih =>
    obtain ⟨hl, hr, tl, tr, hinv⟩ := ih
    rw [hinv.positions_right hn] at hps
    have hps' := Except.ok.inj hps
    subst hps'
    obtain ⟨b1, e1, e2⟩ := hinv.erase_right_it hn ha
    obtain ⟨b2, e3, hinv', _, _, _, _, e4, e5, _⟩ :=
      hinv.erase_node_t hn (hinv.perm.mem_iff.mpr ha)
    rw [e1] at hop
    have := (Prod.mk.inj (Except.ok.inj hop)).1
    subst this
    rw [e2] at e3
    have := Except.ok.inj e3
    subst this
    exact ⟨e4 ▸ hl, e5 ▸ hr, _, _, hinv'⟩
  | @erase_left_range b b' n k i j ps first last it _ hn hk hps hi hj hij hop ih =>
    obtain ⟨hl, hr, tl, tr, hinv⟩ := ih
    rw [hinv.positions_left hn] at hps
    have hps' := Except.ok.inj hps
    subst hps'
    obtain ⟨_, rfl⟩ := getElem?_positions left_fake _ i first hi
    obtain ⟨_, rfl⟩ := getElem?_positions left_fake _ j last hj
    obtain ⟨s1, s2⟩ := range_split tl.toList hij
    have hlen : ((tl.toList.drop i).take (j - i)).length < k := by
      have h1 : ((tl.toList.drop i).take (j - i)).length ≤ tl.toList.length := by
        simp only [List.length_take, List.length_drop]
        omega
      have h2 := hinv.size
      omega
    obtain ⟨b1, tl', tr', e1, e2, _, _, _, _, e3, e4, _⟩ :=
      Inv.erase_left_range ((tl.toList.drop i).take (j - i)) k b tl tr (tl.toList.take i)
        (tl.toList.drop j) hinv hn s1 hlen
    rw [s2, hop] at e1
    have := (Prod.mk.inj (Except.ok.inj e1)).1
    subst this
    exact ⟨e3 ▸ hl, e4 ▸ hr, tl', tr', e2⟩
  | @erase_right_range b b' n k i j ps first last it _ hn hk hps hi hj hij hop ih =>
    obtain ⟨hl, hr, tl, tr, hinv⟩ := ih
    rw [hinv.positions_right hn] at hps
    have hps' := Except.ok.inj hps
    subst hps'
    obtain ⟨_, rfl⟩ := getElem?_positions right_fake _ i first hi
    obtain ⟨_, rfl⟩ := getElem?_positions right_fake _ j last hj
    obtain ⟨s1, s2⟩ := range_split tr.toList hij
    have hlen : ((tr.toList.drop i).take (j - i)).length < k := by
      have h1 : ((tr.toList.drop i).take (j - i)).length ≤ tr.toList.length := by
        simp only [List.length_take, List.length_drop]
        omega
      have h2 := hinv.size_right
      omega
    obtain ⟨b1, tl', tr', e1, e2, _, _, _, _, e3, e4, _⟩ :=
      Inv.erase_right_range ((tr.toList.drop i).take (j - i)) k b tl tr (tr.toList.take i)
        (tr.toList.drop j) hinv hn s1 hlen
    rw [s2, hop] at e1
    have := (Prod.mk.inj (Except.ok.inj e1)).1
    subst this
    exact ⟨e3 ▸ hl, e4 ▸ hr, tl', tr', e2⟩

end bimap

/-! ## Facts about the concrete bimaps -/

theorem lt_nat_swo : StrictWeakOrder lt_nat := by
  refine ⟨?_, ?_, ?_⟩
  · intro a; simp [lt_nat]
  · intro a b c h1 h2
    simp only [lt_nat, decide_eq_true_eq] at *
    omega
  · intro a b c h1 h2
    simp only [lt_nat, decide_eq_false_iff_not] at *
    omega

theorem sample_empty_wf : bimap.WellFormed sample_empty :=
  bimap.WellFormed.empty lt_nat lt_nat _ _ lt_nat_swo lt_nat_swo

theorem sample_one_wf : bimap.WellFormed sample_one :=
  bimap.WellFormed.insert sample_empty_wf (show sample_empty.size_ < 5 by decide)
    (show bimap.insert 5 sample_empty 2 0 = .ok (sample_one, some 2) from rfl)

theorem sample_two_wf : bimap.WellFormed sample_two :=
  bimap.WellFormed.insert sample_one_wf (show sample_one.size_ < 5 by decide)
    (show bimap.insert 5 sample_one 1 5 = .ok (sample_two, some 3) from rfl)

/-- A strict total order is in particular a strict weak order. -/
theorem StrictWeakOrder.of_total {T : Type} {lt : T → T → Bool}
    (hirr : ∀ a, lt a a = false)
    (htrans : ∀ a b c, lt a b = true → lt b c = true → lt a c = true)
    (htotal : ∀ a b, a ≠ b → lt a b = true ∨ lt b a = true) : StrictWeakOrder lt := by
  refine ⟨hirr, htrans, ?_⟩
  intro a b c hab hbc
  cases hac : lt a c with
  | false => rfl
  | true =>
    by_cases e1 : a = b
    · subst e1; rw [hac] at hbc; exact absurd hbc (by simp)
    · by_cases e2 : b = c
      · subst e2; rw [hac] at hab; exact absurd hab (by simp)
      · have hba : lt b a = true := by
          rcases htotal a b e1 with h | h
          · rw [h] at hab; exact absurd hab (by simp)
          · exact h
        have hbc' := htrans _ _ _ hba hac
        rw [hbc'] at hbc
        exact absurd hbc (by simp)

/-! ## Reading the content of a well-formed bimap -/

namespace bimap

variable {L R : Type}

theorem Inv.pairs_left_eq {b : bimap L R} {tl tr : NodeTree} (hinv : Inv b tl tr)
    {n : Nat} (hn : b.size_ < n) {ps : List (L × R)} (hps : bimap.pairs_left n b = .ok ps) :
    ps = tl.toList.map (fun a => (b.lvalue a, b.rvalue a)) := by
  rw [hinv.pairs_left hn] at hps
  exact (Except.ok.inj hps).symm

theorem Inv.pairs_right_eq {b : bimap L R} {tl tr : NodeTree} (hinv : Inv b tl tr)
    {n : Nat} (hn : b.size_ < n) {qs : List (L × R)} (hqs : bimap.pairs_right n b = .ok qs) :
    qs = tr.toList.map (fun a => (b.lvalue a, b.rvalue a)) := by
  rw [hinv.pairs_right hn] at hqs
  exact (Except.ok.inj hqs).symm

theorem Inv.positions_left_eq {b : bimap L R} {tl tr : NodeTree} (hinv : Inv b tl tr)
    {n : Nat} (hn : b.size_ < n) {ps : List Nat} (hps : bimap.positions_left n b = .ok ps) :
    ps = tl.toList := by
  rw [hinv.positions_left hn] at hps
  exact (Except.ok.inj hps).symm

theorem Inv.positions_right_eq {b : bimap L R} {tl tr : NodeTree} (hinv : Inv b tl tr)
    {n : Nat} (hn : b.size_ < n) {qs : List Nat} (hqs : bimap.positions_right n b = .ok qs) :
    qs = tr.toList := by
  rw [hinv.positions_right hn] at hqs
  exact (Except.ok.inj hqs).symm

theorem Inv.pairs_perm {b : bimap L R} {tl tr : NodeTree} (hinv : Inv b tl tr) :
    (tl.toList.map (fun a => (b.lvalue a, b.rvalue a))).Perm
      (tr.toList.map (fun a => (b.lvalue a, b.rvalue a))) :=
  hinv.perm.map _

theorem Inv.at_left_of_mem {b : bimap L R} {tl tr : NodeTree} (hinv : Inv b tl tr)
    (hl : StrictWeakOrder b.cmp_left) {n : Nat} (hn : b.size_ < n) {k : L} {a : Nat}
    (ha : a ∈ tl.toList) (heq : equivalent b.cmp_left (b.lvalue a) k) :
    bimap.at_left n b k = .ok (b.rvalue a) := by
  simp only [bimap.at_left, hinv.find_left_of_mem hl hn ha heq, hinv.ne_end_left ha, if_false,
    hinv.flip_left ha, deref_right]

theorem Inv.at_right_of_mem {b : bimap L R} {tl tr : NodeTree} (hinv : Inv b tl tr)
    (hr : StrictWeakOrder b.cmp_right) {n : Nat} (hn : b.size_ < n) {k : R} {a : Nat}
    (ha : a ∈ tr.toList) (heq : equivalent b.cmp_right (b.rvalue a) k) :
    bimap.at_right n b k = .ok (b.lvalue a) := by
  simp only [bimap.at_right, hinv.find_right_of_mem hr hn ha heq, hinv.ne_end_right ha,
    if_false, hinv.flip_right ha, deref_left]

/-- In a strictly increasing sequence the element equivalent to `k` is the only one. -/
theorem sorted_not_equivalent {T : Type} {lt : T → T → Bool} (hlt : StrictWeakOrder lt)
    (value : Nat → T) {pre post : List Nat} {a : Nat} {k : T}
    (hsorted : (pre ++ a :: post).Pairwise (fun c d => lt (value c) (value d) = true))
    (heq : equivalent lt (value a) k) :
    ∀ c ∈ pre ++ post, ¬ equivalent lt (value c) k := by
  rw [List.pairwise_append, List.pairwise_cons] at hsorted
  obtain ⟨_, ⟨hpost, _⟩, hpre⟩ := hsorted
  intro c hc hck
  rcases List.mem_append.mp hc with h | h
  · have h1 := hpre c h a (List.mem_cons_self _ _)
    have h2 := hlt.incomp _ _ _ hck.1 heq.2
    rw [h1] at h2
    exact absurd h2 (by simp)
  · have h1 := hpost c h
    have h2 := hlt.incomp _ _ _ heq.1 hck.2
    rw [h1] at h2
    exact absurd h2 (by simp)

theorem equivalent_refl {T : Type} {lt : T → T → Bool} (hlt : StrictWeakOrder lt) (x : T) :
    equivalent lt x x := ⟨hlt.irrefl x, hlt.irrefl x⟩

end bimap

/-! ## Effects of the mutating operations on the content -/

namespace bimap

variable {L R : Type}

theorem erase_entry_spec {b : bimap L R} {tl tr : NodeTree} (hinv : Inv b tl tr)
    (hl : StrictWeakOrder b.cmp_left) (hr : StrictWeakOrder b.cmp_right)
    {n : Nat} (hn : b.size_ < n) {a : Nat} (ha : a ∈ tl.toList) :
    ∃ b', erase_node_t n b a = .ok b' ∧ b'.size_ + 1 = b.size_ ∧
      (∀ m, b'.size_ < m →
        pairs_left m b' = .ok ((tl.toList.erase a).map (fun c => (b.lvalue c, b.rvalue c))) ∧
        positions_left m b' = .ok (tl.toList.erase a) ∧
        pairs_right m b' = .ok ((tr.toList.erase a).map (fun c => (b.lvalue c, b.rvalue c))) ∧
        positions_right m b' = .ok (tr.toList.erase a)) ∧
      (∀ m, b'.size_ < m → ∀ k, equivalent b.cmp_left (b.lvalue a) k →
        find_left m b' k = .ok b'.end_left) ∧
      (∀ m, b'.size_ < m → ∀ k, equivalent b.cmp_right (b.rvalue a) k →
        find_right m b' k = .ok b'.end_right) ∧
      (∀ c, c ≠ a → c ∈ tl.toList → pair_at_left b' c = pair_at_left b c ∧
        pair_at_right b' c = pair_at_right b c) := by
  have har : a ∈ tr.toList := hinv.perm.mem_iff.mp ha
  obtain ⟨b', e1, hinv', el, er, hsz, _, hcl, hcr, hlv, hrv, _⟩ := hinv.erase_node_t hn ha
  obtain ⟨pre, post, hsplit⟩ := List.append_of_mem ha
  obtain ⟨pre', post', hsplit'⟩ := List.append_of_mem har
  have el' : tl.toList.erase a = pre ++ post := erase_middle hinv.nodup_left hsplit
  have er' : tr.toList.erase a = pre' ++ post' := erase_middle hinv.nodup_right hsplit'
  have hl' : StrictWeakOrder b'.cmp_left := hcl ▸ hl
  have hr' : StrictWeakOrder b'.cmp_right := hcr ▸ hr
  refine ⟨b', e1, hsz, ?_, ?_, ?_, ?_⟩
  · intro m hm
    rw [hinv'.pairs_left hm, hinv'.positions_left hm, hinv'.pairs_right hm,
      hinv'.positions_right hm, el, er, hlv, hrv]
    exact ⟨rfl, rfl, rfl, rfl⟩
  · intro m hm k hk
    apply hinv'.find_left_absent hl' hm
    rw [el, el', hcl, hlv]
    have hs := hinv.left.sorted
    rw [hsplit] at hs
    exact sorted_not_equivalent hl _ hs hk
  · intro m hm k hk
    apply hinv'.find_right_absent hr' hm
    rw [er, er', hcr, hrv]
    have hs := hinv.right.sorted
    rw [hsplit'] at hs
    exact sorted_not_equivalent hr _ hs hk
  · intro c hca hc
    have hc' : c ∈ (tl.remove a).toList := by
      rw [el]
      exact (List.mem_erase_of_ne hca).mpr hc
    have hcr' : c ∈ (tr.remove a).toList := hinv'.perm.mem_iff.mp hc'
    rw [hinv'.pair_at_left hc', hinv.pair_at_left hc, hinv'.pair_at_right hcr',
      hinv.pair_at_right (hinv.perm.mem_iff.mp hc), hlv, hrv]
    exact ⟨rfl, rfl⟩

theorem map_split {α : Type} (g : Nat → α) {xs pre post : List Nat} {a : Nat}
    (hnd : xs.Nodup) (h : xs = pre ++ a :: post) :
    xs.map g = pre.map g ++ g a :: post.map g ∧
      (xs.erase a).map g = pre.map g ++ post.map g := by
  rw [erase_middle hnd h, h]
  simp

theorem insert_fresh_spec {b : bimap L R} {tl tr : NodeTree} (hinv : Inv b tl tr)
    (hl : StrictWeakOrder b.cmp_left) (hr : StrictWeakOrder b.cmp_right)
    {n : Nat} (hn : b.size_ < n) (l : L) (r : R)
    (hal : ∀ a ∈ tl.toList, ¬ equivalent b.cmp_left (b.lvalue a) l)
    (har : ∀ a ∈ tr.toList, ¬ equivalent b.cmp_right (b.rvalue a) r) :
    ∃ b', insert n b l r = .ok (b', some b.brk) ∧ b'.size_ = b.size_ + 1 ∧
      deref_left b' (some b.brk) = .ok l ∧ deref_right b' (some b.brk) = .ok r ∧
      flip_left b' (some b.brk) = .ok (some b.brk) ∧
      flip_right b' (some b.brk) = .ok (some b.brk) ∧
      ∀ m, b'.size_ < m →
        (∃ ps', pairs_left m b' = .ok ps' ∧
          ps'.Perm ((l, r) :: tl.toList.map (fun a => (b.lvalue a, b.rvalue a)))) ∧
        (∃ qs', pairs_right m b' = .ok qs' ∧
          qs'.Perm ((l, r) :: tl.toList.map (fun a => (b.lvalue a, b.rvalue a)))) ∧
        find_left m b' l = .ok (some b.brk) ∧ find_right m b' r = .ok (some b.brk) := by
  obtain ⟨b', tl', tr', e1, hinv', pl, pr, hsz, _, hcl, hcr, hvl, hvr, hvals, _⟩ :=
    hinv.insert_fresh hl hr hn l r hal har
  have hl' : StrictWeakOrder b'.cmp_left := hcl ▸ hl
  have hr' : StrictWeakOrder b'.cmp_right := hcr ▸ hr
  have hxl : b.brk ∈ tl'.toList := pl.mem_iff.mpr (List.mem_cons_self _ _)
  have hxr : b.brk ∈ tr'.toList := pr.mem_iff.mpr (List.mem_cons_self _ _)
  have hold : tl.toList.map (fun a => (b'.lvalue a, b'.rvalue a))
      = tl.toList.map (fun a => (b.lvalue a, b.rvalue a)) := by
    apply List.map_congr_left
    intro a ha
    have hne : a ≠ b.brk := fun hc => Nat.lt_irrefl _ (hc ▸ (hinv.alloc a ha).2)
    rw [(hvals a hne).1, (hvals a hne).2]
  have hpl : (tl'.toList.map (fun a => (b'.lvalue a, b'.rvalue a))).Perm
      ((l, r) :: tl.toList.map (fun a => (b.lvalue a, b.rvalue a))) := by
    have := pl.map (fun a => (b'.lvalue a, b'.rvalue a))
    rw [List.map_cons, hvl, hvr, hold] at this
    exact this
  refine ⟨b', e1, hsz, by simp [deref_left, hvl], by simp [deref_right, hvr],
    hinv'.flip_left hxl, hinv'.flip_right hxr, ?_⟩
  intro m hm
  refine ⟨⟨_, hinv'.pairs_left hm, hpl⟩, ⟨_, hinv'.pairs_right hm, ?_⟩, ?_, ?_⟩
  · exact hinv'.pairs_perm.symm.trans hpl
  · exact hinv'.find_left_of_mem hl' hm hxl (by rw [hvl]; exact equivalent_refl hl' l)
  · exact hinv'.find_right_of_mem hr' hm hxr (by rw [hvr]; exact equivalent_refl hr' r)

end bimap

/-! ## The claims -/

namespace bimap

variable {L R : Type}

/-- C1: on a well-formed bimap, `insert(l, r)` with `l` equivalent to a left value
already held or `r` equivalent to a right value already held returns `end_left()`
and leaves the bimap exactly as it was, so its size and both sequences of pairs
are unchanged. -/
theorem insert_rejects_duplicate {b : bimap L R} (hb : WellFormed b) {n : Nat}
    (hn : b.size_ < n) {ps : List (L × R)} (hps : pairs_left n b = .ok ps) (l : L) (r : R)
    (hdup : (∃ p ∈ ps, equivalent b.cmp_left p.1 l) ∨
      (∃ p ∈ ps, equivalent b.cmp_right p.2 r)) :
    ∃ b', insert n b l r = .ok (b', b.end_left) ∧ b' = b ∧ b'.size_ = b.size_ ∧
      pairs_left n b' = pairs_left n b ∧ pairs_right n b' = pairs_right n b := by
  obtain ⟨hl, hr, tl, tr, hinv⟩ := hb.inv
  have hps' := hinv.pairs_left_eq hn hps
  subst hps'
  refine ⟨b, hinv.insert_dup hl hr hn l r ?_, rfl, rfl, rfl, rfl⟩
  rcases hdup with ⟨p, hp, heq⟩ | ⟨p, hp, heq⟩
  · obtain ⟨a, ha, rfl⟩ := List.mem_map.mp hp
    exact Or.inl ⟨a, ha, heq⟩
  · obtain ⟨a, ha, rfl⟩ := List.mem_map.mp hp
    exact Or.inr ⟨a, hinv.perm.mem_iff.mp ha, heq⟩

theorem insert_rejects_duplicate_witness :
    ∃ b', insert 5 sample_two 2 9 = .ok (b', sample_two.end_left) ∧ b' = sample_two ∧
      b'.size_ = sample_two.size_ ∧
      pairs_left 5 b' = pairs_left 5 sample_two ∧ pairs_right 5 b' = pairs_right 5 sample_two :=
  insert_rejects_duplicate sample_two_wf (show sample_two.size_ < 5 by decide)
    (show pairs_left 5 sample_two = .ok [(1, 5), (2, 0)] from rfl) 2 9
    (Or.inl ⟨(2, 0), by simp, ⟨rfl, rfl⟩⟩)

/-- C2: on a well-formed bimap, `insert(l, r)` with `l` and `r` both absent returns
a left position `p` with `*p = l` and `*p.flip() = r`, the size grows by one, the
pairs held afterwards are the old ones plus `(l, r)` in both orders, and afterwards
`find_left(l).flip()` dereferences to `r` and `find_right(r).flip()` to `l`. -/
theorem insert_fresh_pair {b : bimap L R} (hb : WellFormed b) {n : Nat}
    (hn : b.size_ < n) {ps : List (L × R)} (hps : pairs_left n b = .ok ps) (l : L) (r : R)
    (habs_l : ∀ p ∈ ps, ¬ equivalent b.cmp_left p.1 l)
    (habs_r : ∀ p ∈ ps, ¬ equivalent b.cmp_right p.2 r) :
    ∃ b' p, insert n b l r = .ok (b', some p) ∧
      deref_left b' (some p) = .ok l ∧
      (∃ q, flip_left b' (some p) = .ok (some q) ∧ deref_right b' (some q) = .ok r) ∧
      b'.size_ = b.size_ + 1 ∧
      ∀ m, b'.size_ < m →
        (∃ ps', pairs_left m b' = .ok ps' ∧ ps'.Perm ((l, r) :: ps)) ∧
        (∃ qs', pairs_right m b' = .ok qs' ∧ qs'.Perm ((l, r) :: ps)) ∧
        (find_left m b' l = .ok (some p) ∧
          ∃ q, flip_left b' (some p) = .ok (some q) ∧ deref_right b' (some q) = .ok r) ∧
        (∃ q, find_right m b' r = .ok (some q) ∧
          ∃ q', flip_right b' (some q) = .ok (some q') ∧ deref_left b' (some q') = .ok l) := by
  obtain ⟨hl, hr, tl, tr, hinv⟩ := hb.inv
  have hps' := hinv.pairs_left_eq hn hps
  subst hps'
  have hal : ∀ a ∈ tl.toList, ¬ equivalent b.cmp_left (b.lvalue a) l :=
    fun a ha => habs_l _ (List.mem_map.mpr ⟨a, ha, rfl⟩)
  have har : ∀ a ∈ tr.toList, ¬ equivalent b.cmp_right (b.rvalue a) r :=
    fun a ha => habs_r _ (List.mem_map.mpr ⟨a, hinv.perm.mem_iff.mpr ha, rfl⟩)
  obtain ⟨b', e1, hsz, d1, d2, f1, f2, hrest⟩ := insert_fresh_spec hinv hl hr hn l r hal har
  refine ⟨b', b.brk, e1, d1, ⟨b.brk, f1, d2⟩, hsz, ?_⟩
  intro m hm
  obtain ⟨g1, g2, g3, g4⟩ := hrest m hm
  exact ⟨g1, g2, ⟨g3, b.brk, f1, d2⟩, b.brk, g4, b.brk, f2, d1⟩

theorem insert_fresh_pair_witness :
    ∃ b' p, insert 5 sample_two 3 7 = .ok (b', some p) ∧
      deref_left b' (some p) = .ok 3 ∧
      (∃ q, flip_left b' (some p) = .ok (some q) ∧ deref_right b' (some q) = .ok 7) ∧
      b'.size_ = sample_two.size_ + 1 ∧
      ∀ m, b'.size_ < m →
        (∃ ps', pairs_left m b' = .ok ps' ∧ ps'.Perm ((3, 7) :: [(1, 5), (2, 0)])) ∧
        (∃ qs', pairs_right m b' = .ok qs' ∧ qs'.Perm ((3, 7) :: [(1, 5), (2, 0)])) ∧
        (find_left m b' 3 = .ok (some p) ∧
          ∃ q, flip_left b' (some p) = .ok (some q) ∧ deref_right b' (some q) = .ok 7) ∧
        (∃ q, find_right m b' 7 = .ok (some q) ∧
          ∃ q', flip_right b' (some q) = .ok (some q') ∧ deref_left b' (some q') = .ok 3) :=
  insert_fresh_pair sample_two_wf (show sample_two.size_ < 5 by decide)
    (show pairs_left 5 sample_two = .ok [(1, 5), (2, 0)] from rfl) 3 7
    (by intro p hp; simp at hp; rcases hp with rfl | rfl <;> simp [equivalent] <;> decide)
    (by intro p hp; simp at hp; rcases hp with rfl | rfl <;> simp [equivalent] <;> decide)

end bimap

namespace bimap

variable {L R : Type}

/-- C3: on a well-formed bimap, `erase_left(k)` returns `false` and changes nothing
when no left value is equivalent to `k`; when the pair `p` has a left value
equivalent to `k` it returns `true`, the size drops by one, `p` leaves both
sequences of pairs while every other pair keeps its place, and afterwards
`find_left(k)` and `find_right(p.2)` return the end positions.  `erase_right`
behaves the same way on right keys. -/
theorem erase_by_key {b : bimap L R} (hb : WellFormed b) {n : Nat} (hn : b.size_ < n)
    {ps qs : List (L × R)} (hps : pairs_left n b = .ok ps) (hqs : pairs_right n b = .ok qs) :
    (∀ k : L,
      ((∀ p ∈ ps, ¬ equivalent b.cmp_left p.1 k) → erase_left n b k = .ok (b, false)) ∧
      (∀ p ∈ ps, equivalent b.cmp_left p.1 k →
        ∃ b', erase_left n b k = .ok (b', true) ∧ b'.size_ + 1 = b.size_ ∧
          (∃ pre post, ps = pre ++ p :: post ∧
            ∀ m, b'.size_ < m → pairs_left m b' = .ok (pre ++ post)) ∧
          (∃ pre post, qs = pre ++ p :: post ∧
            ∀ m, b'.size_ < m → pairs_right m b' = .ok (pre ++ post)) ∧
          ∀ m, b'.size_ < m →
            find_left m b' k = .ok b'.end_left ∧ find_right m b' p.2 = .ok b'.end_right)) ∧
    (∀ k : R,
      ((∀ p ∈ ps, ¬ equivalent b.cmp_right p.2 k) → erase_right n b k = .ok (b, false)) ∧
      (∀ p ∈ ps, equivalent b.cmp_right p.2 k →
        ∃ b', erase_right n b k = .ok (b', true) ∧ b'.size_ + 1 = b.size_ ∧
          (∃ pre post, ps = pre ++ p :: post ∧
            ∀ m, b'.size_ < m → pairs_left m b' = .ok (pre ++ post)) ∧
          (∃ pre post, qs = pre ++ p :: post ∧
            ∀ m, b'.size_ < m → pairs_right m b' = .ok (pre ++ post)) ∧
          ∀ m, b'.size_ < m →
            find_right m b' k = .ok b'.end_right ∧ find_left m b' p.1 = .ok b'.end_left)) := by
  obtain ⟨hl, hr, tl, tr, hinv⟩ := hb.inv
  have hps' := hinv.pairs_left_eq hn hps
  have hqs' := hinv.pairs_right_eq hn hqs
  subst hps' hqs'
  constructor
  · intro k
    constructor
    · intro habs
      exact hinv.erase_left_absent hl hn (fun a ha => habs _ (List.mem_map.mpr ⟨a, ha, rfl⟩))
    · intro p hp heq
      obtain ⟨a, ha, rfl⟩ := List.mem_map.mp hp
      obtain ⟨b', e1, e2⟩ := hinv.erase_left_present hl hn ha heq
      obtain ⟨b'', f1, hsz, g1, g3, g4, _⟩ := erase_entry_spec hinv hl hr hn ha
      rw [e2] at f1
      have := Except.ok.inj f1
      subst this
      obtain ⟨pre, post, s1⟩ := List.append_of_mem ha
      obtain ⟨pre', post', s2⟩ := List.append_of_mem (hinv.perm.mem_iff.mp ha)
      have m1 := map_split (fun c => (b.lvalue c, b.rvalue c)) hinv.nodup_left s1
      have m2 := map_split (fun c => (b.lvalue c, b.rvalue c)) hinv.nodup_right s2
      refine ⟨b', e1, hsz,
        ⟨pre.map (fun c => (b.lvalue c, b.rvalue c)), post.map (fun c => (b.lvalue c, b.rvalue c)),
          m1.1, fun m hm => (g1 m hm).1.trans (by rw [m1.2])⟩,
        ⟨pre'.map (fun c => (b.lvalue c, b.rvalue c)),
          post'.map (fun c => (b.lvalue c, b.rvalue c)),
          m2.1, fun m hm => (g1 m hm).2.2.1.trans (by rw [m2.2])⟩, ?_⟩
      · intro m hm
        exact ⟨g3 m hm k heq, g4 m hm _ (equivalent_refl hr _)⟩
  · intro k
    constructor
    · intro habs
      exact hinv.erase_right_absent hr hn
        (fun a ha => habs _ (List.mem_map.mpr ⟨a, hinv.perm.mem_iff.mpr ha, rfl⟩))
    · intro p hp heq
      obtain ⟨a, ha, rfl⟩ := List.mem_map.mp hp
      obtain ⟨b', e1, e2⟩ := hinv.erase_right_present hr hn (hinv.perm.mem_iff.mp ha) heq
      obtain ⟨b'', f1, hsz, g1, g3, g4, _⟩ := erase_entry_spec hinv hl hr hn ha
      rw [e2] at f1
      have := Except.ok.inj f1
      subst this
      obtain ⟨pre, post, s1⟩ := List.append_of_mem ha
      obtain ⟨pre', post', s2⟩ := List.append_of_mem (hinv.perm.mem_iff.mp ha)
      have m1 := map_split (fun c => (b.lvalue c, b.rvalue c)) hinv.nodup_left s1
      have m2 := map_split (fun c => (b.lvalue c, b.rvalue c)) hinv.nodup_right s2
      refine ⟨b', e1, hsz,
        ⟨pre.map (fun c => (b.lvalue c, b.rvalue c)), post.map (fun c => (b.lvalue c, b.rvalue c)),
          m1.1, fun m hm => (g1 m hm).1.trans (by rw [m1.2])⟩,
        ⟨pre'.map (fun c => (b.lvalue c, b.rvalue c)),
          post'.map (fun c => (b.lvalue c, b.rvalue c)),
          m2.1, fun m hm => (g1 m hm).2.2.1.trans (by rw [m2.2])⟩, ?_⟩
      · intro m hm
        exact ⟨g4 m hm k heq, g3 m hm _ (equivalent_refl hl _)⟩

theorem erase_by_key_witness :
    (∀ k : Nat,
      ((∀ p ∈ [(1, 5), (2, 0)], ¬ equivalent sample_two.cmp_left p.1 k) →
        erase_left 5 sample_two k = .ok (sample_two, false)) ∧
      (∀ p ∈ [(1, 5), (2, 0)], equivalent sample_two.cmp_left p.1 k →
        ∃ b', erase_left 5 sample_two k = .ok (b', true) ∧ b'.size_ + 1 = sample_two.size_ ∧
          (∃ pre post, [(1, 5), (2, 0)] = pre ++ p :: post ∧
            ∀ m, b'.size_ < m → pairs_left m b' = .ok (pre ++ post)) ∧
          (∃ pre post, [(2, 0), (1, 5)] = pre ++ p :: post ∧
            ∀ m, b'.size_ < m → pairs_right m b' = .ok (pre ++ post)) ∧
          ∀ m, b'.size_ < m →
            find_left m b' k = .ok b'.end_left ∧ find_right m b' p.2 = .ok b'.end_right)) ∧
    (∀ k : Nat,
      ((∀ p ∈ [(1, 5), (2, 0)], ¬ equivalent sample_two.cmp_right p.2 k) →
        erase_right 5 sample_two k = .ok (sample_two, false)) ∧
      (∀ p ∈ [(1, 5), (2, 0)], equivalent sample_two.cmp_right p.2 k →
        ∃ b', erase_right 5 sample_two k = .ok (b', true) ∧ b'.size_ + 1 = sample_two.size_ ∧
          (∃ pre post, [(1, 5), (2, 0)] = pre ++ p :: post ∧
            ∀ m, b'.size_ < m → pairs_left m b' = .ok (pre ++ post)) ∧
          (∃ pre post, [(2, 0), (1, 5)] = pre ++ p :: post ∧
            ∀ m, b'.size_ < m → pairs_right m b' = .ok (pre ++ post)) ∧
          ∀ m, b'.size_ < m →
            find_right m b' k = .ok b'.end_right ∧ find_left m b' p.1 = .ok b'.end_left)) :=
  erase_by_key sample_two_wf (show sample_two.size_ < 5 by decide)
    (show pairs_left 5 sample_two = .ok [(1, 5), (2, 0)] from rfl)
    (show pairs_right 5 sample_two = .ok [(2, 0), (1, 5)] from rfl)

/-- C4: on a well-formed bimap, `at_left(k)` returns the right value of the pair
whose left value is equivalent to `k` and fails with `out_of_range` when there is
none; `at_right` does the same from right keys to left values.  Both are
functions of the bimap alone: they return no new state. -/
theorem at_returns_paired_or_throws {b : bimap L R} (hb : WellFormed b) {n : Nat}
    (hn : b.size_ < n) {ps : List (L × R)} (hps : pairs_left n b = .ok ps) :
    (∀ k : L,
      (∀ p ∈ ps, equivalent b.cmp_left p.1 k → at_left n b k = .ok p.2) ∧
      ((∀ p ∈ ps, ¬ equivalent b.cmp_left p.1 k) → at_left n b k = .error .out_of_range)) ∧
    (∀ k : R,
      (∀ p ∈ ps, equivalent b.cmp_right p.2 k → at_right n b k = .ok p.1) ∧
      ((∀ p ∈ ps, ¬ equivalent b.cmp_right p.2 k) → at_right n b k = .error .out_of_range)) := by
  obtain ⟨hl, hr, tl, tr, hinv⟩ := hb.inv
  have hps' := hinv.pairs_left_eq hn hps
  subst hps'
  constructor
  · intro k
    constructor
    · intro p hp heq
      obtain ⟨a, ha, rfl⟩ := List.mem_map.mp hp
      exact hinv.at_left_of_mem hl hn ha heq
    · intro habs
      have habs' : ∀ a ∈ tl.toList, ¬ equivalent b.cmp_left (b.lvalue a) k :=
        fun a ha => habs _ (List.mem_map.mpr ⟨a, ha, rfl⟩)
      have := hinv.find_left_absent hl hn habs'
      simp only [at_left, this, if_true]
  · intro k
    constructor
    · intro p hp heq
      obtain ⟨a, ha, rfl⟩ := List.mem_map.mp hp
      exact hinv.at_right_of_mem hr hn (hinv.perm.mem_iff.mp ha) heq
    · intro habs
      have habs' : ∀ a ∈ tr.toList, ¬ equivalent b.cmp_right (b.rvalue a) k :=
        fun a ha => habs _ (List.mem_map.mpr ⟨a, hinv.perm.mem_iff.mpr ha, rfl⟩)
      have := hinv.find_right_absent hr hn habs'
      simp only [at_right, this, if_true]

theorem at_returns_paired_or_throws_witness :
    (∀ k : Nat,
      (∀ p ∈ [(1, 5), (2, 0)], equivalent sample_two.cmp_left p.1 k →
        at_left 5 sample_two k = .ok p.2) ∧
      ((∀ p ∈ [(1, 5), (2, 0)], ¬ equivalent sample_two.cmp_left p.1 k) →
        at_left 5 sample_two k = .error .out_of_range)) ∧
    (∀ k : Nat,
      (∀ p ∈ [(1, 5), (2, 0)], equivalent sample_two.cmp_right p.2 k →
        at_right 5 sample_two k = .ok p.1) ∧
      ((∀ p ∈ [(1, 5), (2, 0)], ¬ equivalent sample_two.cmp_right p.2 k) →
        at_right 5 sample_two k = .error .out_of_range)) :=
  at_returns_paired_or_throws sample_two_wf (show sample_two.size_ < 5 by decide)
    (show pairs_left 5 sample_two = .ok [(1, 5), (2, 0)] from rfl)

/-- C5: on a well-formed bimap, `find_left(x)` returns the position whose left
value is equivalent to `x` when there is one and `end_left()` when there is none;
`find_right` likewise; and on an empty bimap `find_left(x)`, `end_left()` and
`begin_left()` coincide. -/
theorem find_returns_position_or_end {b : bimap L R} (hb : WellFormed b) {n : Nat}
    (hn : b.size_ < n) {ps qs : List Nat} (hps : positions_left n b = .ok ps)
    (hqs : positions_right n b = .ok qs) :
    (∀ x : L,
      (∀ a ∈ ps, ∀ v, deref_left b (some a) = .ok v → equivalent b.cmp_left v x →
        find_left n b x = .ok (some a)) ∧
      ((∀ a ∈ ps, ∀ v, deref_left b (some a) = .ok v → ¬ equivalent b.cmp_left v x) →
        find_left n b x = .ok b.end_left)) ∧
    (∀ x : R,
      (∀ a ∈ qs, ∀ v, deref_right b (some a) = .ok v → equivalent b.cmp_right v x →
        find_right n b x = .ok (some a)) ∧
      ((∀ a ∈ qs, ∀ v, deref_right b (some a) = .ok v → ¬ equivalent b.cmp_right v x) →
        find_right n b x = .ok b.end_right)) ∧
    (∀ (cl : L → L → Bool) (cr : R → R → Bool) (lv : Nat → L) (rv : Nat → R) (x : L)
        (m : Nat), 0 < m →
      find_left m (bimap.empty cl cr lv rv) x = .ok (bimap.empty cl cr lv rv).end_left ∧
      begin_left m (bimap.empty cl cr lv rv) = .ok (bimap.empty cl cr lv rv).end_left) := by
  obtain ⟨hl, hr, tl, tr, hinv⟩ := hb.inv
  have hps' := hinv.positions_left_eq hn hps
  have hqs' := hinv.positions_right_eq hn hqs
  subst hps' hqs'
  refine ⟨?_, ?_, ?_⟩
  · intro x
    constructor
    · intro a ha v hv heq
      simp only [deref_left, Except.ok.injEq] at hv
      subst hv
      exact hinv.find_left_of_mem hl hn ha heq
    · intro habs
      exact hinv.find_left_absent hl hn (fun a ha => habs a ha _ rfl)
  · intro x
    constructor
    · intro a ha v hv heq
      simp only [deref_right, Except.ok.injEq] at hv
      subst hv
      exact hinv.find_right_of_mem hr hn ha heq
    · intro habs
      exact hinv.find_right_absent hr hn (fun a ha => habs a ha _ rfl)
  · intro cl cr lv rv x m hm
    cases m with
    | zero => omega
    | succ m =>
      constructor
      · simp [find_left, intrusive_tree.find, intrusive_tree.lower_bound,
          intrusive_tree.lower_bound_loop, bimap.empty, Heap.set_right, Heap.set,
          base_node.null, end_left]
      · simp [begin_left, intrusive_tree.begin, bimap.empty, Heap.set_right, Heap.set,
          base_node.null, end_left]

theorem find_returns_position_or_end_witness :
    (∀ x : Nat,
      (∀ a ∈ [3, 2], ∀ v, deref_left sample_two (some a) = .ok v →
        equivalent sample_two.cmp_left v x → find_left 5 sample_two x = .ok (some a)) ∧
      ((∀ a ∈ [3, 2], ∀ v, deref_left sample_two (some a) = .ok v →
        ¬ equivalent sample_two.cmp_left v x) →
        find_left 5 sample_two x = .ok sample_two.end_left)) ∧
    (∀ x : Nat,
      (∀ a ∈ [2, 3], ∀ v, deref_right sample_two (some a) = .ok v →
        equivalent sample_two.cmp_right v x → find_right 5 sample_two x = .ok (some a)) ∧
      ((∀ a ∈ [2, 3], ∀ v, deref_right sample_two (some a) = .ok v →
        ¬ equivalent sample_two.cmp_right v x) →
        find_right 5 sample_two x = .ok sample_two.end_right)) ∧
    (∀ (cl : Nat → Nat → Bool) (cr : Nat → Nat → Bool) (lv : Nat → Nat) (rv : Nat → Nat)
        (x : Nat) (m : Nat), 0 < m →
      find_left m (bimap.empty cl cr lv rv) x = .ok (bimap.empty cl cr lv rv).end_left ∧
      begin_left m (bimap.empty cl cr lv rv) = .ok (bimap.empty cl cr lv rv).end_left) :=
  find_returns_position_or_end sample_two_wf (show sample_two.size_ < 5 by decide)
    (show positions_left 5 sample_two = .ok [3, 2] from rfl)
    (show positions_right 5 sample_two = .ok [2, 3] from rfl)

end bimap

/-! ### The repurposing path of `at_left_or_default` -/

theorem sample_stale_next (m : Nat) :
    intrusive_tree.next m sample_stale.lmem (some 3) = .ok (some 3) ∨
      intrusive_tree.next m sample_stale.lmem (some 3) = .error .timeout := by
  have h3 : sample_stale.lmem 3 = ⟨some 0, none, some 2⟩ := rfl
  have h2 : sample_stale.lmem 2 = ⟨some 3, some 3, none⟩ := rfl
  cases m with
  | zero => right; simp [intrusive_tree.next, intrusive_tree.descend_left, h3]
  | succ m =>
    cases m with
    | zero => right; simp [intrusive_tree.next, intrusive_tree.descend_left, h3, h2]
    | succ m => left; simp [intrusive_tree.next, intrusive_tree.descend_left, h3, h2]

theorem sample_stale_walk (m k : Nat) :
    bimap.walk m sample_stale.lmem bimap.left_fake k (some 3) = .error .timeout := by
  induction k with
  | zero => rfl
  | succ k ih =>
    simp only [bimap.left_fake] at ih
    rcases sample_stale_next m with h | h
    · simp [bimap.walk, bimap.left_fake, h, ih]
    · simp [bimap.walk, bimap.left_fake, h]

namespace bimap

variable {L R : Type}

/-- C6 (the code departs from the claim): after `insert(2, 0)` and `insert(1, 5)`
the left node of `(2, 0)` has a left child.  `at_left_or_default(3)` with default
right value `0` returns `0`, but it re-inserts that node with its old child link
still set: the node of `(1, 5)` becomes its own successor, and the left-order
traversal never reaches `end_left()`, whatever the fuel.  When the node is a leaf,
as after `insert(1, 5)` and `insert(2, 0)`, the same call leaves the pairs
`(1, 5)` and `(3, 0)`. -/
theorem at_left_or_default_stale_child :
    WellFormed sample_two ∧
    pairs_left 5 sample_two = .ok [(1, 5), (2, 0)] ∧
    at_left_or_default 5 sample_two 0 3 = .ok (sample_stale, 0) ∧
    incr_left 5 sample_stale (some 3) = .ok (some 3) ∧
    (∀ m, pairs_left m sample_stale = .error .timeout) ∧
    pairs_left 5 sample_leaf = .ok [(1, 5), (2, 0)] ∧
    at_left_or_default 5 sample_leaf 0 3 = .ok (sample_repurposed, 0) ∧
    pairs_left 5 sample_repurposed = .ok [(1, 5), (3, 0)] ∧
    pairs_right 5 sample_repurposed = .ok [(3, 0), (1, 5)] ∧
    sample_repurposed.size_ = 2 := by
  refine ⟨sample_two_wf, rfl, rfl, rfl, ?_, rfl, rfl, rfl, rfl, rfl⟩
  intro m
  have h0 : sample_stale.lmem 0 = ⟨none, some 3, some 1⟩ := rfl
  have h3 : sample_stale.lmem 3 = ⟨some 0, none, some 2⟩ := rfl
  cases m with
  | zero =>
    simp [pairs_left, positions_left, begin_left, intrusive_tree.begin,
      intrusive_tree.descend_left, left_fake, h0]
  | succ m =>
    have hw := sample_stale_walk (m + 1) (m + 1)
    simp only [left_fake] at hw
    simp [pairs_left, positions_left, begin_left, intrusive_tree.begin,
      intrusive_tree.descend_left, left_fake, h0, h3, hw]

/-- C7: on a well-formed bimap, `at_left_or_default(k)` returns the right value
paired with `k` and changes nothing when `k` is present; when `k` is absent and the
default right value `d` is absent too it succeeds, returns `d`, and the bimap then
holds the old pairs plus `(k, d)`, one more than before.  `at_right_or_default`
does the same with the sides exchanged. -/
theorem at_or_default_finds_or_inserts {b : bimap L R} (hb : WellFormed b) {n : Nat}
    (hn : b.size_ < n) {ps : List (L × R)} (hps : pairs_left n b = .ok ps) :
    (∀ (d : R) (k : L),
      (∀ p ∈ ps, equivalent b.cmp_left p.1 k → at_left_or_default n b d k = .ok (b, p.2)) ∧
      ((∀ p ∈ ps, ¬ equivalent b.cmp_left p.1 k) → (∀ p ∈ ps, ¬ equivalent b.cmp_right p.2 d) →
        ∃ b', at_left_or_default n b d k = .ok (b', d) ∧ b'.size_ = b.size_ + 1 ∧
          ∀ m, b'.size_ < m →
            (∃ ps', pairs_left m b' = .ok ps' ∧ ps'.Perm ((k, d) :: ps)) ∧
            (∃ qs', pairs_right m b' = .ok qs' ∧ qs'.Perm ((k, d) :: ps)))) ∧
    (∀ (d : L) (k : R),
      (∀ p ∈ ps, equivalent b.cmp_right p.2 k → at_right_or_default n b d k = .ok (b, p.1)) ∧
      ((∀ p ∈ ps, ¬ equivalent b.cmp_right p.2 k) → (∀ p ∈ ps, ¬ equivalent b.cmp_left p.1 d) →
        ∃ b', at_right_or_default n b d k = .ok (b', d) ∧ b'.size_ = b.size_ + 1 ∧
          ∀ m, b'.size_ < m →
            (∃ ps', pairs_left m b' = .ok ps' ∧ ps'.Perm ((d, k) :: ps)) ∧
            (∃ qs', pairs_right m b' = .ok qs' ∧ qs'.Perm ((d, k) :: ps)))) := by
  obtain ⟨hl, hr, tl, tr, hinv⟩ := hb.inv
  have hps' := hinv.pairs_left_eq hn hps
  subst hps'
  constructor
  · intro d k
    constructor
    · intro p hp heq
      obtain ⟨a, ha, rfl⟩ := List.mem_map.mp hp
      simp only [at_left_or_default, hinv.find_left_of_mem hl hn ha heq, ne_eq,
        hinv.ne_end_left ha, not_false_eq_true, if_true, hinv.flip_left ha, deref_right]
    · intro habs_l habs_r
      have hal : ∀ a ∈ tl.toList, ¬ equivalent b.cmp_left (b.lvalue a) k :=
        fun a ha => habs_l _ (List.mem_map.mpr ⟨a, ha, rfl⟩)
      have har : ∀ a ∈ tr.toList, ¬ equivalent b.cmp_right (b.rvalue a) d :=
        fun a ha => habs_r _ (List.mem_map.mpr ⟨a, hinv.perm.mem_iff.mpr ha, rfl⟩)
      obtain ⟨b', e1, hsz, _, d2, f1, _, hrest⟩ := insert_fresh_spec hinv hl hr hn k d hal har
      refine ⟨b', ?_, hsz, fun m hm => ⟨(hrest m hm).1, (hrest m hm).2.1⟩⟩
      simp only [at_left_or_default, hinv.find_left_absent hl hn hal, ne_eq, not_true_eq_false,
        if_false, hinv.find_right_absent hr hn har, e1, f1, d2]
  · intro d k
    constructor
    · intro p hp heq
      obtain ⟨a, ha, rfl⟩ := List.mem_map.mp hp
      have har := hinv.perm.mem_iff.mp ha
      simp only [at_right_or_default, hinv.find_right_of_mem hr hn har heq, ne_eq,
        hinv.ne_end_right har, not_false_eq_true, if_true, hinv.flip_right har, deref_left]
    · intro habs_r habs_l
      have hal : ∀ a ∈ tl.toList, ¬ equivalent b.cmp_left (b.lvalue a) d :=
        fun a ha => habs_l _ (List.mem_map.mpr ⟨a, ha, rfl⟩)
      have har : ∀ a ∈ tr.toList, ¬ equivalent b.cmp_right (b.rvalue a) k :=
        fun a ha => habs_r _ (List.mem_map.mpr ⟨a, hinv.perm.mem_iff.mpr ha, rfl⟩)
      obtain ⟨b', e1, hsz, d1, _, _, _, hrest⟩ := insert_fresh_spec hinv hl hr hn d k hal har
      refine ⟨b', ?_, hsz, fun m hm => ⟨(hrest m hm).1, (hrest m hm).2.1⟩⟩
      simp only [at_right_or_default, hinv.find_right_absent hr hn har, ne_eq,
        not_true_eq_false, if_false, hinv.find_left_absent hl hn hal, e1, d1]

theorem at_or_default_finds_or_inserts_witness :
    (∀ (d : Nat) (k : Nat),
      (∀ p ∈ [(1, 5), (2, 0)], equivalent sample_two.cmp_left p.1 k →
        at_left_or_default 5 sample_two d k = .ok (sample_two, p.2)) ∧
      ((∀ p ∈ [(1, 5), (2, 0)], ¬ equivalent sample_two.cmp_left p.1 k) →
        (∀ p ∈ [(1, 5), (2, 0)], ¬ equivalent sample_two.cmp_right p.2 d) →
        ∃ b', at_left_or_default 5 sample_two d k = .ok (b', d) ∧
          b'.size_ = sample_two.size_ + 1 ∧
          ∀ m, b'.size_ < m →
            (∃ ps', pairs_left m b' = .ok ps' ∧ ps'.Perm ((k, d) :: [(1, 5), (2, 0)])) ∧
            (∃ qs', pairs_right m b' = .ok qs' ∧ qs'.Perm ((k, d) :: [(1, 5), (2, 0)])))) ∧
    (∀ (d : Nat) (k : Nat),
      (∀ p ∈ [(1, 5), (2, 0)], equivalent sample_two.cmp_right p.2 k →
        at_right_or_default 5 sample_two d k = .ok (sample_two, p.1)) ∧
      ((∀ p ∈ [(1, 5), (2, 0)], ¬ equivalent sample_two.cmp_right p.2 k) →
        (∀ p ∈ [(1, 5), (2, 0)], ¬ equivalent sample_two.cmp_left p.1 d) →
        ∃ b', at_right_or_default 5 sample_two d k = .ok (b', d) ∧
          b'.size_ = sample_two.size_ + 1 ∧
          ∀ m, b'.size_ < m →
            (∃ ps', pairs_left m b' = .ok ps' ∧ ps'.Perm ((d, k) :: [(1, 5), (2, 0)])) ∧
            (∃ qs', pairs_right m b' = .ok qs' ∧ qs'.Perm ((d, k) :: [(1, 5), (2, 0)])))) :=
  at_or_default_finds_or_inserts sample_two_wf (show sample_two.size_ < 5 by decide)
    (show pairs_left 5 sample_two = .ok [(1, 5), (2, 0)] from rfl)

/-- C8: for every bimap built from an empty one by inserts and erases, the
traversal from `begin_left()` by `++` up to `end_left()` ends, whatever fuel above
the size it is given, and is strictly increasing under the left comparator; the
traversal of the right side is strictly increasing under the right comparator;
so no two entries have equivalent left values or equivalent right values. -/
theorem traversals_strictly_increasing {b : bimap L R} (hb : WellFormed b) :
    ∃ ps qs, (∀ n, b.size_ < n → pairs_left n b = .ok ps ∧ pairs_right n b = .ok qs) ∧
      ps.Pairwise (fun p q => b.cmp_left p.1 q.1 = true) ∧
      qs.Pairwise (fun p q => b.cmp_right p.2 q.2 = true) ∧
      ps.Pairwise (fun p q =>
        ¬ equivalent b.cmp_left p.1 q.1 ∧ ¬ equivalent b.cmp_right p.2 q.2) := by
  obtain ⟨hl, hr, tl, tr, hinv⟩ := hb.inv
  refine ⟨_, _, fun n hn => ⟨hinv.pairs_left hn, hinv.pairs_right hn⟩, ?_, ?_, ?_⟩
  · rw [List.pairwise_map]
    exact hinv.left.sorted
  · rw [List.pairwise_map]
    exact hinv.right.sorted
  · rw [List.pairwise_map]
    have h1 : tl.toList.Pairwise (fun a c => ¬ equivalent b.cmp_left (b.lvalue a) (b.lvalue c)) :=
      hinv.left.sorted.imp (fun {a c} h hc => by rw [hc.1] at h; exact absurd h (by simp))
    have h2 : tr.toList.Pairwise
        (fun a c => ¬ equivalent b.cmp_right (b.rvalue a) (b.rvalue c)) :=
      hinv.right.sorted.imp (fun {a c} h hc => by rw [hc.1] at h; exact absurd h (by simp))
    have h3 := (hinv.perm.pairwise_iff (fun {a c} h hc => h ⟨hc.2, hc.1⟩)).mpr h2
    exact h1.and h3

theorem traversals_strictly_increasing_witness :
    ∃ ps qs, (∀ n, sample_two.size_ < n →
        pairs_left n sample_two = .ok ps ∧ pairs_right n sample_two = .ok qs) ∧
      ps.Pairwise (fun p q => sample_two.cmp_left p.1 q.1 = true) ∧
      qs.Pairwise (fun p q => sample_two.cmp_right p.2 q.2 = true) ∧
      ps.Pairwise (fun p q =>
        ¬ equivalent sample_two.cmp_left p.1 q.1 ∧ ¬ equivalent sample_two.cmp_right p.2 q.2) :=
  traversals_strictly_increasing sample_two_wf

/-- C9: for every bimap built from an empty one by inserts and by erases of keys,
positions and ranges on either side, the left-order traversal and the right-order
traversal reach the same entries, without repetition, and `size()` is their
number; the pairs read along the two traversals are the same as well. -/
theorem traversals_reach_same_entries {b : bimap L R} (hb : WellFormed b) :
    ∃ ps qs : List Nat,
      (∀ n, b.size_ < n → positions_left n b = .ok ps ∧ positions_right n b = .ok qs) ∧
      ps.Perm qs ∧ ps.Nodup ∧ qs.Nodup ∧ ps.length = b.size_ ∧ qs.length = b.size_ ∧
      ∃ pps pqs : List (L × R),
        (∀ n, b.size_ < n → pairs_left n b = .ok pps ∧ pairs_right n b = .ok pqs) ∧
        pps.Perm pqs ∧ pps.length = b.size_ ∧ pqs.length = b.size_ := by
  obtain ⟨_, _, tl, tr, hinv⟩ := hb.inv
  refine ⟨tl.toList, tr.toList,
    fun n hn => ⟨hinv.positions_left hn, hinv.positions_right hn⟩, hinv.perm,
    hinv.nodup_left, hinv.nodup_right, hinv.size.symm, hinv.size_right.symm, _, _,
    fun n hn => ⟨hinv.pairs_left hn, hinv.pairs_right hn⟩, hinv.pairs_perm, ?_, ?_⟩
  · rw [List.length_map]; exact hinv.size.symm
  · rw [List.length_map]; exact hinv.size_right.symm

theorem traversals_reach_same_entries_witness :
    ∃ ps qs : List Nat,
      (∀ n, sample_two.size_ < n →
        positions_left n sample_two = .ok ps ∧ positions_right n sample_two = .ok qs) ∧
      ps.Perm qs ∧ ps.Nodup ∧ qs.Nodup ∧
      ps.length = sample_two.size_ ∧ qs.length = sample_two.size_ ∧
      ∃ pps pqs : List (Nat × Nat),
        (∀ n, sample_two.size_ < n →
          pairs_left n sample_two = .ok pps ∧ pairs_right n sample_two = .ok pqs) ∧
        pps.Perm pqs ∧ pps.length = sample_two.size_ ∧ pqs.length = sample_two.size_ :=
  traversals_reach_same_entries sample_two_wf

/-- C10: on a well-formed bimap, `erase_left(p)` at a live left position `p`
returns the position that follows `p` in left order before the erase (the
sentinel position `end_left()` when `p` is the last), which is what `++p` gives
there; afterwards exactly the entry of `p` is gone from both traversals, and every
position that remains, the returned one included, reads the same pair as before.
`erase_right(p)` does the same with the right order. -/
theorem erase_position_returns_successor {b : bimap L R} (hb : WellFormed b) {n : Nat}
    (hn : b.size_ < n) {ps qs : List Nat} (hps : positions_left n b = .ok ps)
    (hqs : positions_right n b = .ok qs) :
    (∀ pre a post, ps = pre ++ a :: post →
      ∃ b', erase_left_it n b (some a) = .ok (b', some (post.head?.getD left_fake)) ∧
        incr_left n b (some a) = .ok (some (post.head?.getD left_fake)) ∧
        (post = [] → some (post.head?.getD left_fake) = b'.end_left) ∧
        b'.size_ + 1 = b.size_ ∧
        (∀ m, b'.size_ < m →
          positions_left m b' = .ok (pre ++ post) ∧ positions_right m b' = .ok (qs.erase a)) ∧
        (∀ c ∈ pre ++ post,
          pair_at_left b' c = pair_at_left b c ∧ pair_at_right b' c = pair_at_right b c)) ∧
    (∀ pre a post, qs = pre ++ a :: post →
      ∃ b', erase_right_it n b (some a) = .ok (b', some (post.head?.getD right_fake)) ∧
        incr_right n b (some a) = .ok (some (post.head?.getD right_fake)) ∧
        (post = [] → some (post.head?.getD right_fake) = b'.end_right) ∧
        b'.size_ + 1 = b.size_ ∧
        (∀ m, b'.size_ < m →
          positions_right m b' = .ok (pre ++ post) ∧ positions_left m b' = .ok (ps.erase a)) ∧
        (∀ c ∈ pre ++ post,
          pair_at_left b' c = pair_at_left b c ∧ pair_at_right b' c = pair_at_right b c)) := by
  obtain ⟨hl, hr, tl, tr, hinv⟩ := hb.inv
  have hps' := hinv.positions_left_eq hn hps
  have hqs' := hinv.positions_right_eq hn hqs
  subst hps' hqs'
  constructor
  · intro pre a post hsplit
    have ha : a ∈ tl.toList := by rw [hsplit]; simp
    have hapre : a ∉ pre := by
      have hnd := hinv.nodup_left
      rw [hsplit] at hnd
      intro hc
      exact (List.nodup_append.mp hnd).2.2 hc (List.mem_cons_self _ _)
    have hnext : nextIn tl.toList a = post.head? := by
      rw [hsplit, nextIn_append_of_not_mem _ hapre, nextIn_head]
    obtain ⟨b', e1, e2⟩ := hinv.erase_left_it hn ha
    obtain ⟨b'', f1, hsz, g1, _, _, g2⟩ := erase_entry_spec hinv hl hr hn ha
    rw [e2] at f1
    have := Except.ok.inj f1
    subst this
    have hmid := erase_middle hinv.nodup_left hsplit
    rw [hnext] at e1
    refine ⟨b', e1, ?_, ?_, hsz, ?_, ?_⟩
    · rw [← hnext]; exact hinv.incr_left hn ha
    · intro hpost; subst hpost; rfl
    · intro m hm
      obtain ⟨_, h2, _, h4⟩ := g1 m hm
      exact ⟨by rw [h2, hmid], h4⟩
    · intro c hc
      have hc' : c ∈ tl.toList.erase a := by rw [hmid]; exact hc
      exact g2 c (fun h => (List.Nodup.mem_erase_iff hinv.nodup_left).mp hc' |>.1 h)
        (List.mem_of_mem_erase hc')
  · intro pre a post hsplit
    have har : a ∈ tr.toList := by rw [hsplit]; simp
    have ha : a ∈ tl.toList := hinv.perm.mem_iff.mpr har
    have hapre : a ∉ pre := by
      have hnd := hinv.nodup_right
      rw [hsplit] at hnd
      intro hc
      exact (List.nodup_append.mp hnd).2.2 hc (List.mem_cons_self _ _)
    have hnext : nextIn tr.toList a = post.head? := by
      rw [hsplit, nextIn_append_of_not_mem _ hapre, nextIn_head]
    obtain ⟨b', e1, e2⟩ := hinv.erase_right_it hn har
    obtain ⟨b'', f1, hsz, g1, _, _, g2⟩ := erase_entry_spec hinv hl hr hn ha
    rw [e2] at f1
    have := Except.ok.inj f1
    subst this
    have hmid := erase_middle hinv.nodup_right hsplit
    rw [hnext] at e1
    refine ⟨b', e1, ?_, ?_, hsz, ?_, ?_⟩
    · rw [← hnext]; exact hinv.incr_right hn har
    · intro hpost; subst hpost; rfl
    · intro m hm
      obtain ⟨_, h2, _, h4⟩ := g1 m hm
      exact ⟨by rw [h4, hmid], h2⟩
    · intro c hc
      have hc' : c ∈ tr.toList.erase a := by rw [hmid]; exact hc
      exact g2 c (fun h => (List.Nodup.mem_erase_iff hinv.nodup_right).mp hc' |>.1 h)
        (hinv.perm.mem_iff.mpr (List.mem_of_mem_erase hc'))

theorem erase_position_returns_successor_witness :
    (∀ pre a post, [3, 2] = pre ++ a :: post →
      ∃ b', erase_left_it 5 sample_two (some a) = .ok (b', some (post.head?.getD left_fake)) ∧
        incr_left 5 sample_two (some a) = .ok (some (post.head?.getD left_fake)) ∧
        (post = [] → some (post.head?.getD left_fake) = b'.end_left) ∧
        b'.size_ + 1 = sample_two.size_ ∧
        (∀ m, b'.size_ < m →
          positions_left m b' = .ok (pre ++ post) ∧
          positions_right m b' = .ok ([2, 3].erase a)) ∧
        (∀ c ∈ pre ++ post,
          pair_at_left b' c = pair_at_left sample_two c ∧
          pair_at_right b' c = pair_at_right sample_two c)) ∧
    (∀ pre a post, [2, 3] = pre ++ a :: post →
      ∃ b', erase_right_it 5 sample_two (some a)
          = .ok (b', some (post.head?.getD right_fake)) ∧
        incr_right 5 sample_two (some a) = .ok (some (post.head?.getD right_fake)) ∧
        (post = [] → some (post.head?.getD right_fake) = b'.end_right) ∧
        b'.size_ + 1 = sample_two.size_ ∧
        (∀ m, b'.size_ < m →
          positions_right m b' = .ok (pre ++ post) ∧
          positions_left m b' = .ok ([3, 2].erase a)) ∧
        (∀ c ∈ pre ++ post,
          pair_at_left b' c = pair_at_left sample_two c ∧
          pair_at_right b' c = pair_at_right sample_two c)) :=
  erase_position_returns_successor sample_two_wf (show sample_two.size_ < 5 by decide)
    (show positions_left 5 sample_two = .ok [3, 2] from rfl)
    (show positions_right 5 sample_two = .ok [2, 3] from rfl)

end bimap
namespace intrusive_details

namespace intrusive_tree

theorem StrictWeakOrder.asymm {T : Type} {lt : T → T → Bool} (hlt : StrictWeakOrder lt)
    {a b : T} (hab : lt a b = true) : lt b a = false := by
  cases hba : lt b a with
  | false => rfl
  | true =>
    have := hlt.trans a b a hab hba
    rw [hlt.irrefl a] at this
    exact absurd this (by decide)

theorem nextIn_split {pre post : List Nat} {a : Nat} (ha : a ∉ pre) :
    nextIn (pre ++ a :: post) a = post.head? := by
  rw [nextIn_append_of_not_mem _ ha, nextIn_head]

theorem upper_bound_spec {T : Type} {lt : T → T → Bool} (hlt : StrictWeakOrder lt)
    {value : Nat → T} {h : Heap} {f : Nat} {t : NodeTree} (hinv : TreeInv lt value h f t)
    (hfr : ∀ a ∈ t.toList, (h f).right ≠ some a)
    (x : T) {n : Nat} (hn : t.toList.length < n) :
    upper_bound n lt f value h x
      = .ok ((t.toList.find? (fun c => lt x (value c))).getD f) := by
  have hlb := lower_bound_spec hlt hinv x hn
  have hndt : t.toList.Nodup := (List.nodup_cons.mp hinv.nodup).2
  have hnf : f ∉ t.toList := (List.nodup_cons.mp hinv.nodup).1
  unfold upper_bound
  rw [hlb]
  cases hfind : t.toList.find? (fun c => !lt (value c) x) with
  | none =>
    have hall : ∀ c ∈ t.toList, lt (value c) x = true := by
      intro c hc
      have := List.find?_eq_none.mp hfind c hc
      simpa using this
    have hnone : t.toList.find? (fun c => lt x (value c)) = none := by
      rw [List.find?_eq_none]
      intro c hc
      have := StrictWeakOrder.asymm hlt (hall c hc)
      simp [this]
    simp [hnone, next_fake hinv n]
  | some b =>
    obtain ⟨hpb, pre, post, hsplit, hpre⟩ := List.find?_eq_some.mp hfind
    have hbmem : b ∈ t.toList := by rw [hsplit]; simp
    have hbf : b ≠ f := fun e => hnf (e ▸ hbmem)
    have hpre2 : ∀ c ∈ pre, lt x (value c) = false := by
      intro c hc
      have := hpre c hc
      simp only [Bool.not_not] at this
      exact StrictWeakOrder.asymm hlt this
    have hprenone : pre.find? (fun c => lt x (value c)) = none := by
      rw [List.find?_eq_none]
      intro c hc
      simp [hpre2 c hc]
    have hbx : lt (value b) x = false := by simpa using hpb
    simp only [Option.getD_some]
    cases hxb : lt x (value b) with
    | true =>
      have : t.toList.find? (fun c => lt x (value c)) = some b := by
        rw [hsplit, List.find?_append, hprenone]
        simp [hxb]
      simp [hbf, hxb, this]
    | false =>
      have hbpre : b ∉ pre := by
        intro hbp
        rw [hsplit] at hndt
        have := List.disjoint_of_nodup_append hndt hbp
        exact this (List.mem_cons_self _ _)
      have hnext := next_spec hinv hfr hbmem hn
      have hni : nextIn t.toList b = post.head? := by
        rw [hsplit]; exact nextIn_split hbpre
      have hsorted := hinv.sorted
      rw [hsplit] at hsorted
      have hpost : ∀ c ∈ post, lt x (value c) = true := by
        intro c hc
        have hbc : lt (value b) (value c) = true :=
          List.rel_of_pairwise_cons ((List.pairwise_append.mp hsorted).2.1) hc
        cases hxc : lt x (value c) with
        | true => rfl
        | false =>
          have := hlt.incomp _ _ _ hbx hxc
          rw [hbc] at this
          exact absurd this (by decide)
      have hfinal : t.toList.find? (fun c => lt x (value c)) = post.head? := by
        rw [hsplit, List.find?_append, hprenone]
        cases post with
        | nil => simp [hxb]
        | cons c rest =>
          simp [hxb, hpost c (List.mem_cons_self _ _)]
      rw [hnext, hni, hfinal]
      simp [hxb]

end intrusive_tree

end intrusive_details

namespace bimap

variable {L R : Type}

theorem Inv.upper_bound_left {b : bimap L R} {tl tr : NodeTree} (hinv : Inv b tl tr)
    (hl : StrictWeakOrder b.cmp_left) {n : Nat} (hn : b.size_ < n) (x : L) :
    bimap.upper_bound_left n b x
      = .ok (some ((tl.toList.find? (fun c => b.cmp_left x (b.lvalue c))).getD left_fake)) := by
  have hlen : tl.toList.length < n := by rw [← hinv.size]; exact hn
  simp [bimap.upper_bound_left,
    intrusive_tree.upper_bound_spec hl hinv.left hinv.left_cross x hlen]

theorem Inv.upper_bound_right {b : bimap L R} {tl tr : NodeTree} (hinv : Inv b tl tr)
    (hr : StrictWeakOrder b.cmp_right) {n : Nat} (hn : b.size_ < n) (y : R) :
    bimap.upper_bound_right n b y
      = .ok (some ((tr.toList.find? (fun c => b.cmp_right y (b.rvalue c))).getD right_fake)) := by
  have hlen : tr.toList.length < n := by rw [← hinv.size_right]; exact hn
  simp [bimap.upper_bound_right,
    intrusive_tree.upper_bound_spec hr hinv.right hinv.right_cross y hlen]

theorem Inv.lower_bound_left {b : bimap L R} {tl tr : NodeTree} (hinv : Inv b tl tr)
    (hl : StrictWeakOrder b.cmp_left) {n : Nat} (hn : b.size_ < n) (x : L) :
    bimap.lower_bound_left n b x
      = .ok (some ((tl.toList.find? (fun c => !b.cmp_left (b.lvalue c) x)).getD left_fake)) := by
  have hlen : tl.toList.length < n := by rw [← hinv.size]; exact hn
  simp [bimap.lower_bound_left, intrusive_tree.lower_bound_spec hl hinv.left x hlen]

theorem Inv.lower_bound_right {b : bimap L R} {tl tr : NodeTree} (hinv : Inv b tl tr)
    (hr : StrictWeakOrder b.cmp_right) {n : Nat} (hn : b.size_ < n) (y : R) :
    bimap.lower_bound_right n b y
      = .ok (some ((tr.toList.find? (fun c => !b.cmp_right (b.rvalue c) y)).getD right_fake)) := by
  have hlen : tr.toList.length < n := by rw [← hinv.size_right]; exact hn
  simp [bimap.lower_bound_right, intrusive_tree.lower_bound_spec hr hinv.right y hlen]

/-- C12: on a well-formed bimap whose left positions in left order are `ps`,
`lower_bound_left(x)` returns the first position of `ps` whose left value is not
less than `x`, and `upper_bound_left(x)` the first position of `ps` whose left
value is strictly greater than `x`; each returns `end_left()` (the position of the
left sentinel) when `ps` has no such position. `lower_bound_right` and
`upper_bound_right` do the same over the right positions in right order. -/
theorem bounds_return_first_not_less_and_first_greater {b : bimap L R} (hb : WellFormed b)
    {n : Nat} (hn : b.size_ < n) {ps qs : List Nat} (hps : positions_left n b = .ok ps)
    (hqs : positions_right n b = .ok qs) :
    (∀ x : L,
      lower_bound_left n b x
        = .ok (match ps.find? (fun c => !b.cmp_left (b.lvalue c) x) with
               | some c => some c
               | none => b.end_left) ∧
      upper_bound_left n b x
        = .ok (match ps.find? (fun c => b.cmp_left x (b.lvalue c)) with
               | some c => some c
               | none => b.end_left)) ∧
    (∀ y : R,
      lower_bound_right n b y
        = .ok (match qs.find? (fun c => !b.cmp_right (b.rvalue c) y) with
               | some c => some c
               | none => b.end_right) ∧
      upper_bound_right n b y
        = .ok (match qs.find? (fun c => b.cmp_right y (b.rvalue c)) with
               | some c => some c
               | none => b.end_right)) := by
  obtain ⟨hl, hr, tl, tr, hinv⟩ := hb.inv
  have hps' := hinv.positions_left_eq hn hps
  have hqs' := hinv.positions_right_eq hn hqs
  subst hps' hqs'
  refine ⟨fun x => ⟨?_, ?_⟩, fun y => ⟨?_, ?_⟩⟩
  · rw [hinv.lower_bound_left hl hn x]
    cases tl.toList.find? (fun c => !b.cmp_left (b.lvalue c) x) <;> rfl
  · rw [hinv.upper_bound_left hl hn x]
    cases tl.toList.find? (fun c => b.cmp_left x (b.lvalue c)) <;> rfl
  · rw [hinv.lower_bound_right hr hn y]
    cases tr.toList.find? (fun c => !b.cmp_right (b.rvalue c) y) <;> rfl
  · rw [hinv.upper_bound_right hr hn y]
    cases tr.toList.find? (fun c => b.cmp_right y (b.rvalue c)) <;> rfl

theorem bounds_return_first_not_less_and_first_greater_witness :
    (∀ x : Nat,
      lower_bound_left 5 sample_two x
        = .ok (match [3, 2].find? (fun c => !sample_two.cmp_left (sample_two.lvalue c) x) with
               | some c => some c
               | none => sample_two.end_left) ∧
      upper_bound_left 5 sample_two x
        = .ok (match [3, 2].find? (fun c => sample_two.cmp_left x (sample_two.lvalue c)) with
               | some c => some c
               | none => sample_two.end_left)) ∧
    (∀ y : Nat,
      lower_bound_right 5 sample_two y
        = .ok (match [2, 3].find? (fun c => !sample_two.cmp_right (sample_two.rvalue c) y) with
               | some c => some c
               | none => sample_two.end_right) ∧
      upper_bound_right 5 sample_two y
        = .ok (match [2, 3].find? (fun c => sample_two.cmp_right y (sample_two.rvalue c)) with
               | some c => some c
               | none => sample_two.end_right)) :=
  bounds_return_first_not_less_and_first_greater sample_two_wf
    (show sample_two.size_ < 5 by decide)
    (show positions_left 5 sample_two = .ok [3, 2] from rfl)
    (show positions_right 5 sample_two = .ok [2, 3] from rfl)

end bimap

namespace bimap

variable {L R : Type}

theorem Inv.begin_left {b : bimap L R} {tl tr : NodeTree} (hinv : Inv b tl tr)
    {n : Nat} (hn : b.size_ < n) :
    bimap.begin_left n b = .ok (some (tl.toList.head?.getD left_fake)) := by
  have hlen : tl.toList.length ≤ n := by rw [← hinv.size]; omega
  simp [bimap.begin_left, intrusive_tree.begin_spec hinv.left hlen]

theorem Inv.begin_right {b : bimap L R} {tl tr : NodeTree} (hinv : Inv b tl tr)
    {n : Nat} (hn : b.size_ < n) :
    bimap.begin_right n b = .ok (some (tr.toList.head?.getD right_fake)) := by
  have hlen : tr.toList.length ≤ n := by rw [← hinv.size_right]; omega
  simp [bimap.begin_right, intrusive_tree.begin_spec hinv.right hlen]

/-- C11: on a well-formed bimap whose left positions in left order are
`pre ++ mid ++ post`, `erase_left(first, last)` with `first` the position at the
head of `mid ++ post` and `last` the position at the head of `post` (`end_left()`
where the list is empty) returns `last`, lowers `size()` by the length of `mid`,
leaves `pre ++ post` as the left traversal and the old right traversal without
the positions of `mid` as the right traversal, and every remaining position reads
the same pair as before. In particular `erase_left(begin_left(), end_left())`
returns `end_left()` and leaves `size() == 0`, `begin_left() == end_left()` and
`begin_right() == end_right()`. `erase_right(first, last)` does the same over the
right order. -/
theorem erase_range_removes_exactly_the_range {b : bimap L R} (hb : WellFormed b)
    {n k : Nat} (hn : b.size_ < n) (hk : b.size_ < k) {ps qs : List Nat}
    (hps : positions_left n b = .ok ps) (hqs : positions_right n b = .ok qs) :
    (∀ pre mid post, ps = pre ++ (mid ++ post) →
      ∃ b', erase_left_range n k b (some ((mid ++ post).head?.getD left_fake))
            (some (post.head?.getD left_fake))
          = .ok (b', some (post.head?.getD left_fake)) ∧
        b'.size_ + mid.length = b.size_ ∧
        (∀ m, b'.size_ < m →
          positions_left m b' = .ok (pre ++ post) ∧
          positions_right m b' = .ok (qs.filter (fun c => decide (c ∉ mid)))) ∧
        (∀ c ∈ pre ++ post,
          pair_at_left b' c = pair_at_left b c ∧ pair_at_right b' c = pair_at_right b c)) ∧
    (∃ first b', begin_left n b = .ok first ∧
        erase_left_range n k b first b.end_left = .ok (b', b.end_left) ∧
        b'.size_ = 0 ∧
        ∀ m, 0 < m →
          begin_left m b' = .ok b'.end_left ∧ begin_right m b' = .ok b'.end_right ∧
          positions_left m b' = .ok [] ∧ positions_right m b' = .ok []) ∧
    (∀ pre mid post, qs = pre ++ (mid ++ post) →
      ∃ b', erase_right_range n k b (some ((mid ++ post).head?.getD right_fake))
            (some (post.head?.getD right_fake))
          = .ok (b', some (post.head?.getD right_fake)) ∧
        b'.size_ + mid.length = b.size_ ∧
        (∀ m, b'.size_ < m →
          positions_right m b' = .ok (pre ++ post) ∧
          positions_left m b' = .ok (ps.filter (fun c => decide (c ∉ mid)))) ∧
        (∀ c ∈ pre ++ post,
          pair_at_left b' c = pair_at_left b c ∧ pair_at_right b' c = pair_at_right b c)) ∧
    (∃ first b', begin_right n b = .ok first ∧
        erase_right_range n k b first b.end_right = .ok (b', b.end_right) ∧
        b'.size_ = 0 ∧
        ∀ m, 0 < m →
          begin_left m b' = .ok b'.end_left ∧ begin_right m b' = .ok b'.end_right ∧
          positions_left m b' = .ok [] ∧ positions_right m b' = .ok []) := by
  obtain ⟨hl, hr, tl, tr, hinv⟩ := hb.inv
  have hps' := hinv.positions_left_eq hn hps
  have hqs' := hinv.positions_right_eq hn hqs
  subst hps' hqs'
  have hempty : ∀ (b' : bimap L R) (tl' tr' : NodeTree), Inv b' tl' tr' → b'.size_ = 0 →
      ∀ m, 0 < m →
        begin_left m b' = .ok b'.end_left ∧ begin_right m b' = .ok b'.end_right ∧
        positions_left m b' = .ok [] ∧ positions_right m b' = .ok [] := by
    intro b' tl' tr' hinv' hz m hm
    have hm' : b'.size_ < m := by omega
    have e1 : tl'.toList = [] := List.length_eq_zero.mp (by rw [← hinv'.size]; exact hz)
    have e2 : tr'.toList = [] := List.length_eq_zero.mp (by rw [← hinv'.size_right]; exact hz)
    refine ⟨?_, ?_, ?_, ?_⟩
    · rw [hinv'.begin_left hm', e1]; rfl
    · rw [hinv'.begin_right hm', e2]; rfl
    · rw [hinv'.positions_left hm', e1]
    · rw [hinv'.positions_right hm', e2]
  refine ⟨?_, ?_, ?_, ?_⟩
  · intro pre mid post hsplit
    have hmid : mid.length < k := by
      have : tl.toList.length = b.size_ := hinv.size.symm
      rw [hsplit] at this
      simp only [List.length_append] at this
      omega
    obtain ⟨b', tl', tr', e, hinv', h1, h2, hsz, _, _, _, hlv, hrv⟩ :=
      Inv.erase_left_range mid k b tl tr pre post hinv hn hsplit hmid
    refine ⟨b', e, hsz, ?_, ?_⟩
    · intro m hm
      exact ⟨by rw [hinv'.positions_left hm, h1], by rw [hinv'.positions_right hm, h2]⟩
    · intro c hc
      have hc1 : c ∈ tl'.toList := by rw [h1]; exact hc
      have hc2 : c ∈ tl.toList := by
        rw [hsplit]
        rcases List.mem_append.mp hc with h | h
        · exact List.mem_append_left _ h
        · exact List.mem_append_right _ (List.mem_append_right _ h)
      rw [hinv'.pair_at_left hc1, hinv.pair_at_left hc2,
        hinv'.pair_at_right (hinv'.perm.mem_iff.mp hc1),
        hinv.pair_at_right (hinv.perm.mem_iff.mp hc2), hlv, hrv]
      exact ⟨rfl, rfl⟩
  · have hmid : tl.toList.length < k := by rw [← hinv.size]; exact hk
    obtain ⟨b', tl', tr', e, hinv', h1, _, hsz, _⟩ :=
      Inv.erase_left_range tl.toList k b tl tr [] [] hinv hn (by simp) hmid
    simp only [List.append_nil, List.head?_nil, Option.getD_none] at e
    have hz : b'.size_ = 0 := by
      have := hinv.size
      omega
    exact ⟨_, b', hinv.begin_left hn, e, hz, hempty b' tl' tr' hinv' hz⟩
  · intro pre mid post hsplit
    have hmid : mid.length < k := by
      have : tr.toList.length = b.size_ := hinv.size_right.symm
      rw [hsplit] at this
      simp only [List.length_append] at this
      omega
    obtain ⟨b', tl', tr', e, hinv', h1, h2, hsz, _, _, _, hlv, hrv⟩ :=
      Inv.erase_right_range mid k b tl tr pre post hinv hn hsplit hmid
    refine ⟨b', e, hsz, ?_, ?_⟩
    · intro m hm
      exact ⟨by rw [hinv'.positions_right hm, h1], by rw [hinv'.positions_left hm, h2]⟩
    · intro c hc
      have hc1 : c ∈ tr'.toList := by rw [h1]; exact hc
      have hc2 : c ∈ tr.toList := by
        rw [hsplit]
        rcases List.mem_append.mp hc with h | h
        · exact List.mem_append_left _ h
        · exact List.mem_append_right _ (List.mem_append_right _ h)
      rw [hinv'.pair_at_right hc1, hinv.pair_at_right hc2,
        hinv'.pair_at_left (hinv'.perm.mem_iff.mpr hc1),
        hinv.pair_at_left (hinv.perm.mem_iff.mpr hc2), hlv, hrv]
      exact ⟨rfl, rfl⟩
  · have hmid : tr.toList.length < k := by rw [← hinv.size_right]; exact hk
    obtain ⟨b', tl', tr', e, hinv', h1, _, hsz, _⟩ :=
      Inv.erase_right_range tr.toList k b tl tr [] [] hinv hn (by simp) hmid
    simp only [List.append_nil, List.head?_nil, Option.getD_none] at e
    have hz : b'.size_ = 0 := by
      have := hinv.size_right
      omega
    exact ⟨_, b', hinv.begin_right hn, e, hz, hempty b' tl' tr' hinv' hz⟩

theorem erase_range_removes_exactly_the_range_witness :
    (∀ pre mid post, [3, 2] = pre ++ (mid ++ post) →
      ∃ b', erase_left_range 5 5 sample_two (some ((mid ++ post).head?.getD left_fake))
            (some (post.head?.getD left_fake))
          = .ok (b', some (post.head?.getD left_fake)) ∧
        b'.size_ + mid.length = sample_two.size_ ∧
        (∀ m, b'.size_ < m →
          positions_left m b' = .ok (pre ++ post) ∧
          positions_right m b' = .ok ([2, 3].filter (fun c => decide (c ∉ mid)))) ∧
        (∀ c ∈ pre ++ post,
          pair_at_left b' c = pair_at_left sample_two c ∧
          pair_at_right b' c = pair_at_right sample_two c)) ∧
    (∃ first b', begin_left 5 sample_two = .ok first ∧
        erase_left_range 5 5 sample_two first sample_two.end_left
          = .ok (b', sample_two.end_left) ∧
        b'.size_ = 0 ∧
        ∀ m, 0 < m →
          begin_left m b' = .ok b'.end_left ∧ begin_right m b' = .ok b'.end_right ∧
          positions_left m b' = .ok [] ∧ positions_right m b' = .ok []) ∧
    (∀ pre mid post, [2, 3] = pre ++ (mid ++ post) →
      ∃ b', erase_right_range 5 5 sample_two (some ((mid ++ post).head?.getD right_fake))
            (some (post.head?.getD right_fake))
          = .ok (b', some (post.head?.getD right_fake)) ∧
        b'.size_ + mid.length = sample_two.size_ ∧
        (∀ m, b'.size_ < m →
          positions_right m b' = .ok (pre ++ post) ∧
          positions_left m b' = .ok ([3, 2].filter (fun c => decide (c ∉ mid)))) ∧
        (∀ c ∈ pre ++ post,
          pair_at_left b' c = pair_at_left sample_two c ∧
          pair_at_right b' c = pair_at_right sample_two c)) ∧
    (∃ first b', begin_right 5 sample_two = .ok first ∧
        erase_right_range 5 5 sample_two first sample_two.end_right
          = .ok (b', sample_two.end_right) ∧
        b'.size_ = 0 ∧
        ∀ m, 0 < m →
          begin_left m b' = .ok b'.end_left ∧ begin_right m b' = .ok b'.end_right ∧
          positions_left m b' = .ok [] ∧ positions_right m b' = .ok []) :=
  erase_range_removes_exactly_the_range sample_two_wf
    (show sample_two.size_ < 5 by decide) (show sample_two.size_ < 5 by decide)
    (show positions_left 5 sample_two = .ok [3, 2] from rfl)
    (show positions_right 5 sample_two = .ok [2, 3] from rfl)

end bimap

namespace bimap

variable {L R : Type}

/-- C14: on a well-formed bimap, for every live left position `p`, `p.flip()` is
a live right position `q` with `q.flip() == p`; `q` is the base of the same
`node_t` as `p` (the same address in the model), and the pair `(*p, *p.flip())`
read at `p` is the pair `(*q.flip(), *q)` read at `q`. The same holds from every
live right position. -/
theorem flip_twice_is_identity_on_live_positions {b : bimap L R} (hb : WellFormed b)
    {n : Nat} (hn : b.size_ < n) {ps qs : List Nat} (hps : positions_left n b = .ok ps)
    (hqs : positions_right n b = .ok qs) :
    (∀ p ∈ ps, ∃ q ∈ qs,
      flip_left b (some p) = .ok (some q) ∧ flip_right b (some q) = .ok (some p) ∧ q = p ∧
      ∃ l r, deref_left b (some p) = .ok l ∧ deref_right b (some q) = .ok r ∧
        pair_at_left b p = .ok (l, r) ∧ pair_at_right b q = .ok (l, r)) ∧
    (∀ q ∈ qs, ∃ p ∈ ps,
      flip_right b (some q) = .ok (some p) ∧ flip_left b (some p) = .ok (some q) ∧ p = q ∧
      ∃ l r, deref_left b (some p) = .ok l ∧ deref_right b (some q) = .ok r ∧
        pair_at_left b p = .ok (l, r) ∧ pair_at_right b q = .ok (l, r)) := by
  obtain ⟨_, _, tl, tr, hinv⟩ := hb.inv
  have hps' := hinv.positions_left_eq hn hps
  have hqs' := hinv.positions_right_eq hn hqs
  subst hps' hqs'
  constructor
  · intro p hp
    have hq : p ∈ tr.toList := hinv.perm.mem_iff.mp hp
    exact ⟨p, hq, hinv.flip_left hp, hinv.flip_right hq, rfl, b.lvalue p, b.rvalue p, rfl, rfl,
      hinv.pair_at_left hp, hinv.pair_at_right hq⟩
  · intro q hq
    have hp : q ∈ tl.toList := hinv.perm.mem_iff.mpr hq
    exact ⟨q, hp, hinv.flip_right hq, hinv.flip_left hp, rfl, b.lvalue q, b.rvalue q, rfl, rfl,
      hinv.pair_at_left hp, hinv.pair_at_right hq⟩

theorem flip_twice_is_identity_on_live_positions_witness :
    (∀ p ∈ [3, 2], ∃ q ∈ [2, 3],
      flip_left sample_two (some p) = .ok (some q) ∧
      flip_right sample_two (some q) = .ok (some p) ∧ q = p ∧
      ∃ l r, deref_left sample_two (some p) = .ok l ∧ deref_right sample_two (some q) = .ok r ∧
        pair_at_left sample_two p = .ok (l, r) ∧ pair_at_right sample_two q = .ok (l, r)) ∧
    (∀ q ∈ [2, 3], ∃ p ∈ [3, 2],
      flip_right sample_two (some q) = .ok (some p) ∧
      flip_left sample_two (some p) = .ok (some q) ∧ p = q ∧
      ∃ l r, deref_left sample_two (some p) = .ok l ∧ deref_right sample_two (some q) = .ok r ∧
        pair_at_left sample_two p = .ok (l, r) ∧ pair_at_right sample_two q = .ok (l, r)) :=
  flip_twice_is_identity_on_live_positions sample_two_wf
    (show sample_two.size_ < 5 by decide)
    (show positions_left 5 sample_two = .ok [3, 2] from rfl)
    (show positions_right 5 sample_two = .ok [2, 3] from rfl)

end bimap

namespace bimap

variable {L R : Type}

theorem eq_loop_spec {a b : bimap L R} {tla tra tlb trb : NodeTree} (ha : Inv a tla tra)
    (hb : Inv b tlb trb) {n : Nat} (hna : a.size_ < n) (hnb : b.size_ < n) :
    ∀ (resta restb prea preb : List Nat) (k : Nat),
      tla.toList = prea ++ resta → tlb.toList = preb ++ restb →
      resta.length = restb.length → resta.length < k →
      ∃ r, eq_loop n a b k (some (resta.head?.getD left_fake))
            (some (restb.head?.getD left_fake)) = .ok r ∧
        (r = true ↔ List.Forall₂ (fun x y =>
            equivalent a.cmp_left (a.lvalue x) (b.lvalue y) ∧
            equivalent a.cmp_right (a.rvalue x) (b.rvalue y)) resta restb) := by
  intro resta
  induction resta with
  | nil =>
    intro restb prea preb k _ _ hlen hk
    have : restb = [] := List.length_eq_zero.mp hlen.symm
    subst this
    cases k with
    | zero => omega
    | succ k =>
      refine ⟨true, ?_, by simp⟩
      simp [eq_loop, end_left]
  | cons x xs ih =>
    intro restb prea preb k hsa hsb hlen hk
    cases restb with
    | nil => simp at hlen
    | cons y ys =>
      cases k with
      | zero => omega
      | succ k =>
        have hxa : x ∈ tla.toList := by rw [hsa]; simp
        have hyb : y ∈ tlb.toList := by rw [hsb]; simp
        have hxpre : x ∉ prea := by
          have hnd := ha.nodup_left
          rw [hsa] at hnd
          intro hc
          exact (List.nodup_append.mp hnd).2.2 hc (List.mem_cons_self _ _)
        have hypre : y ∉ preb := by
          have hnd := hb.nodup_left
          rw [hsb] at hnd
          intro hc
          exact (List.nodup_append.mp hnd).2.2 hc (List.mem_cons_self _ _)
        have hia : incr_left n a (some x) = .ok (some (xs.head?.getD left_fake)) := by
          rw [ha.incr_left hna hxa, hsa, intrusive_tree.nextIn_split hxpre]
        have hib : incr_left n b (some y) = .ok (some (ys.head?.getD left_fake)) := by
          rw [hb.incr_left hnb hyb, hsb, intrusive_tree.nextIn_split hypre]
        have hne : (some x : Option Nat) ≠ a.end_left := ha.ne_end_left hxa
        obtain ⟨r, hr, hiff⟩ := ih ys (prea ++ [x]) (preb ++ [y]) k
          (by rw [hsa]; simp) (by rw [hsb]; simp) (by simpa using hlen)
          (by simp at hk; omega)
        simp only [List.head?_cons, Option.getD_some, eq_loop, hne, ne_eq, not_false_eq_true,
          if_true, deref_left, ha.flip_left hxa, hb.flip_left hyb, deref_right, hia, hib,
          List.forall₂_cons, equivalent]
        cases h1 : a.cmp_left (a.lvalue x) (b.lvalue y) <;>
        cases h2 : a.cmp_left (b.lvalue y) (a.lvalue x) <;>
        cases h3 : a.cmp_right (a.rvalue x) (b.rvalue y) <;>
        cases h4 : a.cmp_right (b.rvalue y) (a.rvalue x) <;>
        simp [hr, hiff, equivalent]

end bimap

theorem sample_leaf_wf : bimap.WellFormed sample_leaf :=
  bimap.WellFormed.insert
    (bimap.WellFormed.insert sample_empty_wf (show sample_empty.size_ < 5 by decide)
      (show bimap.insert 5 sample_empty 1 5
          = .ok (state_of (bimap.insert 5 sample_empty 1 5), some 2) from rfl))
    (show (state_of (bimap.insert 5 sample_empty 1 5)).size_ < 5 by decide)
    (show bimap.insert 5 (state_of (bimap.insert 5 sample_empty 1 5)) 2 0
        = .ok (sample_leaf, some 3) from rfl)

namespace bimap

variable {L R : Type}

theorem Inv.eq_spec {a b : bimap L R} {tla tra tlb trb : NodeTree} (ha : Inv a tla tra)
    (hb : Inv b tlb trb) {n : Nat} (hna : a.size_ < n) (hnb : b.size_ < n) :
    ∃ r, bimap.eq n a b = .ok r ∧
      (r = true ↔ List.Forall₂ (fun x y =>
          equivalent a.cmp_left (a.lvalue x) (b.lvalue y) ∧
          equivalent a.cmp_right (a.rvalue x) (b.rvalue y)) tla.toList tlb.toList) := by
  by_cases hsz : a.size_ = b.size_
  · have hlen : tla.toList.length = tlb.toList.length := by
      rw [← ha.size, ← hb.size]; exact hsz
    have hk : tla.toList.length < n := by rw [← ha.size]; exact hna
    obtain ⟨r, hr, hiff⟩ := eq_loop_spec ha hb hna hnb tla.toList tlb.toList [] [] n
      (by simp) (by simp) hlen hk
    refine ⟨r, ?_, hiff⟩
    simp [bimap.eq, hsz, ha.begin_left hna, hb.begin_left hnb, hr]
  · refine ⟨false, by simp [bimap.eq, hsz], ?_⟩
    constructor
    · intro h; exact absurd h (by decide)
    · intro h
      have := h.length_eq
      rw [← ha.size, ← hb.size] at this
      exact absurd this hsz

/-- C19: for well-formed bimaps `a` and `b` whose pairs in left order are `pa`
and `pb`, `a == b` returns `true` exactly when `a.size() == b.size()` and at
every index the two pairs have left values equivalent under the left comparator
and right values equivalent under the right comparator (the comparators being
those of `a`); `a != b` returns the negation. When `b` is ordered by the same
left comparator and `pb` is a rearrangement of `pa` (the same set of pairs,
however inserted), `a == b` returns `true`. -/
theorem eq_iff_same_size_and_equivalent_pairs {a b : bimap L R} (ha : WellFormed a)
    (hb : WellFormed b) {n : Nat} (hna : a.size_ < n) (hnb : b.size_ < n)
    {pa pb : List (L × R)} (hpa : pairs_left n a = .ok pa) (hpb : pairs_left n b = .ok pb) :
    ∃ r, eq n a b = .ok r ∧ ne n a b = .ok (!r) ∧
      (r = true ↔ a.size_ = b.size_ ∧
        ∀ i (h1 : i < pa.length) (h2 : i < pb.length),
          equivalent a.cmp_left (pa.get ⟨i, h1⟩).1 (pb.get ⟨i, h2⟩).1 ∧
          equivalent a.cmp_right (pa.get ⟨i, h1⟩).2 (pb.get ⟨i, h2⟩).2) ∧
      (b.cmp_left = a.cmp_left → pa.Perm pb → r = true) := by
  obtain ⟨hla, hra, tla, tra, hia⟩ := ha.inv
  obtain ⟨hlb, hrb, tlb, trb, hib⟩ := hb.inv
  have hpa' := hia.pairs_left_eq hna hpa
  have hpb' := hib.pairs_left_eq hnb hpb
  obtain ⟨r, hr, hiff⟩ := hia.eq_spec hib hna hnb
  have hF : List.Forall₂ (fun x y =>
        equivalent a.cmp_left (a.lvalue x) (b.lvalue y) ∧
        equivalent a.cmp_right (a.rvalue x) (b.rvalue y)) tla.toList tlb.toList ↔
      List.Forall₂ (fun p q : L × R =>
        equivalent a.cmp_left p.1 q.1 ∧ equivalent a.cmp_right p.2 q.2) pa pb := by
    rw [hpa', hpb', List.forall₂_map_left_iff, List.forall₂_map_right_iff]
  have hlenA : pa.length = a.size_ := by rw [hpa', List.length_map, ← hia.size]
  have hlenB : pb.length = b.size_ := by rw [hpb', List.length_map, ← hib.size]
  refine ⟨r, hr, by simp [bimap.ne, hr], ?_, ?_⟩
  · rw [hiff, hF, List.forall₂_iff_get]
    constructor
    · rintro ⟨h1, h2⟩
      exact ⟨by omega, h2⟩
    · rintro ⟨h1, h2⟩
      exact ⟨by omega, h2⟩
  · intro hcl hperm
    rw [hiff, hF]
    have hsa : pa.Pairwise (fun p q : L × R => a.cmp_left p.1 q.1 = true) := by
      rw [hpa', List.pairwise_map]; exact hia.left.sorted
    have hsb : pb.Pairwise (fun p q : L × R => a.cmp_left p.1 q.1 = true) := by
      rw [hpb', List.pairwise_map, ← hcl]; exact hib.left.sorted
    haveI : IsAntisymm (L × R) (fun p q : L × R => a.cmp_left p.1 q.1 = true) :=
      ⟨fun p q h1 h2 => by
        have := intrusive_tree.StrictWeakOrder.asymm hla h1
        rw [h2] at this
        exact absurd this (by decide)⟩
    have hEq : pa = pb := List.eq_of_perm_of_sorted hperm hsa hsb
    rw [hEq, List.forall₂_same]
    intro p _
    exact ⟨equivalent_refl hla p.1, equivalent_refl hra p.2⟩

theorem eq_iff_same_size_and_equivalent_pairs_witness :
    ∃ r, eq 5 sample_two sample_leaf = .ok r ∧ ne 5 sample_two sample_leaf = .ok (!r) ∧
      (r = true ↔ sample_two.size_ = sample_leaf.size_ ∧
        ∀ i (h1 : i < [(1, 5), (2, 0)].length) (h2 : i < [(1, 5), (2, 0)].length),
          equivalent sample_two.cmp_left
            (([(1, 5), (2, 0)] : List (Nat × Nat)).get ⟨i, h1⟩).1
            (([(1, 5), (2, 0)] : List (Nat × Nat)).get ⟨i, h2⟩).1 ∧
          equivalent sample_two.cmp_right
            (([(1, 5), (2, 0)] : List (Nat × Nat)).get ⟨i, h1⟩).2
            (([(1, 5), (2, 0)] : List (Nat × Nat)).get ⟨i, h2⟩).2) ∧
      (sample_leaf.cmp_left = sample_two.cmp_left →
        ([(1, 5), (2, 0)] : List (Nat × Nat)).Perm [(1, 5), (2, 0)] → r = true) :=
  eq_iff_same_size_and_equivalent_pairs sample_two_wf sample_leaf_wf
    (show sample_two.size_ < 5 by decide) (show sample_leaf.size_ < 5 by decide)
    (show pairs_left 5 sample_two = .ok [(1, 5), (2, 0)] from rfl)
    (show pairs_left 5 sample_leaf = .ok [(1, 5), (2, 0)] from rfl)

end bimap
/-! ## Bimaps whose sentinels are not cross-linked -/

namespace bimap

variable {L R : Type}

theorem Inv.trees {b : bimap L R} {tl tr : NodeTree} (hinv : Inv b tl tr) :
    TreesInv b tl tr := by
  refine ⟨hinv.left, hinv.right, hinv.perm, hinv.size, hinv.alloc, ?_, ?_, hinv.brk_pos⟩
  · intro x hx
    rw [hinv.cross_left] at hx
    cases hx
    decide
  · intro x hx
    rw [hinv.cross_right] at hx
    cases hx
    decide

theorem TreesInv.default_members (cl : L → L → Bool) (cr : R → R → Bool) (lv : Nat → L)
    (rv : Nat → R) : TreesInv (bimap.default_members cl cr lv rv) .nil .nil := by
  refine ⟨⟨rfl, rfl, ?_, ?_, ?_⟩, ⟨rfl, rfl, ?_, ?_, ?_⟩, List.Perm.refl _, rfl, ?_, ?_, ?_,
    Nat.le_refl _⟩
  · exact trivial
  · simp [NodeTree.toList]
  · simp [NodeTree.toList]
  · exact trivial
  · simp [NodeTree.toList]
  · simp [NodeTree.toList]
  · intro a ha
    simp [NodeTree.toList] at ha
  · intro x hx
    simp [bimap.default_members, base_node.null] at hx
  · intro x hx
    simp [bimap.default_members, base_node.null] at hx

theorem TreesInv.size_right_eq {b : bimap L R} {tl tr : NodeTree} (hinv : TreesInv b tl tr) :
    b.size_ = tr.toList.length := by
  rw [hinv.size, hinv.perm.length_eq]

theorem TreesInv.left_out {b : bimap L R} {tl tr : NodeTree} (hinv : TreesInv b tl tr) :
    ∀ a ∈ tl.toList, (b.lmem left_fake).right ≠ some a := by
  intro a ha hc
  have h1 := hinv.out_left a hc
  have h2 := (hinv.alloc a ha).1
  omega

theorem TreesInv.right_out {b : bimap L R} {tl tr : NodeTree} (hinv : TreesInv b tl tr) :
    ∀ a ∈ tr.toList, (b.rmem right_fake).right ≠ some a := by
  intro a ha hc
  have h1 := hinv.out_right a hc
  have h2 := (hinv.alloc a (hinv.perm.mem_iff.mpr ha)).1
  omega

theorem TreesInv.nodup_left_list {b : bimap L R} {tl tr : NodeTree}
    (hinv : TreesInv b tl tr) : tl.toList.Nodup := (List.nodup_cons.mp hinv.left.nodup).2

theorem TreesInv.nodup_right_list {b : bimap L R} {tl tr : NodeTree}
    (hinv : TreesInv b tl tr) : tr.toList.Nodup := (List.nodup_cons.mp hinv.right.nodup).2

theorem TreesInv.begin_left_spec {b : bimap L R} {tl tr : NodeTree} (hinv : TreesInv b tl tr)
    {n : Nat} (hn : b.size_ < n) :
    bimap.begin_left n b = .ok (some (tl.toList.head?.getD left_fake)) := by
  have hlen : tl.toList.length ≤ n := by rw [← hinv.size]; omega
  simp [bimap.begin_left, intrusive_tree.begin_spec hinv.left hlen]

theorem TreesInv.begin_right_spec {b : bimap L R} {tl tr : NodeTree} (hinv : TreesInv b tl tr)
    {n : Nat} (hn : b.size_ < n) :
    bimap.begin_right n b = .ok (some (tr.toList.head?.getD right_fake)) := by
  have hlen : tr.toList.length ≤ n := by rw [← hinv.size_right_eq]; omega
  simp [bimap.begin_right, intrusive_tree.begin_spec hinv.right hlen]

theorem TreesInv.positions_left_spec {b : bimap L R} {tl tr : NodeTree}
    (hinv : TreesInv b tl tr) {n : Nat} (hn : b.size_ < n) :
    bimap.positions_left n b = .ok tl.toList := by
  have hlen : tl.toList.length < n := by rw [← hinv.size]; exact hn
  simp only [bimap.positions_left, hinv.begin_left_spec hn]
  exact walk_spec hinv.left hinv.left_out hlen tl.toList [] n rfl hlen

theorem TreesInv.positions_right_spec {b : bimap L R} {tl tr : NodeTree}
    (hinv : TreesInv b tl tr) {n : Nat} (hn : b.size_ < n) :
    bimap.positions_right n b = .ok tr.toList := by
  have hlen : tr.toList.length < n := by rw [← hinv.size_right_eq]; exact hn
  simp only [bimap.positions_right, hinv.begin_right_spec hn]
  exact walk_spec hinv.right hinv.right_out hlen tr.toList [] n rfl hlen

theorem TreesInv.find_left_spec {b : bimap L R} {tl tr : NodeTree} (hinv : TreesInv b tl tr)
    (hlt : StrictWeakOrder b.cmp_left) {n : Nat} (hn : b.size_ < n) (x : L) :
    bimap.find_left n b x = .ok (some ((tl.toList.find?
      (fun c => !b.cmp_left (b.lvalue c) x && !b.cmp_left x (b.lvalue c))).getD left_fake)) := by
  have hlen : tl.toList.length < n := by rw [← hinv.size]; exact hn
  simp only [bimap.find_left, intrusive_tree.find_spec hlt hinv.left x hlen]
  cases tl.toList.find? (fun c => !b.cmp_left (b.lvalue c) x && !b.cmp_left x (b.lvalue c)) <;>
    simp [end_left]

theorem TreesInv.find_right_spec {b : bimap L R} {tl tr : NodeTree} (hinv : TreesInv b tl tr)
    (hlt : StrictWeakOrder b.cmp_right) {n : Nat} (hn : b.size_ < n) (x : R) :
    bimap.find_right n b x = .ok (some ((tr.toList.find?
      (fun c => !b.cmp_right (b.rvalue c) x && !b.cmp_right x (b.rvalue c))).getD right_fake)) := by
  have hlen : tr.toList.length < n := by rw [← hinv.size_right_eq]; exact hn
  simp only [bimap.find_right, intrusive_tree.find_spec hlt hinv.right x hlen]
  cases tr.toList.find? (fun c => !b.cmp_right (b.rvalue c) x && !b.cmp_right x (b.rvalue c)) <;>
    simp [end_right]

theorem TreesInv.next_left {b : bimap L R} {tl tr : NodeTree} (hinv : TreesInv b tl tr)
    {n : Nat} (hn : b.size_ < n) {a : Nat} (ha : a ∈ tl.toList) :
    bimap.incr_left n b (some a) = .ok (some ((nextIn tl.toList a).getD left_fake)) := by
  have hlen : tl.toList.length < n := by rw [← hinv.size]; exact hn
  exact intrusive_tree.next_spec hinv.left hinv.left_out ha hlen

theorem TreesInv.erase_entry {b : bimap L R} {tl tr : NodeTree} (hinv : TreesInv b tl tr)
    {n : Nat} (hn : b.size_ < n) {a : Nat} (ha : a ∈ tl.toList) :
    ∃ b', bimap.erase_node_t n b a = .ok b' ∧ TreesInv b' (tl.remove a) (tr.remove a) ∧
      (tl.remove a).toList = tl.toList.erase a ∧
      (tr.remove a).toList = tr.toList.erase a ∧
      b'.size_ + 1 = b.size_ ∧ b'.brk = b.brk ∧
      b'.cmp_left = b.cmp_left ∧ b'.cmp_right = b.cmp_right ∧
      b'.lvalue = b.lvalue ∧ b'.rvalue = b.rvalue := by
  have hlenl : tl.toList.length ≤ n := by rw [← hinv.size]; exact Nat.le_of_lt hn
  have hlenr : tr.toList.length ≤ n := by rw [← hinv.size_right_eq]; exact Nat.le_of_lt hn
  have har : a ∈ tr.toList := hinv.perm.mem_iff.mp ha
  obtain ⟨lm, hlm, hlinv, _, hlfr, _⟩ := intrusive_tree.erase_spec hinv.left ha hlenl
  obtain ⟨rm, hrm, hrinv, _, hrfr, _⟩ := intrusive_tree.erase_spec hinv.right har hlenr
  have el := NodeTree.remove_toList_erase hinv.nodup_left_list ha
  have er := NodeTree.remove_toList_erase hinv.nodup_right_list har
  refine ⟨{ cmp_left := b.cmp_left
            cmp_right := b.cmp_right
            lmem := lm
            rmem := rm
            lvalue := b.lvalue
            rvalue := b.rvalue
            size_ := b.size_ - 1
            brk := b.brk }, ?_, ⟨hlinv, hrinv, ?_, ?_, ?_, ?_, ?_, hinv.brk_pos⟩, el, er, ?_,
          rfl, rfl, rfl, rfl, rfl⟩
  · simp only [bimap.erase_node_t, hlm, hrm]
  · rw [el, er]
    exact hinv.perm.erase a
  · simp only [el, List.length_erase_of_mem ha, hinv.size]
  · intro c hc
    rw [el] at hc
    exact hinv.alloc c (List.mem_of_mem_erase hc)
  · simp only
    rw [hlfr]
    exact hinv.out_left
  · simp only
    rw [hrfr]
    exact hinv.out_right
  · have : 0 < tl.toList.length := List.length_pos_of_mem ha
    simp only [hinv.size]
    omega

theorem TreesInv.erase_all {n : Nat} :
    ∀ (m : Nat) (k : Nat) (b : bimap L R) (tl tr : NodeTree),
      TreesInv b tl tr → b.size_ < n → tl.toList.length = m → m < k →
      ∃ b' tl' tr',
        bimap.erase_left_range n k b (some (tl.toList.head?.getD left_fake)) b.end_left
          = .ok (b', b.end_left) ∧
        TreesInv b' tl' tr' ∧ tl'.toList = [] ∧ tr'.toList = [] ∧ b'.size_ = 0 ∧
        b'.cmp_left = b.cmp_left ∧ b'.cmp_right = b.cmp_right := by
  intro m
  induction m with
  | zero =>
    intro k b tl tr hinv _ hm hk
    have e1 : tl.toList = [] := List.length_eq_zero.mp hm
    have e2 : tr.toList = [] := by
      have := hinv.perm.length_eq
      rw [e1] at this
      exact List.length_eq_zero.mp this.symm
    cases k with
    | zero => omega
    | succ k =>
      refine ⟨b, tl, tr, ?_, hinv, e1, e2, by rw [hinv.size, e1]; rfl, rfl, rfl⟩
      simp [bimap.erase_left_range, e1, end_left]
  | succ m ih =>
    intro k b tl tr hinv hn hm hk
    cases hlist : tl.toList with
    | nil => rw [hlist] at hm; simp at hm
    | cons x rest =>
      cases k with
      | zero => omega
      | succ k =>
        have hx : x ∈ tl.toList := by rw [hlist]; simp
        obtain ⟨b1, hb1, hinv1, el, _, hsz, _, hcl, hcr, _⟩ := hinv.erase_entry hn hx
        have hnext : nextIn tl.toList x = rest.head? := by rw [hlist, nextIn_head]
        have hrest : (tl.remove x).toList = rest := by rw [el, hlist]; simp
        have hne : (some x : Option Nat) ≠ b.end_left := by
          simp only [end_left, ne_eq, Option.some.injEq]
          exact hinv.left.not_fake hx
        obtain ⟨b', tl', tr', e, hinv', h1, h2, h3, h4, h5⟩ :=
          ih k b1 (tl.remove x) (tr.remove x) hinv1 (by omega)
            (by rw [hrest]; rw [hlist] at hm; simpa using hm) (by omega)
        refine ⟨b', tl', tr', ?_, hinv', h1, h2, h3, by rw [h4, hcl], by rw [h5, hcr]⟩
        rw [hrest] at e
        simp only [List.head?_cons, Option.getD_some, bimap.erase_left_range, hne, ne_eq,
          not_false_eq_true, if_true, bimap.erase_left_it, hinv.next_left hn hx, hnext, hb1]
        exact e

end bimap

namespace bimap

variable {L R : Type}

theorem TreesInv.insert_copying_dup {b : bimap L R} {tl tr : NodeTree}
    (hinv : TreesInv b tl tr)
    (hl : StrictWeakOrder b.cmp_left) (hr : StrictWeakOrder b.cmp_right)
    {n : Nat} (hn : b.size_ < n) (tL : L → Bool) (tR : R → Bool) (l : L) (r : R)
    (hdup : (∃ a ∈ tl.toList, equivalent b.cmp_left (b.lvalue a) l) ∨
      (∃ a ∈ tr.toList, equivalent b.cmp_right (b.rvalue a) r)) :
    bimap.insert_copying n tL tR b l r = .ok (some (b, b.end_left)) := by
  by_cases hleft : ∃ a ∈ tl.toList, equivalent b.cmp_left (b.lvalue a) l
  · obtain ⟨a, ha, heq⟩ := hleft
    have hne : (some a : Option Nat) ≠ b.end_left := by
      simp only [end_left, ne_eq, Option.some.injEq]
      exact hinv.left.not_fake ha
    have hf : bimap.find_left n b l = .ok (some a) := by
      rw [hinv.find_left_spec hl hn, find_equivalent_of_mem hl _ _ hinv.left.sorted ha heq]
      rfl
    simp only [bimap.insert_copying, hf, ne_eq, hne, not_false_eq_true, if_true]
  · have habs : ∀ a ∈ tl.toList, ¬ equivalent b.cmp_left (b.lvalue a) l :=
      fun a ha hc => hleft ⟨a, ha, hc⟩
    have hf : bimap.find_left n b l = .ok b.end_left := by
      rw [hinv.find_left_spec hl hn, find_equivalent_none _ _ habs]
      rfl
    rcases hdup with h | ⟨a, ha, heq⟩
    · exact absurd h hleft
    · have hne : (some a : Option Nat) ≠ b.end_right := by
        simp only [end_right, ne_eq, Option.some.injEq]
        exact hinv.right.not_fake ha
      have hf2 : bimap.find_right n b r = .ok (some a) := by
        rw [hinv.find_right_spec hr hn, find_equivalent_of_mem hr _ _ hinv.right.sorted ha heq]
        rfl
      simp only [bimap.insert_copying, hf, ne_eq, not_true_eq_false, if_false, hf2, hne,
        not_false_eq_true, if_true]

theorem TreesInv.insert_copying_new {b : bimap L R} {tl tr : NodeTree}
    (hinv : TreesInv b tl tr)
    (hl : StrictWeakOrder b.cmp_left) (hr : StrictWeakOrder b.cmp_right)
    {n : Nat} (hn : b.size_ < n) (tL : L → Bool) (tR : R → Bool) (l : L) (r : R)
    (habs_l : ∀ a ∈ tl.toList, ¬ equivalent b.cmp_left (b.lvalue a) l)
    (habs_r : ∀ a ∈ tr.toList, ¬ equivalent b.cmp_right (b.rvalue a) r) :
    ((tL l || tR r) = true → bimap.insert_copying n tL tR b l r = .ok none) ∧
    ((tL l || tR r) = false →
      ∃ b' tl' tr', bimap.insert_copying n tL tR b l r = .ok (some (b', some b.brk)) ∧
        TreesInv b' tl' tr' ∧
        tl'.toList.Perm (b.brk :: tl.toList) ∧ tr'.toList.Perm (b.brk :: tr.toList) ∧
        b'.size_ = b.size_ + 1 ∧ b'.brk = b.brk + 1 ∧
        b'.cmp_left = b.cmp_left ∧ b'.cmp_right = b.cmp_right ∧
        b'.lvalue b.brk = l ∧ b'.rvalue b.brk = r ∧
        (∀ a, a ≠ b.brk → b'.lvalue a = b.lvalue a ∧ b'.rvalue a = b.rvalue a)) := by
  have hlenl : tl.toList.length < n := by rw [← hinv.size]; exact hn
  have hlenr : tr.toList.length < n := by rw [← hinv.size_right_eq]; exact hn
  have hbrk := hinv.brk_pos
  have hxl : b.brk ∉ tl.toList := fun hc => Nat.lt_irrefl _ (hinv.alloc _ hc).2
  have hxr : b.brk ∉ tr.toList :=
    fun hc => Nat.lt_irrefl _ (hinv.alloc _ (hinv.perm.mem_iff.mpr hc)).2
  have hxfl : b.brk ≠ left_fake := by simp only [left_fake]; omega
  have hxfr : b.brk ≠ right_fake := by simp only [right_fake]; omega
  have hfl : bimap.find_left n b l = .ok b.end_left := by
    rw [hinv.find_left_spec hl hn, find_equivalent_none _ _ habs_l]
    rfl
  have hfr : bimap.find_right n b r = .ok b.end_right := by
    rw [hinv.find_right_spec hr hn, find_equivalent_none _ _ habs_r]
    rfl
  constructor
  · intro ht
    simp only [bimap.insert_copying, hfl, hfr, ne_eq, not_true_eq_false, if_false, ht, if_true]
  intro ht
  have hinvl : TreeInv b.cmp_left (fun a => if a = b.brk then l else b.lvalue a)
      (b.lmem.set b.brk base_node.null) left_fake tl := by
    refine hinv.left.transport (Heap.set_other _ _ (Ne.symm hxfl)) ?_ ?_
    · intro a ha
      exact Heap.set_other _ _ (fun hc => hxl (hc ▸ ha))
    · intro a ha
      have : a ≠ b.brk := fun hc => hxl (hc ▸ ha)
      simp [this]
  have hinvr : TreeInv b.cmp_right (fun a => if a = b.brk then r else b.rvalue a)
      (b.rmem.set b.brk base_node.null) right_fake tr := by
    refine hinv.right.transport (Heap.set_other _ _ (Ne.symm hxfr)) ?_ ?_
    · intro a ha
      exact Heap.set_other _ _ (fun hc => hxr (hc ▸ ha))
    · intro a ha
      have : a ≠ b.brk := fun hc => hxr (hc ▸ ha)
      simp [this]
  have hcmpl : ∀ c ∈ tl.toList,
      b.cmp_left ((fun a => if a = b.brk then l else b.lvalue a) b.brk)
          ((fun a => if a = b.brk then l else b.lvalue a) c) = true ∨
        b.cmp_left ((fun a => if a = b.brk then l else b.lvalue a) c)
          ((fun a => if a = b.brk then l else b.lvalue a) b.brk) = true := by
    intro c hc
    have hcx : c ≠ b.brk := fun h => hxl (h ▸ hc)
    simp only [if_true, hcx, if_false]
    exact comparable_of_not_equivalent (habs_l c hc)
  have hcmpr : ∀ c ∈ tr.toList,
      b.cmp_right ((fun a => if a = b.brk then r else b.rvalue a) b.brk)
          ((fun a => if a = b.brk then r else b.rvalue a) c) = true ∨
        b.cmp_right ((fun a => if a = b.brk then r else b.rvalue a) c)
          ((fun a => if a = b.brk then r else b.rvalue a) b.brk) = true := by
    intro c hc
    have hcx : c ≠ b.brk := fun h => hxr (h ▸ hc)
    simp only [if_true, hcx, if_false]
    exact comparable_of_not_equivalent (habs_r c hc)
  have hnull : ∀ h : Heap, ((h.set b.brk base_node.null) b.brk).left = none ∧
      ((h.set b.brk base_node.null) b.brk).right = none := by
    intro h
    rw [Heap.set_same]
    exact ⟨rfl, rfl⟩
  obtain ⟨lm, hlm, hlinv, _, hlfr, _⟩ :=
    intrusive_tree.insert_spec hl hinvl hxl hxfl (hnull _).1 (hnull _).2 hcmpl hlenl
  obtain ⟨rm, hrm, hrinv, _, hrfr, _⟩ :=
    intrusive_tree.insert_spec hr hinvr hxr hxfr (hnull _).1 (hnull _).2 hcmpr hlenr
  refine ⟨{ cmp_left := b.cmp_left
            cmp_right := b.cmp_right
            lmem := lm
            rmem := rm
            lvalue := fun a => if a = b.brk then l else b.lvalue a
            rvalue := fun a => if a = b.brk then r else b.rvalue a
            size_ := b.size_ + 1
            brk := b.brk + 1 }, _, _, ?_,
    ⟨hlinv, hrinv, ?_, ?_, ?_, ?_, ?_, ?_⟩, NodeTree.ins_perm _ _ _,
    NodeTree.ins_perm _ _ _, ?_⟩
  · simp only [bimap.insert_copying, hfl, hfr, ne_eq, not_true_eq_false, if_false, ht,
      new_node_t, hlm, hrm]
    simp
  · exact (NodeTree.ins_perm _ _ _).trans
      ((hinv.perm.cons _).trans (NodeTree.ins_perm _ _ _).symm)
  · simp only [(NodeTree.ins_perm _ _ _).length_eq, List.length_cons, hinv.size]
  · intro a ha
    rcases NodeTree.mem_ins.mp ha with rfl | ha
    · exact ⟨hbrk, Nat.lt_succ_self _⟩
    · exact ⟨(hinv.alloc a ha).1, Nat.lt_succ_of_lt (hinv.alloc a ha).2⟩
  · simp only
    rw [hlfr, Heap.set_other _ _ (Ne.symm hxfl)]
    exact hinv.out_left
  · simp only
    rw [hrfr, Heap.set_other _ _ (Ne.symm hxfr)]
    exact hinv.out_right
  · exact Nat.le_succ_of_le hbrk
  · refine ⟨rfl, rfl, rfl, rfl, by simp, by simp, ?_⟩
    intro a ha
    simp [ha]

end bimap
namespace bimap

variable {L R : Type}

theorem distinct_not_equivalent {T : Type} {lt : T → T → Bool} (value : Nat → T)
    {xs : List Nat} (hsorted : xs.Pairwise (fun a b => lt (value a) (value b) = true))
    {p x : Nat} (hp : p ∈ xs) (hx : x ∈ xs) (hpx : p ≠ x) :
    ¬ equivalent lt (value p) (value x) := by
  have h2 : xs.Pairwise (fun a b => lt (value a) (value b) = true ∨
      lt (value b) (value a) = true) := hsorted.imp (fun h => Or.inl h)
  have h3 := List.Pairwise.forall (fun a b h => Or.symm h) h2 hp hx hpx
  intro heq
  rcases h3 with h | h
  · rw [heq.1] at h; exact absurd h (by decide)
  · rw [heq.2] at h; exact absurd h (by decide)

theorem copy_no_duplicate {other b : bimap L R} {tlo tro tl tr : NodeTree}
    (ho : Inv other tlo tro) (hinv : TreesInv b tl tr)
    {pre xs : List Nat} {x : Nat} (hsplit : tlo.toList = pre ++ x :: xs)
    (hcl : b.cmp_left = other.cmp_left) (hcr : b.cmp_right = other.cmp_right)
    (hperm : (tl.toList.map (fun a => (b.lvalue a, b.rvalue a))).Perm
      (pre.map (fun a => (other.lvalue a, other.rvalue a)))) :
    (∀ a ∈ tl.toList, ¬ equivalent b.cmp_left (b.lvalue a) (other.lvalue x)) ∧
    (∀ a ∈ tr.toList, ¬ equivalent b.cmp_right (b.rvalue a) (other.rvalue x)) := by
  have hx : x ∈ tlo.toList := by rw [hsplit]; simp
  have hnd := ho.nodup_left
  have hkey : ∀ a ∈ tl.toList, ∃ p ∈ pre, p ∈ tlo.toList ∧ p ≠ x ∧
      b.lvalue a = other.lvalue p ∧ b.rvalue a = other.rvalue p := by
    intro a ha
    have h1 : (b.lvalue a, b.rvalue a) ∈ tl.toList.map (fun a => (b.lvalue a, b.rvalue a)) :=
      List.mem_map.mpr ⟨a, ha, rfl⟩
    have h2 := hperm.mem_iff.mp h1
    obtain ⟨p, hp, hpe⟩ := List.mem_map.mp h2
    have hpx : p ≠ x := by
      intro e
      subst e
      rw [hsplit] at hnd
      exact (List.nodup_append.mp hnd).2.2 hp (List.mem_cons_self _ _)
    have hpo : p ∈ tlo.toList := by rw [hsplit]; exact List.mem_append_left _ hp
    simp only [Prod.mk.injEq] at hpe
    exact ⟨p, hp, hpo, hpx, hpe.1.symm, hpe.2.symm⟩
  constructor
  · intro a ha
    obtain ⟨p, _, hpo, hpx, e1, _⟩ := hkey a ha
    rw [e1, hcl]
    exact distinct_not_equivalent other.lvalue ho.left.sorted hpo hx hpx
  · intro a ha
    obtain ⟨p, _, hpo, hpx, _, e2⟩ := hkey a (hinv.perm.mem_iff.mpr ha)
    rw [e2, hcr]
    exact distinct_not_equivalent other.rvalue ho.right.sorted (ho.perm.mem_iff.mp hpo)
      (ho.perm.mem_iff.mp hx) hpx

theorem copy_loop_spec {other : bimap L R} {tlo tro : NodeTree} (ho : Inv other tlo tro)
    {n : Nat} (hn : other.size_ < n) (tL : L → Bool) (tR : R → Bool) :
    ∀ (rest pre : List Nat) (k : Nat) (b : bimap L R) (tl tr : NodeTree),
      tlo.toList = pre ++ rest → rest.length < k → TreesInv b tl tr →
      StrictWeakOrder b.cmp_left → StrictWeakOrder b.cmp_right → b.size_ ≤ pre.length →
      ∃ c thrown tl' tr',
        copy_loop n tL tR other k b (some (rest.head?.getD left_fake)) = .ok (c, thrown) ∧
        TreesInv c tl' tr' ∧ c.size_ ≤ other.size_ ∧
        c.cmp_left = b.cmp_left ∧ c.cmp_right = b.cmp_right ∧
        (b.cmp_left = other.cmp_left → b.cmp_right = other.cmp_right →
          (tl.toList.map (fun a => (b.lvalue a, b.rvalue a))).Perm
            (pre.map (fun a => (other.lvalue a, other.rvalue a))) →
          thrown = rest.any (fun a => tL (other.lvalue a) || tR (other.rvalue a)) ∧
          (thrown = false →
            (tl'.toList.map (fun a => (c.lvalue a, c.rvalue a))).Perm
              (tlo.toList.map (fun a => (other.lvalue a, other.rvalue a))))) := by
  intro rest
  induction rest with
  | nil =>
    intro pre k b tl tr hsplit hk hinv _ _ hsz
    cases k with
    | zero => omega
    | succ k =>
      have hlen : pre.length = other.size_ := by
        rw [ho.size, hsplit]; simp
      refine ⟨b, false, tl, tr, ?_, hinv, by omega, rfl, rfl, ?_⟩
      · simp [copy_loop, end_left]
      · intro _ _ hperm
        refine ⟨by simp, fun _ => ?_⟩
        rw [hsplit, List.append_nil]
        exact hperm
  | cons x xs ih =>
    intro pre k b tl tr hsplit hk hinv hl hr hsz
    cases k with
    | zero => omega
    | succ k =>
      have hx : x ∈ tlo.toList := by rw [hsplit]; simp
      have hxpre : x ∉ pre := by
        have hnd := ho.nodup_left
        rw [hsplit] at hnd
        intro hc
        exact (List.nodup_append.mp hnd).2.2 hc (List.mem_cons_self _ _)
      have hlen : pre.length + (xs.length + 1) = other.size_ := by
        rw [ho.size, hsplit]; simp
      have hbn : b.size_ < n := by omega
      have hinc : incr_left n other (some x) = .ok (some (xs.head?.getD left_fake)) := by
        rw [ho.incr_left hn hx, hsplit, intrusive_tree.nextIn_split hxpre]
      have hne : (some x : Option Nat) ≠ other.end_left := ho.ne_end_left hx
      have hsplit' : tlo.toList = (pre ++ [x]) ++ xs := by rw [hsplit]; simp
      have hstep : ∀ r : Except Err (Option (bimap L R × Option Nat)),
          insert_copying n tL tR b (other.lvalue x) (other.rvalue x) = r →
          copy_loop n tL tR other (k + 1) b (some ((x :: xs).head?.getD left_fake))
            = match r with
              | .error e => .error e
              | .ok none => .ok (b, true)
              | .ok (some (b1, _)) =>
                copy_loop n tL tR other k b1 (some (xs.head?.getD left_fake)) := by
        intro r hr
        simp only [List.head?_cons, Option.getD_some, copy_loop, hne, ne_eq, not_false_eq_true,
          if_true, deref_left, ho.flip_left hx, deref_right, hr, hinc]
      by_cases hdup : (∃ a ∈ tl.toList, equivalent b.cmp_left (b.lvalue a) (other.lvalue x)) ∨
          (∃ a ∈ tr.toList, equivalent b.cmp_right (b.rvalue a) (other.rvalue x))
      · have hins := hinv.insert_copying_dup hl hr hbn tL tR _ _ hdup
        obtain ⟨c, thrown, tl', tr', e, hc, hcs, h1, h2, _⟩ :=
          ih (pre ++ [x]) k b tl tr hsplit' (by simp at hk; omega) hinv hl hr
            (by simp; omega)
        refine ⟨c, thrown, tl', tr', ?_, hc, hcs, h1, h2, ?_⟩
        · rw [hstep _ hins]; exact e
        · intro hcl hcr hperm
          obtain ⟨n1, n2⟩ := copy_no_duplicate ho hinv hsplit hcl hcr hperm
          rcases hdup with ⟨a, ha, heq⟩ | ⟨a, ha, heq⟩
          · exact absurd heq (n1 a ha)
          · exact absurd heq (n2 a ha)
      · have habs_l : ∀ a ∈ tl.toList,
            ¬ equivalent b.cmp_left (b.lvalue a) (other.lvalue x) :=
          fun a ha hc => hdup (Or.inl ⟨a, ha, hc⟩)
        have habs_r : ∀ a ∈ tr.toList,
            ¬ equivalent b.cmp_right (b.rvalue a) (other.rvalue x) :=
          fun a ha hc => hdup (Or.inr ⟨a, ha, hc⟩)
        obtain ⟨hthrow, hnew⟩ :=
          hinv.insert_copying_new hl hr hbn tL tR (other.lvalue x) (other.rvalue x)
            habs_l habs_r
        cases ht : (tL (other.lvalue x) || tR (other.rvalue x)) with
        | true =>
          refine ⟨b, true, tl, tr, ?_, hinv, by omega, rfl, rfl, ?_⟩
          · rw [hstep _ (hthrow ht)]
          · intro _ _ _
            refine ⟨?_, fun h => absurd h (by decide)⟩
            rw [List.any_cons, ht]
            rfl
        | false =>
          obtain ⟨b', tl1, tr1, hins, hinv', hp1, _, hs', _, hcl', hcr', hv1, hv2, hvo⟩ :=
            hnew ht
          obtain ⟨c, thrown, tl', tr', e, hc, hcs, h1, h2, h3⟩ :=
            ih (pre ++ [x]) k b' tl1 tr1 hsplit' (by simp at hk; omega) hinv'
              (by rw [hcl']; exact hl) (by rw [hcr']; exact hr) (by simp; omega)
          refine ⟨c, thrown, tl', tr', ?_, hc, hcs, by rw [h1, hcl'], by rw [h2, hcr'], ?_⟩
          · rw [hstep _ hins]; exact e
          · intro hcl hcr hperm
            have hbrk : b.brk ∉ tl.toList := fun hc => Nat.lt_irrefl _ (hinv.alloc _ hc).2
            have hmap : tl.toList.map (fun a => (b'.lvalue a, b'.rvalue a))
                = tl.toList.map (fun a => (b.lvalue a, b.rvalue a)) := by
              apply List.map_congr_left
              intro a ha
              have hab : a ≠ b.brk := fun e => hbrk (e ▸ ha)
              rw [(hvo a hab).1, (hvo a hab).2]
            have hperm' : (tl1.toList.map (fun a => (b'.lvalue a, b'.rvalue a))).Perm
                ((pre ++ [x]).map (fun a => (other.lvalue a, other.rvalue a))) := by
              refine (hp1.map _).trans ?_
              rw [List.map_cons, hmap, hv1, hv2, List.map_append]
              refine (List.Perm.cons _ hperm).trans ?_
              simp only [List.map_cons, List.map_nil]
              exact (List.perm_append_singleton _ _).symm
            obtain ⟨g1, g2⟩ := h3 (by rw [hcl', hcl]) (by rw [hcr', hcr]) hperm'
            refine ⟨?_, g2⟩
            rw [List.any_cons, ht, g1]
            rfl

end bimap
namespace bimap

variable {L R : Type}

/-- C18: the copy constructor run on a well-formed `other`, the default-constructed
comparators being strict weak orders, always ends. Whenever it ends by rethrowing
the exception of a value copy (`thrown = true`), the object under construction has
been unwound: its `size_` is `0` and both traversals are empty, `begin_left()`
being `end_left()` and `begin_right()` being `end_right()`. When the
default-constructed comparators are those of `other`, it ends that way exactly
when the copy of a left or right value of some pair of `other` throws. `other` is
only read. -/
theorem copy_failure_unwinds_destination {other : bimap L R} (ho : WellFormed other)
    {dl : L → L → Bool} {dr : R → R → Bool} (hdl : StrictWeakOrder dl)
    (hdr : StrictWeakOrder dr) (tL : L → Bool) (tR : R → Bool) (ls : Nat → L) (rs : Nat → R)
    {n k : Nat} (hn : other.size_ < n) (hk : other.size_ < k)
    {ps : List (L × R)} (hps : pairs_left n other = .ok ps) :
    ∃ c thrown, copy_construct n k dl dr tL tR ls rs other = .ok (c, thrown) ∧
      (thrown = true →
        c.size_ = 0 ∧
        ∀ m, 0 < m →
          begin_left m c = .ok c.end_left ∧ begin_right m c = .ok c.end_right ∧
          positions_left m c = .ok [] ∧ positions_right m c = .ok []) ∧
      (dl = other.cmp_left → dr = other.cmp_right →
        (thrown = true ↔ ∃ p ∈ ps, tL p.1 = true ∨ tR p.2 = true)) := by
  obtain ⟨_, _, tlo, tro, hio⟩ := ho.inv
  have hps' := hio.pairs_left_eq hn hps
  have hlen : tlo.toList.length < n := by rw [← hio.size]; exact hn
  obtain ⟨c, thrown, tl', tr', hloop, hc, hcs, _, _, hcond⟩ :=
    copy_loop_spec hio hn tL tR tlo.toList [] n (default_members dl dr ls rs) .nil .nil
      (by simp) hlen (TreesInv.default_members dl dr ls rs) hdl hdr (Nat.zero_le _)
  have hiff : dl = other.cmp_left → dr = other.cmp_right →
      (thrown = true ↔ ∃ p ∈ ps, tL p.1 = true ∨ tR p.2 = true) := by
    intro e1 e2
    obtain ⟨g, _⟩ := hcond e1 e2 (by simp [NodeTree.toList])
    rw [g, List.any_eq_true, hps']
    constructor
    · rintro ⟨x, hx, hp⟩
      refine ⟨(other.lvalue x, other.rvalue x), List.mem_map.mpr ⟨x, hx, rfl⟩, ?_⟩
      simpa using hp
    · rintro ⟨p, hp, hq⟩
      obtain ⟨x, hx, rfl⟩ := List.mem_map.mp hp
      exact ⟨x, hx, by simpa using hq⟩
  cases thrown with
  | false =>
    refine ⟨{ c with size_ := other.size_ }, false, ?_, fun h => absurd h (by decide), hiff⟩
    simp only [copy_construct, hio.begin_left hn, hloop]
  | true =>
    have hcn : c.size_ < n := by omega
    obtain ⟨b', tl2, tr2, he, hinv2, e1, e2, hz, _⟩ :=
      TreesInv.erase_all tl'.toList.length k c tl' tr' hc hcn rfl (by rw [← hc.size]; omega)
    refine ⟨b', true, ?_, fun _ => ⟨hz, ?_⟩, hiff⟩
    · simp only [copy_construct, hio.begin_left hn, hloop, hc.begin_left_spec hcn, he]
    · intro m hm
      have hm' : b'.size_ < m := by omega
      refine ⟨?_, ?_, ?_, ?_⟩
      · rw [hinv2.begin_left_spec hm', e1]; rfl
      · rw [hinv2.begin_right_spec hm', e2]; rfl
      · rw [hinv2.positions_left_spec hm', e1]
      · rw [hinv2.positions_right_spec hm', e2]

theorem copy_failure_unwinds_destination_witness :
    ∃ c thrown,
      copy_construct 5 5 lt_nat lt_nat (fun l => decide (l = 2)) (fun _ => false)
          (fun _ => 0) (fun _ => 0) sample_two = .ok (c, thrown) ∧
      (thrown = true →
        c.size_ = 0 ∧
        ∀ m, 0 < m →
          begin_left m c = .ok c.end_left ∧ begin_right m c = .ok c.end_right ∧
          positions_left m c = .ok [] ∧ positions_right m c = .ok []) ∧
      (lt_nat = sample_two.cmp_left → lt_nat = sample_two.cmp_right →
        (thrown = true ↔
          ∃ p ∈ ([(1, 5), (2, 0)] : List (Nat × Nat)),
            (fun l => decide (l = 2)) p.1 = true ∨ (fun _ => false) p.2 = true)) :=
  copy_failure_unwinds_destination sample_two_wf lt_nat_swo lt_nat_swo
    (fun l => decide (l = 2)) (fun _ => false) (fun _ => 0) (fun _ => 0)
    (show sample_two.size_ < 5 by decide) (show sample_two.size_ < 5 by decide)
    (show pairs_left 5 sample_two = .ok [(1, 5), (2, 0)] from rfl)

end bimap
theorem flag_compare_swo (reversed : Bool) : StrictWeakOrder (flag_compare reversed) := by
  cases reversed
  · refine ⟨?_, ?_, ?_⟩ <;> intros <;> simp_all [flag_compare] <;> omega
  · refine ⟨?_, ?_, ?_⟩ <;> intros <;> simp_all [flag_compare] <;> omega

theorem sample_flagged_wf : bimap.WellFormed sample_flagged :=
  bimap.WellFormed.insert
    (bimap.WellFormed.insert
      (bimap.WellFormed.empty (flag_compare true) (flag_compare false) (fun _ => 0)
        (fun _ => 0) (flag_compare_swo true) (flag_compare_swo false))
      (show (bimap.empty (flag_compare true) (flag_compare false) (fun _ => 0)
        (fun _ => 0)).size_ < 5 by decide)
      (show bimap.insert 5 (bimap.empty (flag_compare true) (flag_compare false) (fun _ => 0)
          (fun _ => 0)) 1 1
        = .ok (state_of (bimap.insert 5 (bimap.empty (flag_compare true) (flag_compare false)
            (fun _ => 0) (fun _ => 0)) 1 1), some 2) from rfl))
    (show (state_of (bimap.insert 5 (bimap.empty (flag_compare true) (flag_compare false)
        (fun _ => 0) (fun _ => 0)) 1 1)).size_ < 5 by decide)
    (show bimap.insert 5 (state_of (bimap.insert 5 (bimap.empty (flag_compare true)
        (flag_compare false) (fun _ => 0) (fun _ => 0)) 1 1)) 2 2
      = .ok (sample_flagged, some 3) from rfl)

namespace bimap

variable {L R : Type}

/-- On a bimap built by the constructor `bimap(compare_left, compare_right)` and
changed by inserts and erases only, flipping either end gives the other end. -/
theorem WellFormed.end_flip {b : bimap L R} (hb : WellFormed b) :
    flip_left b b.end_left = .ok b.end_right ∧ flip_right b b.end_right = .ok b.end_left := by
  obtain ⟨_, _, tl, tr, hinv⟩ := hb.inv
  constructor
  · simp [flip_left, end_left, hinv.left.fake_parent, hinv.cross_left, end_right]
  · simp [flip_right, end_right, hinv.right.fake_parent, hinv.cross_right, end_left]

/-- C13: the copy constructor never calls `set_fake_right`. The copy `c` of the
bimap holding `(2, 0)` and `(1, 5)` has the pairs of its source, yet
`c.end_left().flip()` and `c.end_right().flip()` are null iterators, which are
neither `c.end_right()` nor `c.end_left()`; on the source, built by the
two-comparator constructor and two inserts, both flips give the other end. -/
theorem copy_construct_leaves_end_flip_null :
    WellFormed sample_two ∧
    flip_left sample_two sample_two.end_left = .ok sample_two.end_right ∧
    flip_right sample_two sample_two.end_right = .ok sample_two.end_left ∧
    ∃ c, copy_construct 5 5 lt_nat lt_nat (fun _ => false) (fun _ => false)
          (fun _ => 0) (fun _ => 0) sample_two = .ok (c, false) ∧
      pairs_left 5 c = .ok [(1, 5), (2, 0)] ∧
      flip_left c c.end_left = .ok none ∧ flip_left c c.end_left ≠ .ok c.end_right ∧
      flip_right c c.end_right = .ok none ∧ flip_right c c.end_right ≠ .ok c.end_left :=
  ⟨sample_two_wf, rfl, rfl, _, rfl, rfl, rfl,
    (show (Except.ok none : Except Err (Option Nat)) ≠ .ok (some right_fake)
      from fun e => by cases e),
    rfl,
    (show (Except.ok none : Except Err (Option Nat)) ≠ .ok (some left_fake)
      from fun e => by cases e)⟩

/-- C15: the move constructor copies `size_` and builds both trees with
`intrusive_tree(intrusive_tree&&)`, which does nothing. Moving from the bimap
holding `(1, 5)` and `(2, 0)` gives an object with `size() == 2` whose traversals
from `begin_left()` and `begin_right()` visit no entry, and the moved-from bimap
still holds both pairs. -/
theorem move_construct_transfers_no_entry :
    WellFormed sample_two ∧
    pairs_left 5 sample_two = .ok [(1, 5), (2, 0)] ∧
    (move_construct lt_nat lt_nat (fun _ => 0) (fun _ => 0) sample_two).1.size_ = 2 ∧
    pairs_left 5 (move_construct lt_nat lt_nat (fun _ => 0) (fun _ => 0) sample_two).1
      = .ok [] ∧
    pairs_right 5 (move_construct lt_nat lt_nat (fun _ => 0) (fun _ => 0) sample_two).1
      = .ok [] ∧
    begin_left 5 (move_construct lt_nat lt_nat (fun _ => 0) (fun _ => 0) sample_two).1
      = .ok (move_construct lt_nat lt_nat (fun _ => 0) (fun _ => 0) sample_two).1.end_left ∧
    pairs_left 5 (move_construct lt_nat lt_nat (fun _ => 0) (fun _ => 0) sample_two).2
      = .ok [(1, 5), (2, 0)] ∧
    pairs_right 5 (move_construct lt_nat lt_nat (fun _ => 0) (fun _ => 0) sample_two).2
      = .ok [(2, 0), (1, 5)] :=
  ⟨sample_two_wf, rfl, rfl, rfl, rfl, rfl, rfl, rfl⟩

/-- C17: the copy constructor default-constructs both comparators. The bimap
`sample_flagged`, built with the left comparator `flag_compare(true)`, has the
left order `(2, 2), (1, 1)`; its copy is ordered by `flag_compare()`, has the
left order `(1, 1), (2, 2)`, and `operator==` returns `false` on the copy and its
source in either order. -/
theorem copy_construct_default_constructs_comparators :
    WellFormed sample_flagged ∧
    pairs_left 5 sample_flagged = .ok [(2, 2), (1, 1)] ∧
    ∃ c, copy_construct 5 5 (flag_compare false) (flag_compare false) (fun _ => false)
          (fun _ => false) (fun _ => 0) (fun _ => 0) sample_flagged = .ok (c, false) ∧
      c.cmp_left 1 2 = true ∧ sample_flagged.cmp_left 1 2 = false ∧
      pairs_left 5 c = .ok [(1, 1), (2, 2)] ∧
      eq 5 c sample_flagged = .ok false ∧ eq 5 sample_flagged c = .ok false ∧
      ne 5 c sample_flagged = .ok true :=
  ⟨sample_flagged_wf, rfl, _, rfl, rfl, rfl, rfl, rfl, rfl, rfl⟩

end bimap

namespace two_bimaps

/-- C16: `swap` exchanges the sentinels with their cross-references and leaves
the comparators where they are. With `a` built by
`bimap(flag_compare(true), flag_compare(false))`, `insert(1, 1)`, `insert(2, 2)`
and `b` by `bimap(flag_compare(false), flag_compare(false))`, after `a.swap(b)`
the traversals and size of `b` are those `a` had, but `b.find_left(2)` and
`b.find_left(1)` return `b.end_left()`, `b.insert(2, 9)` adds a second pair with
the left value `2`, and `a.end_left().flip()` is the right sentinel of `b`. -/
theorem swap_keeps_comparators_and_crosses_ends :
    bimap.WellFormed sample_flagged ∧
    bimap.pairs_left 7 sample_world.object_a = .ok [(2, 2), (1, 1)] ∧
    bimap.pairs_right 7 sample_world.object_a = .ok [(1, 1), (2, 2)] ∧
    bimap.find_left 7 sample_world.object_a 2 = .ok (some 3) ∧
    bimap.pairs_left 7 sample_world.object_b = .ok [] ∧
    bimap.flip_left sample_world.object_a sample_world.object_a.end_left
      = .ok sample_world.object_a.end_right ∧
    bimap.pairs_left 7 sample_world.swap.object_a = .ok [] ∧
    sample_world.swap.object_a.size_ = 0 ∧
    bimap.pairs_left 7 sample_world.swap.object_b = .ok [(2, 2), (1, 1)] ∧
    bimap.pairs_right 7 sample_world.swap.object_b = .ok [(1, 1), (2, 2)] ∧
    sample_world.swap.object_b.size_ = 2 ∧
    (sample_world.swap.a.lmem 2).parent = some sample_world.swap.left_fake_b ∧
    bimap.find_left 7 sample_world.swap.object_b 2 = .ok sample_world.swap.object_b.end_left ∧
    bimap.find_left 7 sample_world.swap.object_b 1 = .ok sample_world.swap.object_b.end_left ∧
    (∃ b', bimap.insert 7 sample_world.swap.object_b 2 9 = .ok (b', some 6) ∧
      bimap.pairs_left 7 b' = .ok [(2, 2), (1, 1), (2, 9)]) ∧
    bimap.flip_left sample_world.swap.object_a sample_world.swap.object_a.end_left
      = .ok (some sample_world.swap.right_fake_b) ∧
    bimap.flip_left sample_world.swap.object_a sample_world.swap.object_a.end_left
      ≠ .ok sample_world.swap.object_a.end_right :=
  ⟨sample_flagged_wf, rfl, rfl, rfl, rfl, rfl, rfl, rfl, rfl, rfl, rfl, rfl, rfl, rfl,
    ⟨_, rfl, rfl⟩, rfl,
    (show (Except.ok (some 5) : Except Err (Option Nat)) ≠ .ok (some 1)
      from fun e => by cases e)⟩

end two_bimaps
/-! ## The predecessor of a node -/

theorem NodeTree.root_mirror (t : NodeTree) : t.mirror.root = t.root := by
  cases t <;> rfl

theorem NodeTree.toList_mirror (t : NodeTree) : t.mirror.toList = t.toList.reverse := by
  induction t with
  | nil => rfl
  | node l a r ihl ihr =>
    simp only [NodeTree.mirror, NodeTree.toList, ihl, ihr, List.reverse_append,
      List.reverse_cons, List.append_assoc, List.singleton_append]

theorem Shape.mirror {h : Heap} {t : NodeTree} {p : Nat} (hs : Shape h t p) :
    Shape h.mirror t.mirror p := by
  induction t generalizing p with
  | nil => exact trivial
  | node l a r ihl ihr =>
    obtain ⟨h1, h2, h3, h4, h5⟩ := hs
    exact ⟨h1, by rw [NodeTree.root_mirror]; exact h3, by rw [NodeTree.root_mirror]; exact h2,
      ihr h5, ihl h4⟩

namespace intrusive_details.intrusive_tree

theorem descend_right_mirror (n : Nat) (h : Heap) (a : Nat) :
    descend_right n h a = descend_left n h.mirror a := by
  induction n generalizing a with
  | zero => rfl
  | succ n ih =>
    simp only [descend_right, descend_left, Heap.mirror, base_node.mirror]
    cases (h a).right with
    | none => rfl
    | some c => exact ih c

theorem climb_left_mirror (n : Nat) (h : Heap) (x : Nat) (pr : Option Nat) :
    climb_left n h x pr = climb_right n h.mirror x pr := by
  induction n generalizing x pr with
  | zero => rfl
  | succ n ih =>
    cases pr with
    | none => rfl
    | some p =>
      simp only [climb_left, climb_right, Heap.mirror, base_node.mirror]
      split
      · exact ih p _
      · rfl

theorem prev_mirror (n : Nat) (h : Heap) {a p : Nat} (hp : (h a).parent = some p) :
    prev n h (some a) = next n h.mirror (some a) := by
  simp only [prev, next, Heap.mirror, base_node.mirror, hp]
  cases (h a).left with
  | none => exact climb_left_mirror n h a (some p)
  | some l => simp only [descend_right_mirror]

theorem nextIn_reverse {xs pre post : List Nat} {p q : Nat} (hnd : xs.Nodup)
    (hsplit : xs = pre ++ q :: p :: post) : nextIn xs.reverse p = some q := by
  have hp : p ∉ post.reverse := by
    rw [hsplit] at hnd
    have h1 := (List.nodup_append.mp hnd).2.1
    have h2 := (List.nodup_cons.mp h1).2
    intro hc
    exact (List.nodup_cons.mp h2).1 (List.mem_reverse.mp hc)
  have : xs.reverse = post.reverse ++ p :: (q :: pre.reverse) := by
    rw [hsplit]; simp
  rw [this, nextIn_append_of_not_mem _ hp, nextIn_head]
  rfl

/-- In a well-formed tree `prev` of a node that has a predecessor in the in-order
sequence returns that predecessor. -/
theorem prev_spec {T : Type} {lt : T → T → Bool} {value : Nat → T} {h : Heap} {f : Nat}
    {t : NodeTree} (hinv : TreeInv lt value h f t) {pre post : List Nat} {p q : Nat}
    (hsplit : t.toList = pre ++ q :: p :: post) {n : Nat} (hn : t.toList.length ≤ n) :
    prev n h (some p) = .ok (some q) := by
  have hndt : t.toList.Nodup := (List.nodup_cons.mp hinv.nodup).2
  have hp : p ∈ t.toList := by rw [hsplit]; simp
  obtain ⟨x, hx⟩ := hinv.shape.parent_ne_none hp
  rw [prev_mirror n h hx]
  have hs := hinv.shape.mirror
  have hnd' : t.mirror.toList.Nodup := by
    rw [NodeTree.toList_mirror]; exact List.nodup_reverse.mpr hndt
  have hp' : p ∈ t.mirror.toList := by
    rw [NodeTree.toList_mirror]; exact List.mem_reverse.mpr hp
  obtain ⟨h1, _⟩ := next_in_subtree hs hnd' hp'
  apply h1 q n
  · rw [NodeTree.toList_mirror]; exact nextIn_reverse hndt hsplit
  · rw [NodeTree.toList_mirror, List.length_reverse]; exact hn

end intrusive_details.intrusive_tree

namespace bimap

variable {L R : Type}

theorem Inv.decr_left {b : bimap L R} {tl tr : NodeTree} (hinv : Inv b tl tr)
    {n : Nat} (hn : b.size_ < n) {pre post : List Nat} {p q : Nat}
    (hsplit : tl.toList = pre ++ q :: p :: post) :
    bimap.decr_left n b (some p) = .ok (some q) := by
  have hlen : tl.toList.length ≤ n := by rw [← hinv.size]; omega
  exact intrusive_tree.prev_spec hinv.left hsplit hlen

theorem Inv.decr_right {b : bimap L R} {tl tr : NodeTree} (hinv : Inv b tl tr)
    {n : Nat} (hn : b.size_ < n) {pre post : List Nat} {p q : Nat}
    (hsplit : tr.toList = pre ++ q :: p :: post) :
    bimap.decr_right n b (some p) = .ok (some q) := by
  have hlen : tr.toList.length ≤ n := by rw [← hinv.size_right]; omega
  exact intrusive_tree.prev_spec hinv.right hsplit hlen

end bimap
/-! ## Positions across changes to other entries -/

namespace bimap

variable {L R : Type}

theorem Inv.keep_on_insert {b b' : bimap L R} {tl tr : NodeTree} (hinv : Inv b tl tr)
    (hl : StrictWeakOrder b.cmp_left) (hr : StrictWeakOrder b.cmp_right)
    {n : Nat} (hn : b.size_ < n) {l : L} {r : R} {it : Option Nat}
    (hop : bimap.insert n b l r = .ok (b', it)) {p : Nat} (hp : p ∈ tl.toList) :
    ∃ tl' tr', Inv b' tl' tr' ∧ p ∈ tl'.toList ∧
      b'.lvalue p = b.lvalue p ∧ b'.rvalue p = b.rvalue p := by
  by_cases hdup : (∃ a ∈ tl.toList, equivalent b.cmp_left (b.lvalue a) l) ∨
      (∃ a ∈ tr.toList, equivalent b.cmp_right (b.rvalue a) r)
  · rw [hinv.insert_dup hl hr hn l r hdup] at hop
    have := (Prod.mk.inj (Except.ok.inj hop)).1
    subst this
    exact ⟨tl, tr, hinv, hp, rfl, rfl⟩
  · simp only [not_or, not_exists, not_and] at hdup
    obtain ⟨b'', tl', tr', e1, e2, pl, _, _, _, _, _, _, _, hvals, _⟩ :=
      hinv.insert_fresh hl hr hn l r hdup.1 hdup.2
    rw [e1] at hop
    have := (Prod.mk.inj (Except.ok.inj hop)).1
    subst this
    have hne : p ≠ b.brk := fun hc => Nat.lt_irrefl _ (hc ▸ (hinv.alloc p hp).2)
    exact ⟨tl', tr', e2, pl.mem_iff.mpr (List.mem_cons_of_mem _ hp), (hvals p hne).1,
      (hvals p hne).2⟩

theorem Inv.keep_on_erase {b b' : bimap L R} {tl tr : NodeTree} (hinv : Inv b tl tr)
    {n : Nat} (hn : b.size_ < n) {a : Nat} (ha : a ∈ tl.toList)
    (hop : bimap.erase_node_t n b a = .ok b') {p : Nat} (hp : p ∈ tl.toList) (hpa : p ≠ a) :
    ∃ tl' tr', Inv b' tl' tr' ∧ p ∈ tl'.toList ∧
      b'.lvalue p = b.lvalue p ∧ b'.rvalue p = b.rvalue p := by
  obtain ⟨b2, e3, hinv', el, _, _, _, _, _, hlv, hrv, _⟩ := hinv.erase_node_t hn ha
  rw [hop] at e3
  have := Except.ok.inj e3
  subst this
  refine ⟨_, _, hinv', ?_, by rw [hlv], by rw [hrv]⟩
  rw [el]
  exact (List.mem_erase_of_ne hpa).mpr hp

theorem Inv.keep_on_erase_left {b b' : bimap L R} {tl tr : NodeTree} (hinv : Inv b tl tr)
    (hl : StrictWeakOrder b.cmp_left) {n : Nat} (hn : b.size_ < n) {k : L} {found : Bool}
    (hop : bimap.erase_left n b k = .ok (b', found)) {p : Nat} (hp : p ∈ tl.toList)
    (hpk : ¬ equivalent b.cmp_left (b.lvalue p) k) :
    ∃ tl' tr', Inv b' tl' tr' ∧ p ∈ tl'.toList ∧
      b'.lvalue p = b.lvalue p ∧ b'.rvalue p = b.rvalue p := by
  by_cases hpres : ∃ a ∈ tl.toList, equivalent b.cmp_left (b.lvalue a) k
  · obtain ⟨a, ha, heq⟩ := hpres
    obtain ⟨b1, e1, e2⟩ := hinv.erase_left_present hl hn ha heq
    rw [e1] at hop
    have := (Prod.mk.inj (Except.ok.inj hop)).1
    subst this
    exact hinv.keep_on_erase hn ha e2 hp (fun e => hpk (e ▸ heq))
  · simp only [not_exists, not_and] at hpres
    rw [hinv.erase_left_absent hl hn hpres] at hop
    have := (Prod.mk.inj (Except.ok.inj hop)).1
    subst this
    exact ⟨tl, tr, hinv, hp, rfl, rfl⟩

theorem Inv.keep_on_erase_right {b b' : bimap L R} {tl tr : NodeTree} (hinv : Inv b tl tr)
    (hr : StrictWeakOrder b.cmp_right) {n : Nat} (hn : b.size_ < n) {k : R} {found : Bool}
    (hop : bimap.erase_right n b k = .ok (b', found)) {p : Nat} (hp : p ∈ tl.toList)
    (hpk : ¬ equivalent b.cmp_right (b.rvalue p) k) :
    ∃ tl' tr', Inv b' tl' tr' ∧ p ∈ tl'.toList ∧
      b'.lvalue p = b.lvalue p ∧ b'.rvalue p = b.rvalue p := by
  by_cases hpres : ∃ a ∈ tr.toList, equivalent b.cmp_right (b.rvalue a) k
  · obtain ⟨a, ha, heq⟩ := hpres
    obtain ⟨b1, e1, e2⟩ := hinv.erase_right_present hr hn ha heq
    rw [e1] at hop
    have := (Prod.mk.inj (Except.ok.inj hop)).1
    subst this
    exact hinv.keep_on_erase hn (hinv.perm.mem_iff.mpr ha) e2 hp (fun e => hpk (e ▸ heq))
  · simp only [not_exists, not_and] at hpres
    rw [hinv.erase_right_absent hr hn hpres] at hop
    have := (Prod.mk.inj (Except.ok.inj hop)).1
    subst this
    exact ⟨tl, tr, hinv, hp, rfl, rfl⟩

theorem Inv.navigate {b : bimap L R} {tl tr : NodeTree} (hinv : Inv b tl tr)
    {n : Nat} (hn : b.size_ < n) (p : Nat) :
    (∀ pre post, tl.toList = pre ++ p :: post →
      bimap.incr_left n b (some p) = .ok (some (post.head?.getD left_fake))) ∧
    (∀ pre q post, tl.toList = pre ++ q :: p :: post →
      bimap.decr_left n b (some p) = .ok (some q)) ∧
    (∀ pre post, tr.toList = pre ++ p :: post →
      bimap.incr_right n b (some p) = .ok (some (post.head?.getD right_fake))) ∧
    (∀ pre q post, tr.toList = pre ++ q :: p :: post →
      bimap.decr_right n b (some p) = .ok (some q)) := by
  refine ⟨?_, ?_, ?_, ?_⟩
  · intro pre post hsplit
    have hp : p ∈ tl.toList := by rw [hsplit]; simp
    have hpre : p ∉ pre := by
      have hnd := hinv.nodup_left
      rw [hsplit] at hnd
      intro hc
      exact (List.nodup_append.mp hnd).2.2 hc (List.mem_cons_self _ _)
    rw [hinv.incr_left hn hp, hsplit, intrusive_tree.nextIn_split hpre]
  · intro pre q post hsplit
    exact hinv.decr_left hn hsplit
  · intro pre post hsplit
    have hp : p ∈ tr.toList := by rw [hsplit]; simp
    have hpre : p ∉ pre := by
      have hnd := hinv.nodup_right
      rw [hsplit] at hnd
      intro hc
      exact (List.nodup_append.mp hnd).2.2 hc (List.mem_cons_self _ _)
    rw [hinv.incr_right hn hp, hsplit, intrusive_tree.nextIn_split hpre]
  · intro pre q post hsplit
    exact hinv.decr_right hn hsplit

/-- C20: let `p` be a live position of a well-formed bimap `b` (the left and the
right base of one entry share the address `p`), and let `b'` result from an
`insert`, from an erase by key whose key is not equivalent to the value of `p` on
that side, or from an erase at a live position other than `p`. Then `b'` is well
formed, `p` is a position of both traversals of `b'`, `*p` is the same value on
either side, `p.flip()` is the position `p` of the other side with the same
paired value, `++p` is the position after `p` in the traversal of `b'`
(`end` when `p` is the last) and `--p` the position before `p` when there is
one. -/
theorem live_positions_survive_changes_elsewhere {b b' : bimap L R} (hb : WellFormed b)
    {n : Nat} (hn : b.size_ < n) {ps qs : List Nat} (hps : positions_left n b = .ok ps)
    (hqs : positions_right n b = .ok qs) {p : Nat} (hp : p ∈ ps)
    (hop : (∃ l r it, insert n b l r = .ok (b', it)) ∨
      (∃ k found, erase_left n b k = .ok (b', found) ∧
        ¬ equivalent b.cmp_left (b.lvalue p) k) ∨
      (∃ k found, erase_right n b k = .ok (b', found) ∧
        ¬ equivalent b.cmp_right (b.rvalue p) k) ∨
      (∃ a it, a ∈ ps ∧ a ≠ p ∧ erase_left_it n b (some a) = .ok (b', it)) ∨
      (∃ a it, a ∈ qs ∧ a ≠ p ∧ erase_right_it n b (some a) = .ok (b', it))) :
    WellFormed b' ∧
    deref_left b' (some p) = deref_left b (some p) ∧
    deref_right b' (some p) = deref_right b (some p) ∧
    flip_left b' (some p) = .ok (some p) ∧ flip_right b' (some p) = .ok (some p) ∧
    pair_at_left b' p = pair_at_left b p ∧ pair_at_right b' p = pair_at_right b p ∧
    ∀ m, b'.size_ < m →
      ∃ ps' qs', positions_left m b' = .ok ps' ∧ positions_right m b' = .ok qs' ∧
        p ∈ ps' ∧ p ∈ qs' ∧
        (∀ pre post, ps' = pre ++ p :: post →
          incr_left m b' (some p) = .ok (some (post.head?.getD left_fake))) ∧
        (∀ pre q post, ps' = pre ++ q :: p :: post →
          decr_left m b' (some p) = .ok (some q)) ∧
        (∀ pre post, qs' = pre ++ p :: post →
          incr_right m b' (some p) = .ok (some (post.head?.getD right_fake))) ∧
        (∀ pre q post, qs' = pre ++ q :: p :: post →
          decr_right m b' (some p) = .ok (some q)) := by
  obtain ⟨hl, hr, tl, tr, hinv⟩ := hb.inv
  have hps' := hinv.positions_left_eq hn hps
  have hqs' := hinv.positions_right_eq hn hqs
  subst hps' hqs'
  have hkey : WellFormed b' ∧ ∃ tl' tr', Inv b' tl' tr' ∧ p ∈ tl'.toList ∧
      b'.lvalue p = b.lvalue p ∧ b'.rvalue p = b.rvalue p := by
    rcases hop with ⟨l, r, it, e⟩ | ⟨k, found, e, hk⟩ | ⟨k, found, e, hk⟩ | ⟨a, it, ha, hpa, e⟩ |
        ⟨a, it, ha, hpa, e⟩
    · exact ⟨WellFormed.insert hb hn e, hinv.keep_on_insert hl hr hn e hp⟩
    · exact ⟨WellFormed.erase_left hb hn e, hinv.keep_on_erase_left hl hn e hp hk⟩
    · exact ⟨WellFormed.erase_right hb hn e, hinv.keep_on_erase_right hr hn e hp hk⟩
    · refine ⟨WellFormed.erase_left_it hb hn hps ha e, ?_⟩
      obtain ⟨b1, e1, e2⟩ := hinv.erase_left_it hn ha
      rw [e1] at e
      have := (Prod.mk.inj (Except.ok.inj e)).1
      subst this
      exact hinv.keep_on_erase hn ha e2 hp (Ne.symm hpa)
    · refine ⟨WellFormed.erase_right_it hb hn hqs ha e, ?_⟩
      obtain ⟨b1, e1, e2⟩ := hinv.erase_right_it hn ha
      rw [e1] at e
      have := (Prod.mk.inj (Except.ok.inj e)).1
      subst this
      exact hinv.keep_on_erase hn (hinv.perm.mem_iff.mpr ha) e2 hp (Ne.symm hpa)
  obtain ⟨hwf, tl', tr', hinv', hp', hlv, hrv⟩ := hkey
  have hpr : p ∈ tr.toList := hinv.perm.mem_iff.mp hp
  have hpr' : p ∈ tr'.toList := hinv'.perm.mem_iff.mp hp'
  refine ⟨hwf, by simp [deref_left, hlv], by simp [deref_right, hrv], hinv'.flip_left hp',
    hinv'.flip_right hpr', ?_, ?_, ?_⟩
  · rw [hinv'.pair_at_left hp', hinv.pair_at_left hp, hlv, hrv]
  · rw [hinv'.pair_at_right hpr', hinv.pair_at_right hpr, hlv, hrv]
  · intro m hm
    obtain ⟨n1, n2, n3, n4⟩ := hinv'.navigate hm p
    exact ⟨tl'.toList, tr'.toList, hinv'.positions_left hm, hinv'.positions_right hm, hp', hpr',
      n1, n2, n3, n4⟩

end bimap

/-- The bimap holding `(2, 0)` and `(1, 5)` after `erase_left(2)`. -/
theorem sample_erased_eq :
    bimap.erase_left 5 sample_two 2 = .ok (state_of (bimap.erase_left 5 sample_two 2), true) :=
  rfl

namespace bimap

theorem live_positions_survive_changes_elsewhere_witness :
    WellFormed (state_of (erase_left 5 sample_two 2)) ∧
    deref_left (state_of (erase_left 5 sample_two 2)) (some 3) = deref_left sample_two (some 3) ∧
    deref_right (state_of (erase_left 5 sample_two 2)) (some 3)
      = deref_right sample_two (some 3) ∧
    flip_left (state_of (erase_left 5 sample_two 2)) (some 3) = .ok (some 3) ∧
    flip_right (state_of (erase_left 5 sample_two 2)) (some 3) = .ok (some 3) ∧
    pair_at_left (state_of (erase_left 5 sample_two 2)) 3 = pair_at_left sample_two 3 ∧
    pair_at_right (state_of (erase_left 5 sample_two 2)) 3 = pair_at_right sample_two 3 ∧
    ∀ m, (state_of (erase_left 5 sample_two 2)).size_ < m →
      ∃ ps' qs', positions_left m (state_of (erase_left 5 sample_two 2)) = .ok ps' ∧
        positions_right m (state_of (erase_left 5 sample_two 2)) = .ok qs' ∧
        3 ∈ ps' ∧ 3 ∈ qs' ∧
        (∀ pre post, ps' = pre ++ 3 :: post →
          incr_left m (state_of (erase_left 5 sample_two 2)) (some 3)
            = .ok (some (post.head?.getD left_fake))) ∧
        (∀ pre q post, ps' = pre ++ q :: 3 :: post →
          decr_left m (state_of (erase_left 5 sample_two 2)) (some 3) = .ok (some q)) ∧
        (∀ pre post, qs' = pre ++ 3 :: post →
          incr_right m (state_of (erase_left 5 sample_two 2)) (some 3)
            = .ok (some (post.head?.getD right_fake))) ∧
        (∀ pre q post, qs' = pre ++ q :: 3 :: post →
          decr_right m (state_of (erase_left 5 sample_two 2)) (some 3) = .ok (some q)) :=
  live_positions_survive_changes_elsewhere sample_two_wf
    (show sample_two.size_ < 5 by decide)
    (show positions_left 5 sample_two = .ok [3, 2] from rfl)
    (show positions_right 5 sample_two = .ok [2, 3] from rfl)
    (show 3 ∈ [3, 2] by decide)
    (Or.inr (Or.inl ⟨2, true, sample_erased_eq, fun h => absurd h.1 (by decide)⟩))

end bimap

/-! ## The ends of the in-order sequence -/

namespace intrusive_details.intrusive_tree

/-- In a well-formed non-empty tree `prev` of the sentinel is the last node of the
in-order sequence. -/
theorem prev_fake {T : Type} {lt : T → T → Bool} {value : Nat → T} {h : Heap} {f : Nat}
    {t : NodeTree} (hinv : TreeInv lt value h f t) {m : Nat}
    (hm : t.toList.getLast? = some m) {n : Nat} (hn : t.toList.length ≤ n) :
    prev n h (some f) = .ok (some m) := by
  cases ht : t with
  | nil => subst ht; simp [NodeTree.toList] at hm
  | node l a r =>
    subst ht
    have hfl := hinv.fake_left
    simp only [NodeTree.root] at hfl
    have hs : Shape h.mirror (NodeTree.node r.mirror a l.mirror) f := hinv.shape.mirror
    have hlen : (NodeTree.node r.mirror a l.mirror).toList.length ≤ n := by
      have := NodeTree.toList_mirror (NodeTree.node l a r)
      simp only [NodeTree.mirror] at this
      rw [this, List.length_reverse]
      exact hn
    have hd := descend_left_spec hs hlen
    have hhead := NodeTree.head_toList r.mirror l.mirror a
    have hrev := NodeTree.toList_mirror (NodeTree.node l a r)
    simp only [NodeTree.mirror] at hrev
    rw [hrev, List.head?_reverse, hm] at hhead
    have hfirst : r.mirror.first a = m := (Option.some.inj hhead).symm
    simp only [prev, hfl, descend_right_mirror, hd, hfirst]

theorem nextIn_last {xs : List Nat} {p : Nat} (hp : p ∉ xs) : nextIn (xs ++ [p]) p = none := by
  rw [nextIn_append_of_not_mem _ hp]
  rfl

/-- In a well-formed tree `prev` of the first node of the in-order sequence is
null: the climb passes the sentinel, whose `left` is the root, and ends at the
sentinel's null parent. -/
theorem prev_first {T : Type} {lt : T → T → Bool} {value : Nat → T} {h : Heap} {f : Nat}
    {t : NodeTree} (hinv : TreeInv lt value h f t) {p : Nat}
    (hp : t.toList.head? = some p) {n : Nat} (hn : t.toList.length < n) :
    prev n h (some p) = .ok none := by
  have hndt : t.toList.Nodup := (List.nodup_cons.mp hinv.nodup).2
  obtain ⟨rest, hrest⟩ := List.head?_eq_some_iff.mp hp
  have hmem : p ∈ t.toList := by rw [hrest]; simp
  obtain ⟨x, hx⟩ := hinv.shape.parent_ne_none hmem
  rw [prev_mirror n h hx]
  have hs := hinv.shape.mirror
  have hnd' : t.mirror.toList.Nodup := by
    rw [NodeTree.toList_mirror]; exact List.nodup_reverse.mpr hndt
  have hp' : p ∈ t.mirror.toList := by
    rw [NodeTree.toList_mirror]; exact List.mem_reverse.mpr hmem
  obtain ⟨_, h2⟩ := next_in_subtree hs hnd' hp'
  have hnone : nextIn t.mirror.toList p = none := by
    rw [NodeTree.toList_mirror, hrest, List.reverse_cons]
    apply nextIn_last
    rw [hrest] at hndt
    intro hc
    exact (List.nodup_cons.mp hndt).1 (List.mem_reverse.mp hc)
  obtain ⟨hr0, hclimb⟩ := h2 hnone
  have hx' : (h.mirror p).parent = some x := hx
  cases ht : t with
  | nil => subst ht; simp [NodeTree.toList] at hmem
  | node l c r =>
    subst ht
    have hsp := NodeTree.rspine_lt r.mirror l.mirror c
    have hlen : (NodeTree.node r.mirror c l.mirror).toList.length
        = (NodeTree.node l c r).toList.length := by
      have := NodeTree.toList_mirror (NodeTree.node l c r)
      simp only [NodeTree.mirror] at this
      rw [this, List.length_reverse]
    obtain ⟨m, hm⟩ : ∃ m, n = (m + 2) + (NodeTree.node l c r).mirror.rspine := by
      refine ⟨n - (NodeTree.node l c r).mirror.rspine - 2, ?_⟩
      simp only [NodeTree.mirror]
      omega
    have hc := hclimb (m + 2) c rfl
    have hfl := hinv.fake_left
    simp only [NodeTree.root] at hfl
    have hfr : (h.mirror f).right = some c := hfl
    have hfp : (h.mirror f).parent = none := hinv.fake_parent
    simp only [next, hx', hr0]
    rw [← hx', hm, hc]
    simp [climb_right, hfr, hfp]

end intrusive_details.intrusive_tree

namespace intrusive_details.intrusive_tree

theorem split_last (pre : List Nat) (hne : pre ≠ []) : ∃ pre' q, pre = pre' ++ [q] := by
  induction pre with
  | nil => exact absurd rfl hne
  | cons a rest ih =>
    cases rest with
    | nil => exact ⟨[], a, rfl⟩
    | cons b rest' =>
      obtain ⟨pre', q, e⟩ := ih (by simp)
      exact ⟨a :: pre', q, by rw [e]; rfl⟩

/-- Navigation in a well-formed tree whose sentinel's `right` points to no node of
the tree. -/
theorem navigation_spec {T : Type} {lt : T → T → Bool} (hlt : StrictWeakOrder lt)
    {value : Nat → T} {h : Heap} {f : Nat} {t : NodeTree} (hinv : TreeInv lt value h f t)
    (hfr : ∀ a ∈ t.toList, (h f).right ≠ some a) {n : Nat} (hn : t.toList.length < n) :
    (∀ pre p post, t.toList = pre ++ p :: post →
      next n h (some p) = .ok (some (post.head?.getD f)) ∧
      (∀ s, post.head? = some s →
        lt (value p) (value s) = true ∧
        ∀ c ∈ t.toList, lt (value p) (value c) = true → lt (value c) (value s) = false) ∧
      (post = [] → ∀ c ∈ t.toList, lt (value p) (value c) = false)) ∧
    next n h (some f) = .ok (some f) ∧
    (∀ m, t.toList.getLast? = some m → prev n h (some f) = .ok (some m)) ∧
    (∀ p, t.toList.head? = some p → prev n h (some p) = .ok none) ∧
    (∀ pre q p post, t.toList = pre ++ q :: p :: post → prev n h (some p) = .ok (some q)) ∧
    (∀ p ∈ t.toList, ∃ s, next n h (some p) = .ok s ∧ prev n h s = .ok (some p)) ∧
    (∀ p ∈ t.toList, t.toList.head? ≠ some p →
      ∃ q, prev n h (some p) = .ok q ∧ next n h q = .ok (some p)) ∧
    begin n f h = .ok (t.toList.head?.getD f) := by
  have hndt : t.toList.Nodup := (List.nodup_cons.mp hinv.nodup).2
  have hle : t.toList.length ≤ n := Nat.le_of_lt hn
  have hnext : ∀ pre p post, t.toList = pre ++ p :: post →
      next n h (some p) = .ok (some (post.head?.getD f)) := by
    intro pre p post hsplit
    have hp : p ∈ t.toList := by rw [hsplit]; simp
    have hpre : p ∉ pre := by
      have hnd := hndt
      rw [hsplit] at hnd
      intro hc
      exact (List.nodup_append.mp hnd).2.2 hc (List.mem_cons_self _ _)
    rw [next_spec hinv hfr hp hn, hsplit, nextIn_split hpre]
  refine ⟨?_, next_fake hinv n, ?_, ?_, ?_, ?_, ?_, begin_spec hinv hle⟩
  · intro pre p post hsplit
    have hs := hinv.sorted
    rw [hsplit, List.pairwise_append, List.pairwise_cons] at hs
    obtain ⟨_, ⟨hpost, hpp⟩, hprep⟩ := hs
    have hbefore : ∀ c ∈ pre, lt (value p) (value c) = false :=
      fun c hc => StrictWeakOrder.asymm hlt (hprep c hc p (List.mem_cons_self _ _))
    refine ⟨hnext pre p post hsplit, ?_, ?_⟩
    · intro s hs
      obtain ⟨post', rfl⟩ := List.head?_eq_some_iff.mp hs
      refine ⟨hpost s (List.mem_cons_self _ _), ?_⟩
      intro c hc hpc
      rw [hsplit] at hc
      rcases List.mem_append.mp hc with h1 | h1
      · rw [hbefore c h1] at hpc; exact absurd hpc (by decide)
      · rcases List.mem_cons.mp h1 with rfl | h2
        · rw [hlt.irrefl] at hpc; exact absurd hpc (by decide)
        · rcases List.mem_cons.mp h2 with rfl | h3
          · exact hlt.irrefl _
          · exact StrictWeakOrder.asymm hlt ((List.pairwise_cons.mp hpp).1 c h3)
    · intro hnil c hc
      subst hnil
      rw [hsplit] at hc
      rcases List.mem_append.mp hc with h1 | h1
      · exact hbefore c h1
      · rcases List.mem_cons.mp h1 with rfl | h2
        · exact hlt.irrefl _
        · simp at h2
  · intro m hm
    exact prev_fake hinv hm hle
  · intro p hp
    exact prev_first hinv hp hn
  · intro pre q p post hsplit
    exact prev_spec hinv hsplit hle
  · intro p hp
    obtain ⟨pre, post, hsplit⟩ := List.append_of_mem hp
    refine ⟨_, hnext pre p post hsplit, ?_⟩
    cases post with
    | nil =>
      apply prev_fake hinv _ hle
      rw [hsplit]
      exact List.getLast?_concat pre
    | cons s post' => exact prev_spec hinv hsplit hle
  · intro p hp hhead
    obtain ⟨pre, post, hsplit⟩ := List.append_of_mem hp
    have hne : pre ≠ [] := by
      intro e
      subst e
      apply hhead
      rw [hsplit]
      rfl
    obtain ⟨pre', q, rfl⟩ := split_last pre hne
    have hsplit' : t.toList = pre' ++ q :: p :: post := by rw [hsplit]; simp
    refine ⟨some q, prev_spec hinv hsplit' hle, ?_⟩
    exact hnext pre' q (p :: post) hsplit'

end intrusive_details.intrusive_tree

namespace bimap

variable {L R : Type}

/-- C21: in either tree of a well-formed bimap, with `xs` the nodes in order (the
values are strictly increasing along `xs`, by C8): `next(p)` of a node `p` is the
node after `p` in `xs`, whose value is greater than that of `p` and not greater
than any other value greater than that of `p`, and is the sentinel when `p` is the
last node, no value being greater then; `next` of the sentinel is the sentinel;
`prev` of the sentinel is the last node of `xs` when there is one; `prev` of the
first node is null and `prev` of any other node is the node before it;
`prev(next(p)) == p` for every node `p`, and `next(prev(p)) == p` for every node
but the first; `begin()` is the first node, or the sentinel when `xs` is empty. -/
theorem next_prev_begin_follow_the_order {b : bimap L R} (hb : WellFormed b) {n : Nat}
    (hn : b.size_ < n) {ps qs : List Nat} (hps : positions_left n b = .ok ps)
    (hqs : positions_right n b = .ok qs) :
    (∀ pre p post, ps = pre ++ p :: post →
      intrusive_tree.next n b.lmem (some p) = .ok (some (post.head?.getD left_fake)) ∧
      (∀ s, post.head? = some s →
        b.cmp_left (b.lvalue p) (b.lvalue s) = true ∧
        ∀ c ∈ ps, b.cmp_left (b.lvalue p) (b.lvalue c) = true →
          b.cmp_left (b.lvalue c) (b.lvalue s) = false) ∧
      (post = [] → ∀ c ∈ ps, b.cmp_left (b.lvalue p) (b.lvalue c) = false)) ∧
    intrusive_tree.next n b.lmem (some left_fake) = .ok (some left_fake) ∧
    (∀ m, ps.getLast? = some m →
      intrusive_tree.prev n b.lmem (some left_fake) = .ok (some m)) ∧
    (∀ p, ps.head? = some p → intrusive_tree.prev n b.lmem (some p) = .ok none) ∧
    (∀ pre q p post, ps = pre ++ q :: p :: post →
      intrusive_tree.prev n b.lmem (some p) = .ok (some q)) ∧
    (∀ p ∈ ps, ∃ s, intrusive_tree.next n b.lmem (some p) = .ok s ∧
      intrusive_tree.prev n b.lmem s = .ok (some p)) ∧
    (∀ p ∈ ps, ps.head? ≠ some p →
      ∃ q, intrusive_tree.prev n b.lmem (some p) = .ok q ∧
        intrusive_tree.next n b.lmem q = .ok (some p)) ∧
    intrusive_tree.begin n left_fake b.lmem = .ok (ps.head?.getD left_fake) ∧
    (∀ pre p post, qs = pre ++ p :: post →
      intrusive_tree.next n b.rmem (some p) = .ok (some (post.head?.getD right_fake)) ∧
      (∀ s, post.head? = some s →
        b.cmp_right (b.rvalue p) (b.rvalue s) = true ∧
        ∀ c ∈ qs, b.cmp_right (b.rvalue p) (b.rvalue c) = true →
          b.cmp_right (b.rvalue c) (b.rvalue s) = false) ∧
      (post = [] → ∀ c ∈ qs, b.cmp_right (b.rvalue p) (b.rvalue c) = false)) ∧
    intrusive_tree.next n b.rmem (some right_fake) = .ok (some right_fake) ∧
    (∀ m, qs.getLast? = some m →
      intrusive_tree.prev n b.rmem (some right_fake) = .ok (some m)) ∧
    (∀ p, qs.head? = some p → intrusive_tree.prev n b.rmem (some p) = .ok none) ∧
    (∀ pre q p post, qs = pre ++ q :: p :: post →
      intrusive_tree.prev n b.rmem (some p) = .ok (some q)) ∧
    (∀ p ∈ qs, ∃ s, intrusive_tree.next n b.rmem (some p) = .ok s ∧
      intrusive_tree.prev n b.rmem s = .ok (some p)) ∧
    (∀ p ∈ qs, qs.head? ≠ some p →
      ∃ q, intrusive_tree.prev n b.rmem (some p) = .ok q ∧
        intrusive_tree.next n b.rmem q = .ok (some p)) ∧
    intrusive_tree.begin n right_fake b.rmem = .ok (qs.head?.getD right_fake) := by
  obtain ⟨hl, hr, tl, tr, hinv⟩ := hb.inv
  have hps' := hinv.positions_left_eq hn hps
  have hqs' := hinv.positions_right_eq hn hqs
  subst hps' hqs'
  have hlenl : tl.toList.length < n := by rw [← hinv.size]; exact hn
  have hlenr : tr.toList.length < n := by rw [← hinv.size_right]; exact hn
  obtain ⟨a1, a2, a3, a4, a5, a6, a7, a8⟩ :=
    intrusive_tree.navigation_spec hl hinv.left hinv.left_cross hlenl
  obtain ⟨c1, c2, c3, c4, c5, c6, c7, c8⟩ :=
    intrusive_tree.navigation_spec hr hinv.right hinv.right_cross hlenr
  exact ⟨a1, a2, a3, a4, a5, a6, a7, a8, c1, c2, c3, c4, c5, c6, c7, c8⟩

theorem next_prev_begin_follow_the_order_witness :
    (∀ pre p post, [3, 2] = pre ++ p :: post →
      intrusive_tree.next 5 sample_two.lmem (some p) = .ok (some (post.head?.getD left_fake)) ∧
      (∀ s, post.head? = some s →
        sample_two.cmp_left (sample_two.lvalue p) (sample_two.lvalue s) = true ∧
        ∀ c ∈ [3, 2],
          sample_two.cmp_left (sample_two.lvalue p) (sample_two.lvalue c) = true →
          sample_two.cmp_left (sample_two.lvalue c) (sample_two.lvalue s) = false) ∧
      (post = [] →
        ∀ c ∈ [3, 2], sample_two.cmp_left (sample_two.lvalue p) (sample_two.lvalue c) = false)) ∧
    intrusive_tree.next 5 sample_two.lmem (some left_fake) = .ok (some left_fake) ∧
    (∀ m, [3, 2].getLast? = some m →
      intrusive_tree.prev 5 sample_two.lmem (some left_fake) = .ok (some m)) ∧
    (∀ p, [3, 2].head? = some p → intrusive_tree.prev 5 sample_two.lmem (some p) = .ok none) ∧
    (∀ pre q p post, [3, 2] = pre ++ q :: p :: post →
      intrusive_tree.prev 5 sample_two.lmem (some p) = .ok (some q)) ∧
    (∀ p ∈ [3, 2], ∃ s, intrusive_tree.next 5 sample_two.lmem (some p) = .ok s ∧
      intrusive_tree.prev 5 sample_two.lmem s = .ok (some p)) ∧
    (∀ p ∈ [3, 2], [3, 2].head? ≠ some p →
      ∃ q, intrusive_tree.prev 5 sample_two.lmem (some p) = .ok q ∧
        intrusive_tree.next 5 sample_two.lmem q = .ok (some p)) ∧
    intrusive_tree.begin 5 left_fake sample_two.lmem = .ok ([3, 2].head?.getD left_fake) ∧
    (∀ pre p post, [2, 3] = pre ++ p :: post →
      intrusive_tree.next 5 sample_two.rmem (some p) = .ok (some (post.head?.getD right_fake)) ∧
      (∀ s, post.head? = some s →
        sample_two.cmp_right (sample_two.rvalue p) (sample_two.rvalue s) = true ∧
        ∀ c ∈ [2, 3],
          sample_two.cmp_right (sample_two.rvalue p) (sample_two.rvalue c) = true →
          sample_two.cmp_right (sample_two.rvalue c) (sample_two.rvalue s) = false) ∧
      (post = [] →
        ∀ c ∈ [2, 3], sample_two.cmp_right (sample_two.rvalue p) (sample_two.rvalue c) = false)) ∧
    intrusive_tree.next 5 sample_two.rmem (some right_fake) = .ok (some right_fake) ∧
    (∀ m, [2, 3].getLast? = some m →
      intrusive_tree.prev 5 sample_two.rmem (some right_fake) = .ok (some m)) ∧
    (∀ p, [2, 3].head? = some p → intrusive_tree.prev 5 sample_two.rmem (some p) = .ok none) ∧
    (∀ pre q p post, [2, 3] = pre ++ q :: p :: post →
      intrusive_tree.prev 5 sample_two.rmem (some p) = .ok (some q)) ∧
    (∀ p ∈ [2, 3], ∃ s, intrusive_tree.next 5 sample_two.rmem (some p) = .ok s ∧
      intrusive_tree.prev 5 sample_two.rmem s = .ok (some p)) ∧
    (∀ p ∈ [2, 3], [2, 3].head? ≠ some p →
      ∃ q, intrusive_tree.prev 5 sample_two.rmem (some p) = .ok q ∧
        intrusive_tree.next 5 sample_two.rmem q = .ok (some p)) ∧
    intrusive_tree.begin 5 right_fake sample_two.rmem = .ok ([2, 3].head?.getD right_fake) :=
  next_prev_begin_follow_the_order sample_two_wf (show sample_two.size_ < 5 by decide)
    (show positions_left 5 sample_two = .ok [3, 2] from rfl)
    (show positions_right 5 sample_two = .ok [2, 3] from rfl)

end bimap
